import Mathlib

/-!
The Block / Context / Reference engine of `internal/hcl/block.go`.

A shallow embedding of the block tree of `internal/hcl/block.go`.  Go pointers
become indices into an explicit heap (`Heap`), one address space per object
kind (`*Context`, `*hcl.Block`, `*Block`); a dereference of `nil` or of an
address outside the heap is `none`, the embedding of a Go panic.
-/

namespace Hcl

/-! ## Strings and formatting (Go standard library) -/

/-- The Go function `strings.Join`. -/
def join (sep : String) : List String → String
  | [] => ""
  | [a] => a
  | a :: b :: rest => a ++ sep ++ join sep (b :: rest)

/-- The verb `%d` of `fmt.Sprintf` applied to an `int`: decimal digits with a
leading minus sign for negative values. -/
def fmtD (n : Int) : String :=
  match n with
  | Int.ofNat m => Nat.repr m
  | Int.negSucc m => "-" ++ Nat.repr (m + 1)

/-- The double quote character. -/
def dquote : Char := Char.ofNat 34

/-- The backslash character. -/
def backslash : Char := Char.ofNat 92

/-- Lower-case hexadecimal rendering of `n` on exactly `width` digits
(`lowerhex[r>>s&0xF]` for `s` from the top nibble down to 0). -/
def lowerHex (width n : Nat) : String :=
  String.mk ((List.range width).reverse.map fun i => Nat.digitChar ((n / 16 ^ i) % 16))

/-- The function `strconv.IsPrint`.  The Latin-1 range is decided in code; for
larger runes Go consults its Unicode tables, which are taken as the parameter
`table`. -/
def isPrint (table : Char → Bool) (r : Char) : Bool :=
  if r.toNat ≤ 0xFF then
    if 0x20 ≤ r.toNat ∧ r.toNat ≤ 0x7E then true
    else if 0xA1 ≤ r.toNat ∧ r.toNat ≤ 0xFF then r.toNat != 0xAD
    else false
  else table r

/-- The function `appendEscapedRune` of `strconv` for the double quote
delimiter (neither ASCII-only nor graphic-only), on one valid rune. -/
def escapeRune (table : Char → Bool) (r : Char) : String :=
  if r = dquote ∨ r = backslash then String.mk [backslash, r]
  else if isPrint table r then String.singleton r
  else if r.toNat = 7 then String.mk [backslash, 'a']
  else if r.toNat = 8 then String.mk [backslash, 'b']
  else if r.toNat = 12 then String.mk [backslash, 'f']
  else if r.toNat = 10 then String.mk [backslash, 'n']
  else if r.toNat = 13 then String.mk [backslash, 'r']
  else if r.toNat = 9 then String.mk [backslash, 't']
  else if r.toNat = 11 then String.mk [backslash, 'v']
  else if r.toNat < 0x20 ∨ r.toNat = 0x7F then String.mk [backslash, 'x'] ++ lowerHex 2 r.toNat
  else if r.toNat < 0x10000 then String.mk [backslash, 'u'] ++ lowerHex 4 r.toNat
  else String.mk [backslash, 'U'] ++ lowerHex 8 r.toNat

/-- Concatenation of the escaped runes of a list of characters. -/
def escapeRunes (table : Char → Bool) : List Char → String
  | [] => ""
  | r :: rs => escapeRune table r ++ escapeRunes table rs

/-- The verb `%q` of `fmt.Sprintf` on a string, that is `strconv.Quote`: the
escaped runes between two double quotes. -/
def fmtQ (table : Char → Bool) (s : String) : String :=
  String.singleton dquote ++ escapeRunes table s.data ++ String.singleton dquote

/-! ## Numbers: `big.Float`, `float64` and `int` -/

/-- A value of `*big.Float` (the representation of `cty.Number`):
`(-1)^neg * mant * 2^exp`, or an infinity. -/
inductive BigFloat where
  | finite (neg : Bool) (mant : Nat) (exp : Int)
  | inf (neg : Bool)
  deriving DecidableEq

/-- Number of binary digits of `n`, with `fuel` as recursion bound. -/
def bitLenAux : Nat → Nat → Nat
  | 0, _ => 0
  | fuel + 1, n => if n = 0 then 0 else 1 + bitLenAux fuel (n / 2)

/-- Number of binary digits of `n` (0 for 0). -/
def bitLen (n : Nat) : Nat := bitLenAux n n

/-- The method `(*big.Float).Float64`: the nearest `float64`, ties to even.
A `float64` keeps at most 53 significant bits and no bit below `2^(-1074)`;
a magnitude that rounds to `2^1024` or more becomes an infinity.  The result
is again written `mant * 2^exp`. -/
def BigFloat.Float64 : BigFloat → BigFloat
  | .inf neg => .inf neg
  | .finite neg m e =>
    let k : Int := max ((bitLen m : Int) - 53) (-1074 - e)
    let drop : Nat := k.toNat
    let q := m / 2 ^ drop
    let r := m % 2 ^ drop
    let half := 2 ^ (drop - 1)
    let q1 := if 0 < drop ∧ (half < r ∨ (r = half ∧ q % 2 = 1)) then q + 1 else q
    let e1 := e + (drop : Int)
    if 1024 < (bitLen q1 : Int) + e1 then .inf neg else .finite neg q1 e1

/-- The smallest `int` of a 64-bit platform. -/
def minInt64 : Int := -(2 ^ 63)

/-- The conversion `int(f)` of a `float64`: the fraction is discarded
(truncation towards zero).  When the truncated value does not fit in 64 bits
the Go specification leaves the result to the implementation; the value chosen
here is the one of amd64. -/
def goInt : BigFloat → Int
  | .inf _ => minInt64
  | .finite neg m e =>
    let t : Nat := if 0 ≤ e then m * 2 ^ e.toNat else m / 2 ^ (-e).toNat
    let v : Int := if neg then -(t : Int) else (t : Int)
    if minInt64 ≤ v ∧ v < 2 ^ 63 then v else minInt64

/-- Mathematical truncation of a number towards zero (no machine limits). -/
def BigFloat.trunc : BigFloat → Option Int
  | .inf _ => none
  | .finite neg m e =>
    let t : Nat := if 0 ≤ e then m * 2 ^ e.toNat else m / 2 ^ (-e).toNat
    some (if neg then -(t : Int) else (t : Int))

/-- An integer as a `cty.Number` (`cty.NumberIntVal`). -/
def BigFloat.ofInt (n : Int) : BigFloat := .finite (decide (n < 0)) n.natAbs 0

/-! ## `cty` values -/

/-- The `cty` types that the code distinguishes. -/
inductive CtyType where
  | number
  | string
  | bool
  | dynamic
  | other (name : String)
  deriving DecidableEq

/-- A `cty.Value`.  `nilVal` is the zero `cty.Value` (`cty.NilVal`); a value
of a type other than number, string and bool carries its type name and its
`%#v` rendering. -/
inductive Val where
  | nilVal
  | unknown (ty : CtyType)
  | null (ty : CtyType)
  | number (x : BigFloat)
  | string (s : String)
  | bool (b : Bool)
  | other (tyName : String) (goString : String)
  deriving DecidableEq

/-- The method `Value.IsKnown`. -/
def Val.IsKnown : Val → Bool
  | .unknown _ => false
  | _ => true

/-- The method `Value.IsNull`; the zero value has no payload and counts as null. -/
def Val.IsNull : Val → Bool
  | .null _ => true
  | .nilVal => true
  | _ => false

/-- The verb `%#v` on a `cty.Value` (its `GoString`), for the values that reach
the default branch of `Clone`. -/
def Val.goString : Val → String
  | .bool true => "cty.True"
  | .bool false => "cty.False"
  | .other _ s => s
  | _ => ""

/-- The call `gocty.ToCtyValue(v, cty.Number)` on a `cty.Value`, with the error
result discarded as the caller does: the value is passed to `convert.Convert`.
A number is returned unchanged; a known string is parsed with
`cty.ParseNumberVal` (the parameter `parse`); unknown and null strings and
dynamic values become the unknown and the null number; every other value has no
conversion to number, and the result is then `cty.NilVal`. -/
def toCtyNumber (parse : String → Option BigFloat) : Val → Val
  | .number x => .number x
  | .unknown .number => .unknown .number
  | .null .number => .null .number
  | .string s =>
    match parse s with
    | some x => .number x
    | none => .nilVal
  | .unknown .string => .unknown .number
  | .unknown .dynamic => .unknown .number
  | .null .string => .null .number
  | .null .dynamic => .null .number
  | _ => .nilVal

/-- A value is a known number. -/
def Val.isNumber : Val → Bool
  | .number _ => true
  | _ => false

/-! ## Syntax nodes -/

/-- An attribute of a body: its name and the source text of its expression. -/
structure HclAttr where
  name : String
  expr : String
  deriving DecidableEq

mutual
/-- A value of `hcl.Block`: type tag, labels and body. -/
inductive HclBlock where
  | mk (type : String) (labels : List String) (body : Body)
/-- A `hcl.Body`.  `syntaxBody` is a `*hclsyntax.Body`, which exposes its
attributes and nested blocks directly.  `schemaBody` is any other
implementation, seen through `PartialContent(terraformSchemaV012)`: `diag` is
the returned diagnostics (`none` for `nil`, otherwise the answer of
`HasErrors`), `blocks` the blocks of the returned content, and `attrs` the
result of `JustAttributes` on the remaining body (`none` when it comes with
diagnostics).  The returned content is taken to be present: with errors in the
diagnostics it is not read, and for a content that is `nil` without such
errors, on which `NewHCLBlock` does not return, see `newSchemaBlock`. -/
inductive Body where
  | syntaxBody (attrs : List HclAttr) (blocks : List HclBlock)
  | schemaBody (diag : Option Bool) (attrs : Option (List HclAttr)) (blocks : List HclBlock)
end

/-- Field `Type` of `hcl.Block`. -/
def HclBlock.type : HclBlock → String
  | .mk t _ _ => t

/-- Field `Labels` of `hcl.Block`. -/
def HclBlock.labels : HclBlock → List String
  | .mk _ l _ => l

/-- Field `Body` of `hcl.Block`. -/
def HclBlock.body : HclBlock → Body
  | .mk _ _ b => b

/-! ## Heap objects -/

/-- Modelled from the spec: the type `Context` (its source file is not part of
the sources at hand).  A hierarchical scope: at most one parent, and the values
bound in this scope by dotted path, most recent binding first. -/
structure Context where
  parent : Option Nat
  vars : List (String × Val)
  deriving DecidableEq

/-- Modelled from the spec: the type `Attribute`, as far as `block.go` builds
it: the syntax attribute and the Context it is evaluated in. -/
structure Attribute where
  hclAttr : HclAttr
  ctx : Option Nat
  deriving DecidableEq

/-- The struct `Block`.  Pointers are heap addresses, `none` is `nil`.  The
field `cloneIndex` is a Go `int` that starts at 0 and is only ever incremented,
once per `Clone` call; it is kept as a natural number, since leaving the range
of `int` would take 2^63 calls. -/
structure Block where
  hclBlock : Option Nat
  context : Option Nat
  moduleBlock : Option Nat
  expanded : Bool
  cloneIndex : Nat
  childBlocks : List Nat
  cachedAttributes : List Attribute
  deriving DecidableEq

/-- The heap: the allocated `Context`, `hcl.Block` and `Block` objects; the
address of an object is its position. -/
structure Heap where
  ctxs : List Context
  nodes : List HclBlock
  blocks : List Block

/-! ## Reference -/

/-- Modelled from the spec: the type `Reference` with `newReference` and
`Reference.String` (their source file is not part of the sources at hand): a
path of segments, rendered by joining the segments with the separator ".". -/
structure Reference where
  parts : List String
  deriving DecidableEq

/-- Modelled from the spec: `newReference`, which keeps the path it is given. -/
def newReference (parts : List String) : Reference := ⟨parts⟩

/-- Modelled from the spec: `Reference.String`, the segments joined with ".". -/
def Reference.String (r : Reference) : String := join "." r.parts

/-! ## Accessors of `Block` -/

/-- Dereference of `b.hclBlock` for the block at address `bp`. -/
def Heap.nodeOf (h : Heap) (bp : Nat) : Option HclBlock :=
  match h.blocks[bp]? with
  | none => none
  | some b =>
    match b.hclBlock with
    | none => none
    | some n => h.nodes[n]?

/-- The method `Block.Type`. -/
def Block.Type (h : Heap) (bp : Nat) : Option String :=
  (h.nodeOf bp).map HclBlock.type

/-- The method `Block.Labels`. -/
def Block.Labels (h : Heap) (bp : Nat) : Option (List String) :=
  (h.nodeOf bp).map HclBlock.labels

/-- The method `Block.Reference`: the type is put in front of the labels unless
it is "resource". -/
def Block.Reference (h : Heap) (bp : Nat) : Option Reference :=
  match Block.Type h bp with
  | none => none
  | some t =>
    let parts : List String := if t ≠ "resource" then [] ++ [t] else []
    match Block.Labels h bp with
    | none => none
    | some ls => some (newReference (parts ++ ls))

/-- The method `Block.LocalName`. -/
def Block.LocalName (h : Heap) (bp : Nat) : Option String :=
  (Block.Reference h bp).map Reference.String

/-- The method `Block.FullName`.  The recursion follows `moduleBlock` pointers
through the heap; `fuel` bounds the number of calls. -/
def Block.FullName : Nat → Heap → Nat → Option String
  | 0, _, _ => none
  | fuel + 1, h, bp =>
    match h.blocks[bp]? with
    | none => none
    | some b =>
      match b.moduleBlock with
      | some m =>
        match Block.FullName fuel h m with
        | none => none
        | some mf =>
          match Block.LocalName h bp with
          | none => none
          | some ln => some (mf ++ "." ++ ln)
      | none => Block.LocalName h bp

/-- The owning-module chain of a block, outermost module first: `[]` for a block
without owning module, otherwise the chain of the owner followed by the owner. -/
inductive ModuleChain (h : Heap) : Nat → List Nat → Prop where
  | root (bp : Nat) (b : Block) (hb : h.blocks[bp]? = some b) (hm : b.moduleBlock = none) :
      ModuleChain h bp []
  | step (bp m : Nat) (b : Block) (ms : List Nat) (hb : h.blocks[bp]? = some b)
      (hm : b.moduleBlock = some m) (hc : ModuleChain h m ms) :
      ModuleChain h bp (ms ++ [m])

/-! ## Context -/

/-- Modelled from the spec: `NewContext` on a fresh evaluation context: a new
scope with the given parent and no binding. -/
def NewContext (h : Heap) (parent : Option Nat) : Heap × Nat :=
  ({ h with ctxs := h.ctxs ++ [{ parent := parent, vars := [] }] }, h.ctxs.length)

/-- Modelled from the spec: `Context.NewChild`, which allocates a context whose
parent is the receiver. -/
def Context.NewChild (h : Heap) (c : Nat) : Option (Heap × Nat) :=
  match h.ctxs[c]? with
  | none => none
  | some _ => some (NewContext h (some c))

/-- Modelled from the spec: `Context.SetByDot`, which binds a value at a dotted
path in the receiver. -/
def Context.SetByDot (h : Heap) (c : Nat) (v : Val) (path : String) : Option Heap :=
  match h.ctxs[c]? with
  | none => none
  | some cx => some { h with ctxs := h.ctxs.set c { cx with vars := (path, v) :: cx.vars } }

/-- Modelled from the spec: `Context.Root`, the walk to the top-most ancestor. -/
def Context.Root : Nat → Heap → Nat → Option Nat
  | 0, _, _ => none
  | fuel + 1, h, c =>
    match h.ctxs[c]? with
    | none => none
    | some cx =>
      match cx.parent with
      | none => some c
      | some p => Context.Root fuel h p

/-- The `k`-th ancestor of a context (the context itself for `k = 0`). -/
def Context.ancestor (h : Heap) : Nat → Nat → Option Nat
  | 0, c => if c < h.ctxs.length then some c else none
  | k + 1, c =>
    match h.ctxs[c]? with
    | none => none
    | some cx =>
      match cx.parent with
      | none => none
      | some p => Context.ancestor h k p

/-- Modelled from the spec: the lookup contract of a Context: the local scope
is checked first, then the parent chain. -/
def Context.resolve : Nat → Heap → Nat → String → Option Val
  | 0, _, _, _ => none
  | fuel + 1, h, c, path =>
    match h.ctxs[c]? with
    | none => none
    | some cx =>
      match cx.vars.lookup path with
      | some v => some v
      | none =>
        match cx.parent with
        | none => none
        | some p => Context.resolve fuel h p path

/-- The value bound at `path` in the context at address `c` itself. -/
def Context.bound (h : Heap) (c : Nat) (path : String) : Option Val :=
  match h.ctxs[c]? with
  | none => none
  | some cx => cx.vars.lookup path

/-! ## Construction -/

/-- Allocation of a `hcl.Block`. -/
def Heap.allocNode (h : Heap) (n : HclBlock) : Heap × Nat :=
  ({ h with nodes := h.nodes ++ [n] }, h.nodes.length)

/-- Allocation of a `Block` (`&Block{...}`). -/
def Heap.allocBlock (h : Heap) (b : Block) : Heap × Nat :=
  ({ h with blocks := h.blocks ++ [b] }, h.blocks.length)

/-- The composite literal `&Block{context, hclBlock, moduleBlock, childBlocks}`;
the fields that are not named take their zero value. -/
def Block.new (np c : Nat) (m : Option Nat) (children : List Nat) : Block :=
  { hclBlock := some np, context := some c, moduleBlock := m, expanded := false,
    cloneIndex := 0, childBlocks := children, cachedAttributes := [] }

mutual
/-- The function `NewHCLBlock` on the `hcl.Block` at address `np`, whose body is
`body`.  A `nil` context is replaced by a new root context.  The children are
built before the block itself is allocated. -/
def newBlock (body : Body) (np : Nat) (ctx m : Option Nat) (h : Heap) : Heap × Nat :=
  match body with
  | .syntaxBody _ blocks =>
    let hc := match ctx with
      | some c => (h, c)
      | none => NewContext h none
    let r := newChildren blocks hc.2 m hc.1
    r.1.allocBlock (Block.new np hc.2 m r.2)
  | .schemaBody diag _ blocks =>
    let hc := match ctx with
      | some c => (h, c)
      | none => NewContext h none
    if diag = some true then
      hc.1.allocBlock (Block.new np hc.2 m [])
    else
      let r := newChildren blocks hc.2 m hc.1
      r.1.allocBlock (Block.new np hc.2 m r.2)
/-- The loops of `NewHCLBlock` over the nested blocks: each nested block is
turned into a `hcl.Block` object (`AsHCLBlock`, or an element of
`content.Blocks`) and built with the same context and owning module. -/
def newChildren : List HclBlock → Nat → Option Nat → Heap → Heap × List Nat
  | [], _, _, h => (h, [])
  | (.mk t ls body) :: ns, c, m, h =>
    let a := h.allocNode (.mk t ls body)
    let r := newBlock body a.2 (some c) m a.1
    let rs := newChildren ns c m r.1
    (rs.1, r.2 :: rs.2)
end

/-- The function `NewHCLBlock`, reading the `hcl.Block` at address `np`. -/
def NewHCLBlock (h : Heap) (np : Nat) (ctx m : Option Nat) : Option (Heap × Nat) :=
  match h.nodes[np]? with
  | none => none
  | some node => some (newBlock node.body np ctx m h)

/-- The statements of `NewHCLBlock` that follow the type switch, for a body that
is not a `*hclsyntax.Body`, with the result of
`PartialContent(terraformSchemaV012)` as input: `content` is the returned
content (`none` for `nil`) and `diag` the returned diagnostics.  With errors in
the diagnostics the content is not read.  Without errors the loop ranges over
`content.Blocks`, which dereferences `content`: on a `nil` content the call
does not return. -/
def newSchemaBlock (content : Option (List HclBlock)) (diag : Option Bool) (np : Nat)
    (ctx m : Option Nat) (h : Heap) : Option (Heap × Nat) :=
  let hc := match ctx with
    | some c => (h, c)
    | none => NewContext h none
  if diag = some true then
    some (hc.1.allocBlock (Block.new np hc.2 m []))
  else
    match content with
    | none => none
    | some blocks =>
      let r := newChildren blocks hc.2 m hc.1
      some (r.1.allocBlock (Block.new np hc.2 m r.2))

/-! ## Expansion -/

/-- The label written by `Clone` at the last position: the old label followed
by the index in square brackets. -/
def cloneLabel (table : Char → Bool) (label : String) (index : Val) (cloneIndex : Nat) :
    String :=
  if index.IsKnown && !index.IsNull then
    match index with
    | .number x => label ++ "[" ++ fmtD (goInt x.Float64) ++ "]"
    | .string s => label ++ "[" ++ fmtQ table s ++ "]"
    | v => label ++ "[" ++ v.goString ++ "]"
  else
    label ++ "[" ++ fmtD (cloneIndex : Int) ++ "]"

/-- The label list that `Clone` stores in the clone: a copy of the labels with
the last position rewritten, when there is at least one label. -/
def cloneLabels (table : Char → Bool) (labels : List String) (index : Val) (cloneIndex : Nat) :
    List String :=
  if labels.length > 0 then
    let position := labels.length - 1
    labels.set position (cloneLabel table (labels.getD position "") index cloneIndex)
  else labels

/-- Assignment to the field `Labels` of the `hcl.Block` at address `np`. -/
def Heap.setLabels (h : Heap) (np : Nat) (labels : List String) : Option Heap :=
  match h.nodes[np]? with
  | none => none
  | some node => some { h with nodes := h.nodes.set np (.mk node.type labels node.body) }

/-- Assignment to fields of the `Block` at address `bp`. -/
def Heap.modifyBlock (h : Heap) (bp : Nat) (f : Block → Block) : Option Heap :=
  match h.blocks[bp]? with
  | none => none
  | some b => some { h with blocks := h.blocks.set bp (f b) }

/-- The method `Block.Clone`.  `parse` is `cty.ParseNumberVal` and `table` the
Unicode tables of `strconv.IsPrint`. -/
def Block.Clone (parse : String → Option BigFloat) (table : Char → Bool)
    (h : Heap) (bp : Nat) (index : Val) : Option (Heap × Nat) := do
  let b ← h.blocks[bp]?
  let (h1, childCtx) ← (match b.context with
    | some c => Context.NewChild h c
    | none => some (NewContext h none))
  let np ← b.hclBlock
  let node ← h1.nodes[np]?
  let (h2, cloneHCL) := h1.allocNode node
  let (h3, clone) ← NewHCLBlock h2 cloneHCL (some childCtx) b.moduleBlock
  let cb ← h3.blocks[clone]?
  let cnp ← cb.hclBlock
  let cnode ← h3.nodes[cnp]?
  let h4 ← (if cnode.labels.length > 0 then
      h3.setLabels cnp (cloneLabels table cnode.labels index b.cloneIndex)
    else some h3)
  let indexVal := toCtyNumber parse index
  let cctx ← cb.context
  let h5 ← Context.SetByDot h4 cctx indexVal "count.index"
  let h6 ← h5.modifyBlock clone (fun x => { x with expanded := true })
  let h7 ← h6.modifyBlock bp (fun x => { x with cloneIndex := x.cloneIndex + 1 })
  pure (h7, clone)

/-- The method `Block.IsCountExpanded`. -/
def Block.IsCountExpanded (h : Heap) (bp : Nat) : Option Bool :=
  (h.blocks[bp]?).map Block.expanded

/-- The method `Block.Context`. -/
def Block.Context (h : Heap) (bp : Nat) : Option (Option Nat) :=
  (h.blocks[bp]?).map Block.context

/-- The evaluator's loop over the indices of a repeated block: one `Clone`
call on the same block per index, in order; the clones are collected. -/
def Block.cloneAll (parse : String → Option BigFloat) (table : Char → Bool) :
    Heap → Nat → List Val → Option (Heap × List Nat)
  | h, _, [] => some (h, [])
  | h, bp, i :: rest =>
    match Block.Clone parse table h bp i with
    | none => none
    | some r =>
      match Block.cloneAll parse table r.1 bp rest with
      | none => none
      | some rs => some (rs.1, r.2 :: rs.2)

/-! ## Rebinding -/

/-- One iteration of the loop of `OverrideContext`:
`block.OverrideContext(ctx.NewChild())`, where `recur` is the recursive call. -/
def overrideChild (recur : Heap → Nat → Option Nat → Option Heap) (ctx : Option Nat)
    (acc : Heap) (child : Nat) : Option Heap :=
  match ctx with
  | none => none
  | some c =>
    match Context.NewChild acc c with
    | none => none
    | some hc => recur hc.1 child (some hc.2)

/-- The method `Block.OverrideContext`.  The recursion follows `childBlocks`
pointers through the heap; `fuel` bounds its depth. -/
def Block.OverrideContext : Nat → Heap → Nat → Option Nat → Option Heap
  | 0, _, _, _ => none
  | fuel + 1, h, bp, ctx =>
    match h.blocks[bp]? with
    | none => none
    | some b =>
      b.childBlocks.foldlM (overrideChild (Block.OverrideContext fuel) ctx)
        ({ h with blocks := h.blocks.set bp { b with context := ctx } })

/-! ## Attributes and injection -/

/-- The assignment `m[k] = v` on a Go map, kept as an association list with one
entry per key. -/
def mapInsert {α : Type} : List (String × α) → String → α → List (String × α)
  | [], k, v => [(k, v)]
  | (k1, v1) :: rest, k, v =>
    if k1 = k then (k, v) :: rest else (k1, v1) :: mapInsert rest k v

/-- The method `Block.getHCLAttributes` on the `hcl.Block` of the block: the
attribute map of a syntax body; for another body the attributes of the
remaining body, and the nil map when diagnostics come back.  Go ranges over a
map in an unspecified order; the order of the list stands for the order of one
run. -/
def getHCLAttributes (node : HclBlock) : List (String × HclAttr) :=
  match node.body with
  | .syntaxBody attrs _ => attrs.foldl (fun m a => mapInsert m a.name a) []
  | .schemaBody diag attrs _ =>
    if diag ≠ none then []
    else
      match attrs with
      | none => []
      | some as => as.foldl (fun m a => mapInsert m a.name a) []

/-- The method `Block.GetAttributes`; the receiver may be `nil`.  The result is
also stored in `cachedAttributes`. -/
def Block.GetAttributes (h : Heap) (bp : Option Nat) : Option (Heap × List Attribute) :=
  match bp with
  | none => some (h, [])
  | some p =>
    match h.blocks[p]? with
    | none => none
    | some b =>
      match b.hclBlock with
      | none => some (h, [])
      | some np =>
        match h.nodes[np]? with
        | none => none
        | some node =>
          let results : List Attribute :=
            (getHCLAttributes node).map fun a => { hclAttr := a.2, ctx := b.context }
          some ({ h with blocks := h.blocks.set p { b with cachedAttributes := results } },
            results)

/-- Modelled from the spec: `Attribute.Name`, the name of the syntax attribute. -/
def Attribute.Name (a : Attribute) : String := a.hclAttr.name

/-- The method `Block.Attributes`: the attributes by name. -/
def Block.Attributes (h : Heap) (bp : Option Nat) :
    Option (Heap × List (String × Attribute)) :=
  match Block.GetAttributes h bp with
  | none => none
  | some r => some (r.1, r.2.foldl (fun m a => mapInsert m a.Name a) [])

/-- Assignment to the field `Type` of the `hcl.Block` at address `np`. -/
def Heap.setType (h : Heap) (np : Nat) (t : String) : Option Heap :=
  match h.nodes[np]? with
  | none => none
  | some node => some { h with nodes := h.nodes.set np (.mk t node.labels node.body) }

/-- The method `Block.InjectBlock` with receiver `bp` and synthetic block `sp`.
`value` is `Attribute.Value` (evaluation of an attribute in its Context, not
part of the sources at hand) and `fuel` bounds the walk of `Context.Root`. -/
def Block.InjectBlock (value : Heap → Attribute → Val) (fuel : Nat) (h : Heap) (bp sp : Nat)
    (name : String) : Option Heap := do
  let sb ← h.blocks[sp]?
  let snp ← sb.hclBlock
  let h1 ← h.setLabels snp []
  let h2 ← h1.setType snp name
  let (h3, attrs) ← Block.Attributes h2 (some sp)
  let h4 ← attrs.foldlM (fun (acc : Heap) (a : String × Attribute) => do
      let b ← acc.blocks[bp]?
      let c ← b.context
      let root ← Context.Root fuel acc c
      let ref ← Block.LocalName acc bp
      Context.SetByDot acc root (value acc a.2) (ref ++ "." ++ name ++ "." ++ a.1)) h3
  h4.modifyBlock bp (fun x => { x with childBlocks := x.childBlocks ++ [sp] })

/-! ## Lookup -/

/-- The loop of `Blocks.OfType`: `results` collects the blocks met so far whose
type is `t`. -/
def ofTypeLoop (h : Heap) (t : String) : List Nat → List Nat → Option (List Nat)
  | [], results => some results
  | block :: rest, results =>
    match Block.Type h block with
    | none => none
    | some ty => ofTypeLoop h t rest (if ty = t then results ++ [block] else results)

/-- The method `Blocks.OfType`. -/
def Blocks.OfType (h : Heap) (blocks : List Nat) (t : String) : Option (List Nat) :=
  ofTypeLoop h t blocks []

/-- The loop of `Block.GetBlock` over the children: the first child whose type
is `name`, or `nil`. -/
def getBlockLoop (h : Heap) (name : String) : List Nat → Option (Option Nat)
  | [] => some none
  | child :: rest =>
    match Block.Type h child with
    | none => none
    | some ty => if ty = name then some (some child) else getBlockLoop h name rest

/-- The method `Block.GetBlock`; the receiver may be `nil`, and the result is a
pointer that may be `nil`. -/
def Block.GetBlock (h : Heap) (b : Option Nat) (name : String) : Option (Option Nat) :=
  match b with
  | none => some none
  | some p =>
    match h.blocks[p]? with
    | none => none
    | some blk =>
      match blk.hclBlock with
      | none => some none
      | some _ => getBlockLoop h name blk.childBlocks

/-- The method `Block.AllBlocks`; the `nil` slice is the empty list. -/
def Block.AllBlocks (h : Heap) (b : Option Nat) : Option (List Nat) :=
  match b with
  | none => some []
  | some p =>
    match h.blocks[p]? with
    | none => none
    | some blk =>
      match blk.hclBlock with
      | none => some []
      | some _ => some blk.childBlocks

/-- The method `Block.GetAttribute`: the first attribute of `GetAttributes`
with the given name, or `nil`. -/
def Block.GetAttribute (h : Heap) (b : Option Nat) (name : String) :
    Option (Heap × Option Attribute) :=
  match b with
  | none => some (h, none)
  | some p =>
    match h.blocks[p]? with
    | none => none
    | some blk =>
      match blk.hclBlock with
      | none => some (h, none)
      | some _ =>
        match Block.GetAttributes h (some p) with
        | none => none
        | some r => some (r.1, r.2.find? (fun a => decide (a.Name = name)))

/-- Modelled from the spec: `Attribute.IsNotNil` on a pointer to an attribute,
true exactly when the pointer is not `nil`. -/
def Attribute.IsNotNil (a : Option Attribute) : Bool := a.isSome

/-- The method `Block.HasChild`; the block lookup is only made when no attribute
is found. -/
def Block.HasChild (h : Heap) (b : Option Nat) (childElement : String) : Option (Heap × Bool) :=
  match Block.GetAttribute h b childElement with
  | none => none
  | some r =>
    if Attribute.IsNotNil r.2 then some (r.1, true)
    else
      match Block.GetBlock r.1 b childElement with
      | none => none
      | some blk => some (r.1, blk.isSome)

/-- The method `Block.Values`: the object value whose fields are the values of
the attributes, kept as an association list.  `value` is `Attribute.Value`. -/
def Block.Values (value : Heap → Attribute → Val) (h : Heap) (b : Option Nat) :
    Option (Heap × List (String × Val)) :=
  match Block.GetAttributes h b with
  | none => none
  | some r => some (r.1, r.2.foldl (fun m a => mapInsert m a.Name (value r.1 a)) [])

/-- The method `Block.HasModuleBlock`; the receiver may be `nil`. -/
def Block.HasModuleBlock (h : Heap) (b : Option Nat) : Option Bool :=
  match b with
  | none => some false
  | some p =>
    match h.blocks[p]? with
    | none => none
    | some blk => some blk.moduleBlock.isSome

/-- The method `Block.TypeLabel`.  The labels are read through `b.Labels()`,
which dereferences the receiver and its `hcl.Block`. -/
def Block.TypeLabel (h : Heap) (b : Option Nat) : Option String :=
  match b with
  | none => none
  | some p =>
    match Block.Labels h p with
    | none => none
    | some ls => if ls.length > 0 then ls[0]? else some ""

/-- The method `Block.NameLabel`. -/
def Block.NameLabel (h : Heap) (b : Option Nat) : Option String :=
  match b with
  | none => none
  | some p =>
    match Block.Labels h p with
    | none => none
    | some ls => if ls.length > 1 then ls[1]? else some ""

/-- The method `Block.Label`. -/
def Block.Label (h : Heap) (bp : Nat) : Option String :=
  (h.nodeOf bp).map fun n => join "." n.labels

/-! ## Loading -/

/-- The result of `file.Body.Content(terraformSchemaV012)`: the content, which
may be `nil`, with its blocks, and the diagnostics (`none` for `nil`, otherwise
the answer of `HasErrors`). -/
structure FileContent where
  contents : Option (List HclBlock)
  diags : Option Bool

/-- The error returned by `loadBlocksFromFile`: the diagnostics, or the error
"file contents is empty". -/
inductive LoadError where
  | diagnostics
  | emptyContents
  deriving DecidableEq

/-- The function `loadBlocksFromFile`, on the result of `Content` for the body
of the file. -/
def loadBlocksFromFile (file : FileContent) : Except LoadError (List HclBlock) :=
  if file.diags = some true then .error .diagnostics
  else
    match file.contents with
    | none => .error .emptyContents
    | some c => .ok c

/-! ## Label slices -/

/-- A Go slice of strings: the address of its backing array in a store of
arrays, and its length.  The slice starts at the first element of its array;
its capacity is the length of the array.  Two slices with the same array share
their elements. -/
structure Slice where
  array : Nat
  len : Nat
  deriving DecidableEq

/-- The index expression `s[i]`; an index out of range does not return. -/
def Slice.get (arrays : List (List String)) (s : Slice) (i : Nat) : Option String :=
  if i < s.len then (arrays[s.array]?).bind (fun a => a[i]?) else none

/-- The assignment `s[i] = v`, which writes into the backing array. -/
def Slice.set (arrays : List (List String)) (s : Slice) (i : Nat) (v : String) :
    Option (List (List String)) :=
  if i < s.len then
    match arrays[s.array]? with
    | none => none
    | some a => if i < a.length then some (arrays.set s.array (a.set i v)) else none
  else none

/-- The elements seen through a slice, in order. -/
def Slice.toList (arrays : List (List String)) (s : Slice) : Option (List String) :=
  match arrays[s.array]? with
  | none => none
  | some a => if s.len ≤ a.length then some (a.take s.len) else none

/-- The call `make([]string, n)`: a new array of `n` empty strings and the
slice of all of it. -/
def makeStrings (arrays : List (List String)) (n : Nat) : List (List String) × Slice :=
  (arrays ++ [List.replicate n ""], { array := arrays.length, len := n })

/-- The loop `for i := 0; i < len(labels); i++ { labels[i] = clone.hclBlock.Labels[i] }`
of `Clone`, at the index `i` with `n` iterations left: `src` is the label slice
of the copied `hcl.Block` and `dst` the slice `labels`. -/
def copyLabels (src dst : Slice) : Nat → Nat → List (List String) → Option (List (List String))
  | _, 0, arrays => some arrays
  | i, n + 1, arrays =>
    match src.get arrays i with
    | none => none
    | some v =>
      match dst.set arrays i v with
      | none => none
      | some a => copyLabels src dst (i + 1) n a

/-- The statements of `Clone` on the labels, with the labels as slices.  The
copy `cloneHCL := *b.hclBlock` has the label slice `s` of the original, with
the same backing array.  When there is a label, `labels` is made, filled by the
loop, its last position is written with the label read from the copy, and it
becomes the label slice of the clone; otherwise the clone keeps `s`.  The
result is the store of arrays and the label slice of the clone. -/
def cloneLabelSlice (table : Char → Bool) (arrays : List (List String)) (s : Slice)
    (index : Val) (cloneIndex : Nat) : Option (List (List String) × Slice) :=
  if s.len > 0 then
    let position := s.len - 1
    let m := makeStrings arrays s.len
    match copyLabels s m.2 0 m.2.len m.1 with
    | none => none
    | some a1 =>
      match s.get a1 position with
      | none => none
      | some old =>
        match m.2.set a1 position (cloneLabel table old index cloneIndex) with
        | none => none
        | some a2 => some (a2, m.2)
  else some (arrays, s)

/-! ## Specification predicates -/

/-- No context of the heap has a parent outside the heap (Go has no dangling
pointers). -/
def Heap.ctxClosed (h : Heap) : Prop :=
  ∀ (q : Nat) (cx : Context) (p : Nat),
    h.ctxs[q]? = some cx → cx.parent = some p → p < h.ctxs.length


/-- The heap `h2` is `h1` after allocations made by a construction with context
`c` and owning module `m`: the contexts are the same, nodes and blocks are only
added, and every added block carries `c` and `m`, is not expanded, has clone
counter 0, and has allocated children. -/
structure Grows (c : Nat) (m : Option Nat) (h1 h2 : Heap) : Prop where
  ctxs : h2.ctxs = h1.ctxs
  nodes : ∃ ns, h2.nodes = h1.nodes ++ ns
  blocks : ∃ bs, h2.blocks = h1.blocks ++ bs ∧
    ∀ b ∈ bs, b.context = some c ∧ b.moduleBlock = m ∧ b.expanded = false ∧
      b.cloneIndex = 0 ∧ ∀ k ∈ b.childBlocks, k < h2.blocks.length

/-- The result of a construction in a given context: the heap grows, the
returned address is the last block, which wraps the node with the given context
and module, and its children are blocks added by this construction. -/
def BuiltAt (np c : Nat) (m : Option Nat) (h : Heap) (r : Heap × Nat) : Prop :=
  Grows c m h r.1 ∧ h.blocks.length ≤ r.2 ∧ r.2 + 1 = r.1.blocks.length ∧
    ∃ kids, r.1.blocks[r.2]? = some (Block.new np c m kids) ∧
      ∀ k ∈ kids, h.blocks.length ≤ k ∧ k < r.2

/-- What `Clone` does to the heap `h` for the block `b` at address `bp`, whose
`hcl.Block` is `node`: `h2` is the heap after the call and `clone` the returned
address. -/
structure CloneSpec (parse : String → Option BigFloat) (table : Char → Bool) (h : Heap)
    (bp : Nat) (b : Block) (node : HclBlock) (index : Val) (h2 : Heap) (clone : Nat) : Prop where
  fresh : h.blocks.length ≤ clone
  origin : h2.blocks[bp]? = some { b with cloneIndex := b.cloneIndex + 1 }
  blocks_old : ∀ q, q < h.blocks.length → q ≠ bp → h2.blocks[q]? = h.blocks[q]?
  nodes_old : ∀ q, q < h.nodes.length → h2.nodes[q]? = h.nodes[q]?
  ctxs_old : ∀ q, q < h.ctxs.length → h2.ctxs[q]? = h.ctxs[q]?
  ctxs_len : h2.ctxs.length = h.ctxs.length + 1
  cloneCtx : h2.ctxs[h.ctxs.length]? =
    some { parent := b.context, vars := [("count.index", toCtyNumber parse index)] }
  cloneNode : h2.nodes[h.nodes.length]? =
    some (.mk node.type (cloneLabels table node.labels index b.cloneIndex) node.body)
  built : clone = (newBlock node.body h.nodes.length (some h.ctxs.length) b.moduleBlock
      ((NewContext h b.context).1.allocNode node).1).2
  cloneBlock : ∃ kids,
    (newBlock node.body h.nodes.length (some h.ctxs.length) b.moduleBlock
      ((NewContext h b.context).1.allocNode node).1).1.blocks[clone]? =
      some (Block.new h.nodes.length h.ctxs.length b.moduleBlock kids) ∧
    h2.blocks[clone]? =
      some { Block.new h.nodes.length h.ctxs.length b.moduleBlock kids with expanded := true } ∧
    ∀ k ∈ kids, h.blocks.length ≤ k ∧ k < clone ∧
      h2.blocks[k]? = (newBlock node.body h.nodes.length (some h.ctxs.length) b.moduleBlock
        ((NewContext h b.context).1.allocNode node).1).1.blocks[k]? ∧
      ∃ kb, h2.blocks[k]? = some kb ∧ kb.context = some h.ctxs.length ∧
        kb.moduleBlock = b.moduleBlock

/-- The shape of a block tree in the heap: the address of a block and the trees
of its children, in order. -/
inductive BTree where
  | node (ptr : Nat) (kids : List BTree)

/-- The address of the root of a tree. -/
def BTree.ptr : BTree → Nat
  | .node p _ => p

mutual
/-- The blocks of a tree, each with its depth below the root (the root has
depth 0), in preorder. -/
def BTree.nodes : BTree → List (Nat × Nat)
  | .node p kids => (p, 0) :: (BTree.nodesAll kids).map (fun x => (x.1, x.2 + 1))
/-- The blocks of a list of trees, each with its depth below the root of its
tree. -/
def BTree.nodesAll : List BTree → List (Nat × Nat)
  | [] => []
  | t :: ts => t.nodes ++ BTree.nodesAll ts
end

mutual
/-- The heap holds the tree `t`: the child sequence of every block of `t` is the
sequence of the roots of its subtrees. -/
def Represents (h : Heap) : BTree → Prop
  | .node p kids =>
    (h.blocks[p]?).map Block.childBlocks = some (kids.map BTree.ptr) ∧ RepresentsAll h kids
/-- The heap holds every tree of the list. -/
def RepresentsAll (h : Heap) : List BTree → Prop
  | [] => True
  | t :: ts => Represents h t ∧ RepresentsAll h ts
end

/-- A block with its Context field cleared: everything of a block but its
Context. -/
def Block.dropContext (b : Block) : Block := { b with context := none }

/-- What a rebinding does to the heap `h`: `ps` lists the rebound blocks with
their depths, `c0` is the context handed in and `shift` the depth of the roots
below `c0`.  Nodes are untouched, contexts are only added, blocks outside `ps`
are untouched, no block changes in anything but its Context, and a block of
depth `k` has a Context whose ancestor number `k + shift` is `c0`, allocated by
the rebinding unless it is `c0` itself. -/
structure Rebound (h : Heap) (ps : List (Nat × Nat)) (c0 shift : Nat) (h2 : Heap) : Prop where
  nodes : h2.nodes = h.nodes
  ctxs : ∃ cs, h2.ctxs = h.ctxs ++ cs
  frame : ∀ q : Nat, q ∉ ps.map Prod.fst → h2.blocks[q]? = h.blocks[q]?
  strip : ∀ q : Nat, (h2.blocks[q]?).map Block.dropContext = (h.blocks[q]?).map Block.dropContext
  bound : ∀ d k : Nat, (d, k) ∈ ps → ∃ c, (h2.blocks[d]?).map Block.context = some (some c) ∧
    Context.ancestor h2 (k + shift) c = some c0 ∧ (1 ≤ k + shift → h.ctxs.length ≤ c)

/-- In the words of the specification: the sub-sequence of `bs` made of the
blocks whose type is `t`, in the order of `bs`. -/
def subseqOfType (h : Heap) (t : String) (bs : List Nat) : List Nat :=
  bs.filter fun p => decide (Block.Type h p = some t)

/-- The shape of a tree of blocks: type and labels of a block and the shapes of
its children, in order. -/
inductive Shape where
  | node (type : String) (labels : List String) (kids : List Shape)

mutual
/-- In the words of the specification: the tree built for a syntax node has the
type and labels of the node and one child per nested node, in order, except
that a node seen through the schema whose extraction reports errors has no
children. -/
def shapeOf : HclBlock → Shape
  | .mk t ls body => .node t ls (kidShapes body)
/-- The shapes of the children built for a body. -/
def kidShapes : Body → List Shape
  | .syntaxBody _ blocks => shapesOf blocks
  | .schemaBody diag _ blocks => if diag = some true then [] else shapesOf blocks
/-- The shapes of the trees built for a list of nested nodes. -/
def shapesOf : List HclBlock → List Shape
  | [] => []
  | n :: ns => shapeOf n :: shapesOf ns
end

mutual
/-- The tree with one child per nested node at every level, in source order. -/
def fullShape : HclBlock → Shape
  | .mk t ls body => .node t ls (fullKids body)
/-- One shape per nested node of a body. -/
def fullKids : Body → List Shape
  | .syntaxBody _ blocks => fullShapes blocks
  | .schemaBody _ _ blocks => fullShapes blocks
/-- One shape per node of a list. -/
def fullShapes : List HclBlock → List Shape
  | [] => []
  | n :: ns => fullShape n :: fullShapes ns
end

mutual
/-- The node is a syntax node throughout: its body and the bodies of all nested
nodes expose their children directly (as every `AsHCLBlock` of a
`*hclsyntax.Block` does). -/
def allSyntax : HclBlock → Prop
  | .mk _ _ body => allSyntaxBody body
/-- The body is a syntax body and so are all bodies below it. -/
def allSyntaxBody : Body → Prop
  | .syntaxBody _ blocks => allSyntaxList blocks
  | .schemaBody _ _ _ => False
/-- Every node of the list is a syntax node throughout. -/
def allSyntaxList : List HclBlock → Prop
  | [] => True
  | n :: ns => allSyntax n ∧ allSyntaxList ns
end

mutual
/-- The block at address `bp` is the root of a tree of blocks of the given
shape in which every block, at every depth, has a `hcl.Block` with the type and
labels of the shape, the Context `c` and the owning module `m`. -/
def Holds (h : Heap) (c : Nat) (m : Option Nat) : Nat → Shape → Prop
  | bp, .node t ls kids =>
    ∃ b np nd, h.blocks[bp]? = some b ∧ b.hclBlock = some np ∧ h.nodes[np]? = some nd ∧
      nd.type = t ∧ nd.labels = ls ∧ b.context = some c ∧ b.moduleBlock = m ∧
      HoldsAll h c m b.childBlocks kids
/-- The blocks at the addresses `ps` are, in order, roots of trees of the shapes
`ss`. -/
def HoldsAll (h : Heap) (c : Nat) (m : Option Nat) : List Nat → List Shape → Prop
  | [], [] => True
  | p :: ps, s :: ss => Holds h c m p s ∧ HoldsAll h c m ps ss
  | [], _ :: _ => False
  | _ :: _, [] => False
end

/-- The block `q` is reached from the block `p` by following child pointers. -/
inductive Reach (h : Heap) (p : Nat) : Nat → Prop where
  | root : Reach h p p
  | child (q k : Nat) (b : Block) (hr : Reach h p q) (hb : h.blocks[q]? = some b)
      (hk : k ∈ b.childBlocks) : Reach h p k

/-- In the words of the specification: the attribute set derived from a syntax
node for a block whose Context is `ctx`: one attribute per entry of the
attribute map of the node, each carrying `ctx`. -/
def attributesOf (node : HclBlock) (ctx : Option Nat) : List Attribute :=
  (getHCLAttributes node).map fun a => { hclAttr := a.2, ctx := ctx }

/-- The block with its attribute cache emptied. -/
def Block.dropCache (b : Block) : Block := { b with cachedAttributes := [] }

/-- The heap with the attribute cache of every block emptied: two heaps with
the same image differ only in the fields `cachedAttributes` of their blocks. -/
def Heap.dropCache (h : Heap) : Heap := { h with blocks := h.blocks.map Block.dropCache }

/-! ## Sample heaps -/

/-- The syntax node of a resource `aws_instance.web` with one nested block. -/
def sampleNode : HclBlock :=
  .mk "resource" ["aws_instance", "web"]
    (.syntaxBody [] [.mk "ebs_block_device" [] (.syntaxBody [] [])])

/-- A resource block `aws_instance.web` with one nested block, in a root context. -/
def sampleResource : Heap :=
  { ctxs := [{ parent := none, vars := [] }],
    nodes := [sampleNode],
    blocks := [Block.new 0 0 none []] }

/-- Two module calls, `module.vpc` and inside it `module.db`, and a resource
`aws_instance.web` owned by the inner one. -/
def sampleModules : Heap :=
  { ctxs := [{ parent := none, vars := [] }],
    nodes := [.mk "module" ["vpc"] (.syntaxBody [] []),
      .mk "module" ["db"] (.syntaxBody [] []),
      .mk "resource" ["aws_instance", "web"] (.syntaxBody [] [])],
    blocks := [Block.new 0 0 none [], Block.new 1 0 (some 0) [], Block.new 2 0 (some 1) []] }

/-- Names of the blocks of `sampleModules`. -/
def sampleNames (p : Nat) : String :=
  if p = 0 then "module.vpc" else if p = 1 then "module.db" else "aws_instance.web"

/-- A number parser for the samples: it accepts the non-empty strings of decimal
digits and nothing else.  On the strings used below it agrees with
`cty.ParseNumberVal`. -/
def sampleParse (s : String) : Option BigFloat :=
  if s.data ≠ [] ∧ s.data.all Char.isDigit = true then
    some (.finite false (s.data.foldl (fun n c => 10 * n + (c.toNat - 48)) 0) 0)
  else none

/-- A Unicode table for the samples: no rune above Latin-1 is printable. -/
def sampleTable (_ : Char) : Bool := false

/-- The key of three characters: a, double quote, b. -/
def sampleKey : String := String.mk ['a', dquote, 'b']

/-- An evaluation of attributes for the samples: every attribute evaluates to
its source text as a string. -/
def sampleValue (_ : Heap) (a : Attribute) : Val := .string a.hclAttr.expr

/-- The resource `aws_instance.web` and a separate block `timeouts` with one
attribute, to be injected. -/
def sampleInject : Heap :=
  { ctxs := [{ parent := none, vars := [] }],
    nodes := [sampleNode, .mk "timeouts" ["x"] (.syntaxBody [{ name := "create", expr := "30m" }] [])],
    blocks := [Block.new 0 0 none [], Block.new 1 0 none []] }

/-- The heap `sampleInject` after the block at address 1 has been injected into
the resource under the name "timeouts". -/
def sampleInjected : Heap :=
  { ctxs := [⟨none, [("aws_instance.web.timeouts.create", .string "30m")]⟩],
    nodes := [sampleNode,
      .mk "timeouts" [] (.syntaxBody [{ name := "create", expr := "30m" }] [])],
    blocks := [Block.new 0 0 none [1],
      { Block.new 1 0 none [] with
        cachedAttributes := [{ hclAttr := { name := "create", expr := "30m" }, ctx := some 0 }] }] }

/-- A tree of four blocks in one root context: block 0 has the children 1 and
2, and block 1 has the child 3. -/
def sampleTree : Heap :=
  { ctxs := [{ parent := none, vars := [] }],
    nodes := [.mk "resource" ["aws_instance", "web"] (.syntaxBody [] []),
      .mk "ebs_block_device" [] (.syntaxBody [] []),
      .mk "timeouts" [] (.syntaxBody [] []),
      .mk "tags" [] (.syntaxBody [] [])],
    blocks := [Block.new 0 0 none [1, 2], Block.new 1 0 none [3], Block.new 2 0 none [],
      Block.new 3 0 none []] }

/-- The shape of `sampleTree`. -/
def sampleShape : BTree :=
  .node 0 [.node 1 [.node 3 []], .node 2 []]

/-- A heap with one block that has no `hcl.Block` but has an owning module
(address 1), next to its module block (address 0). -/
def sampleAbsent : Heap :=
  { ctxs := [{ parent := none, vars := [] }],
    nodes := [.mk "module" ["vpc"] (.syntaxBody [] [])],
    blocks := [Block.new 0 0 none [], { Block.new 0 0 (some 0) [] with hclBlock := none }] }

/-- The result of `Content` for a file with one block and diagnostics that
have errors. -/
def sampleFile : FileContent :=
  { contents := some [.mk "resource" ["aws_instance", "web"] (.syntaxBody [] [])],
    diags := some true }

/-- A node seen through the schema whose extraction reports errors, although
its content has a block. -/
def sampleBadNode : HclBlock :=
  .mk "resource" ["aws_s3_bucket", "logs"]
    (.schemaBody (some true) none [.mk "versioning" [] (.syntaxBody [] [])])

/-- A node seen through the schema whose extraction reports diagnostics
without errors, with one block in its content. -/
def sampleWarnNode : HclBlock :=
  .mk "resource" ["aws_s3_bucket", "logs"]
    (.schemaBody (some false) none [.mk "versioning" [] (.syntaxBody [] [])])

/-- A heap with the two nodes above and a root context, and no block yet. -/
def sampleSchema : Heap :=
  { ctxs := [{ parent := none, vars := [] }],
    nodes := [sampleBadNode, sampleWarnNode],
    blocks := [] }

/-- The resource `aws_instance.web` with a child `ebs_block_device` (address
2), and a separate block `timeouts` with one attribute (address 1), to be
injected. -/
def sampleInjectKid : Heap :=
  { ctxs := [{ parent := none, vars := [] }],
    nodes := [sampleNode, .mk "timeouts" ["x"] (.syntaxBody [{ name := "create", expr := "30m" }] []),
      .mk "ebs_block_device" [] (.syntaxBody [] [])],
    blocks := [Block.new 0 0 none [2], Block.new 1 0 none [], Block.new 2 0 none []] }

/-- The resource `aws_instance.web` with a child `timeouts` (address 2) that
has the attribute `create = 10m`, and a separate block with the attribute
`create = 30m` (address 1), to be injected under the same name. -/
def sampleInjectDup : Heap :=
  { ctxs := [{ parent := none, vars := [] }],
    nodes := [sampleNode, .mk "defaults" ["x"] (.syntaxBody [{ name := "create", expr := "30m" }] []),
      .mk "timeouts" [] (.syntaxBody [{ name := "create", expr := "10m" }] [])],
    blocks := [Block.new 0 0 none [2], Block.new 1 0 none [], Block.new 2 0 none []] }

/-- The resource `aws_instance.web` in a context (address 1) that is a child
of the root context (address 0), next to another child of the root (address
2), and a separate block `timeouts` with one attribute, to be injected. -/
def sampleInjectChild : Heap :=
  { ctxs := [{ parent := none, vars := [] }, { parent := some 0, vars := [] },
      { parent := some 0, vars := [] }],
    nodes := [sampleNode, .mk "timeouts" ["x"] (.syntaxBody [{ name := "create", expr := "30m" }] [])],
    blocks := [Block.new 0 1 none [], Block.new 1 1 none []] }

/-- The heap `sampleInjected` with a stale attribute cache in the injected
block: the cached attribute has another expression than the node. -/
def sampleStale : Heap :=
  { ctxs := [⟨none, [("aws_instance.web.timeouts.create", .string "30m")]⟩],
    nodes := [sampleNode,
      .mk "timeouts" [] (.syntaxBody [{ name := "create", expr := "30m" }] [])],
    blocks := [Block.new 0 0 none [1],
      { Block.new 1 0 none [] with
        cachedAttributes := [{ hclAttr := { name := "create", expr := "99h" }, ctx := none }] }] }

/-! ## Addressing -/

theorem join_append_singleton (sep : String) (xs : List String) (y : String) (hx : xs ≠ []) :
    join sep (xs ++ [y]) = join sep xs ++ sep ++ y := by
  induction xs with
  | nil => exact absurd rfl hx
  | cons a rest ih =>
    cases rest with
    | nil => simp [join]
    | cons b rest2 =>
      show a ++ sep ++ join sep ((b :: rest2) ++ [y]) = a ++ sep ++ join sep (b :: rest2) ++ sep ++ y
      rw [ih (by simp)]
      simp [String.append_assoc]

/-- C1: the Reference of a block with type `t` and labels `L` is built from `L`
alone when `t` is "resource" and from `t` followed by `L` otherwise, and the
local name is that path joined with ".". -/
theorem Block.reference_localName (h : Heap) (bp : Nat) (t : String) (L : List String)
    (hT : Block.Type h bp = some t) (hL : Block.Labels h bp = some L) :
    Block.Reference h bp = some (newReference (if t = "resource" then L else [t] ++ L)) ∧
    Block.LocalName h bp = some (join "." (if t = "resource" then L else [t] ++ L)) := by
  have hR : Block.Reference h bp =
      some (newReference (if t = "resource" then L else [t] ++ L)) := by
    unfold Block.Reference
    rw [hT, hL]
    by_cases ht : t = "resource" <;> simp [ht]
  refine ⟨hR, ?_⟩
  unfold Block.LocalName
  rw [hR]
  rfl

/-- Witness of C1: "resource" with labels aws_instance, web gives
"aws_instance.web"; "module" with label vpc gives "module.vpc". -/
theorem Block.reference_localName_witness :
    (Block.Type sampleResource 0 = some "resource" ∧
      Block.Labels sampleResource 0 = some ["aws_instance", "web"] ∧
      Block.LocalName sampleResource 0 = some "aws_instance.web") ∧
    (Block.Type sampleModules 0 = some "module" ∧
      Block.Labels sampleModules 0 = some ["vpc"] ∧
      Block.LocalName sampleModules 0 = some "module.vpc") :=
  ⟨⟨by decide, by decide,
      (Block.reference_localName sampleResource 0 "resource" ["aws_instance", "web"]
        (by decide) (by decide)).2⟩,
    ⟨by decide, by decide,
      (Block.reference_localName sampleModules 0 "module" ["vpc"] (by decide) (by decide)).2⟩⟩

theorem ModuleChain.fullName {h : Heap} {bp : Nat} {ms : List Nat} (hc : ModuleChain h bp ms)
    (name : Nat → String) (hn : ∀ p ∈ ms ++ [bp], Block.LocalName h p = some (name p)) :
    ∀ fuel, ms.length < fuel →
      Block.FullName fuel h bp = some (join "." ((ms ++ [bp]).map name)) := by
  induction hc with
  | root bp b hb hm =>
    intro fuel hf
    obtain ⟨f, rfl⟩ : ∃ f, fuel = f + 1 := ⟨fuel - 1, by simp at hf; omega⟩
    simp [Block.FullName, hb, hm, hn bp (by simp), join]
  | step bp m b ms hb hm hc ih =>
    intro fuel hf
    obtain ⟨f, rfl⟩ : ∃ f, fuel = f + 1 := ⟨fuel - 1, by simp at hf; omega⟩
    have ihm := ih (fun p hp => hn p (by simp at hp ⊢; tauto)) f (by simp at hf; omega)
    have hl := hn bp (by simp)
    simp only [Block.FullName, hb, hm, ihm, hl]
    have hmap : List.map name (ms ++ [m] ++ [bp]) = List.map name (ms ++ [m]) ++ [name bp] := by
      simp
    rw [hmap, join_append_singleton _ _ _ (by simp)]

/-- C2: the full name is the local name for a block without owning module, and
the owner's full name, ".", and the local name otherwise; along a finite chain
of owning modules `ms` (outermost first) it is the local names of the chain and
of the block joined with ".", for every fuel above the length of the chain. -/
theorem Block.fullName_spec (h : Heap) (bp : Nat) (b : Block) (hb : h.blocks[bp]? = some b) :
    (b.moduleBlock = none → ∀ fuel, Block.FullName (fuel + 1) h bp = Block.LocalName h bp) ∧
    (∀ m mf ln fuel, b.moduleBlock = some m → Block.FullName fuel h m = some mf →
      Block.LocalName h bp = some ln →
      Block.FullName (fuel + 1) h bp = some (mf ++ "." ++ ln)) ∧
    (∀ ms name, ModuleChain h bp ms →
      (∀ p ∈ ms ++ [bp], Block.LocalName h p = some (name p)) →
      ∀ fuel, ms.length < fuel →
        Block.FullName fuel h bp = some (join "." ((ms ++ [bp]).map name))) := by
  refine ⟨?_, ?_, ?_⟩
  · intro hm fuel
    simp [Block.FullName, hb, hm]
  · intro m mf ln fuel hm hmf hln
    simp [Block.FullName, hb, hm, hmf, hln]
  · intro ms name hc hn fuel hf
    exact hc.fullName name hn fuel hf

/-- Witness of C2: a resource two modules deep. -/
theorem Block.fullName_spec_witness :
    sampleModules.blocks[2]? = some (Block.new 2 0 (some 1) []) ∧
    Block.FullName 3 sampleModules 2 =
      some (join "." (([0, 1] ++ [2]).map sampleNames)) ∧
    Block.FullName 3 sampleModules 2 = some "module.vpc.module.db.aws_instance.web" :=
  ⟨by decide,
    (Block.fullName_spec sampleModules 2 (Block.new 2 0 (some 1) []) (by decide)).2.2
      [0, 1] sampleNames
      (ModuleChain.step 2 1 (Block.new 2 0 (some 1) []) [0] (by decide) rfl
        (ModuleChain.step 1 0 (Block.new 1 0 (some 0) []) [] (by decide) rfl
          (ModuleChain.root 0 (Block.new 0 0 none []) (by decide) rfl)))
      (by decide) 3 (by decide),
    by decide⟩

/-! ## Construction -/

theorem Grows.refl (c : Nat) (m : Option Nat) (h : Heap) : Grows c m h h :=
  ⟨rfl, ⟨[], by simp⟩, ⟨[], by simp⟩⟩

theorem Grows.trans {c : Nat} {m : Option Nat} {h1 h2 h3 : Heap}
    (g1 : Grows c m h1 h2) (g2 : Grows c m h2 h3) : Grows c m h1 h3 := by
  obtain ⟨c1, ⟨n1, hn1⟩, ⟨b1, hb1, hp1⟩⟩ := g1
  obtain ⟨c2, ⟨n2, hn2⟩, ⟨b2, hb2, hp2⟩⟩ := g2
  refine ⟨c2.trans c1, ⟨n1 ++ n2, by rw [hn2, hn1, List.append_assoc]⟩,
    ⟨b1 ++ b2, by rw [hb2, hb1, List.append_assoc], ?_⟩⟩
  intro b hb
  have hlen23 : h2.blocks.length ≤ h3.blocks.length := by rw [hb2]; simp
  rcases List.mem_append.mp hb with hb | hb
  · obtain ⟨a1, a2, a3, a4, a5⟩ := hp1 b hb
    exact ⟨a1, a2, a3, a4, fun k hk => lt_of_lt_of_le (a5 k hk) hlen23⟩
  · exact hp2 b hb

theorem Grows.allocNode (c : Nat) (m : Option Nat) (h : Heap) (n : HclBlock) :
    Grows c m h (h.allocNode n).1 :=
  ⟨rfl, ⟨[n], rfl⟩, ⟨[], by simp [Heap.allocNode]⟩⟩

theorem Grows.allocBlock (c : Nat) (m : Option Nat) (h : Heap) (np : Nat) (kids : List Nat)
    (hk : ∀ k ∈ kids, k < h.blocks.length) :
    Grows c m h (h.allocBlock (Block.new np c m kids)).1 := by
  refine ⟨rfl, ⟨[], by simp [Heap.allocBlock]⟩, ⟨[Block.new np c m kids], rfl, ?_⟩⟩
  intro b hb
  rw [List.mem_singleton] at hb
  subst hb
  refine ⟨rfl, rfl, rfl, rfl, ?_⟩
  intro k hk2
  have := hk k hk2
  simp [Heap.allocBlock, Block.new] at hk2 ⊢
  omega

theorem Grows.length_le {c : Nat} {m : Option Nat} {h1 h2 : Heap} (g : Grows c m h1 h2) :
    h1.blocks.length ≤ h2.blocks.length := by
  obtain ⟨bs, hbs, -⟩ := g.blocks
  rw [hbs]; simp

theorem Grows.nodes_length_le {c : Nat} {m : Option Nat} {h1 h2 : Heap} (g : Grows c m h1 h2) :
    h1.nodes.length ≤ h2.nodes.length := by
  obtain ⟨ns, hns⟩ := g.nodes
  rw [hns]; simp

theorem Grows.block_old {c : Nat} {m : Option Nat} {h1 h2 : Heap} (g : Grows c m h1 h2)
    (q : Nat) (hq : q < h1.blocks.length) : h2.blocks[q]? = h1.blocks[q]? := by
  obtain ⟨bs, hbs, -⟩ := g.blocks
  rw [hbs, List.getElem?_append_left hq]

theorem Grows.node_old {c : Nat} {m : Option Nat} {h1 h2 : Heap} (g : Grows c m h1 h2)
    (q : Nat) (hq : q < h1.nodes.length) : h2.nodes[q]? = h1.nodes[q]? := by
  obtain ⟨ns, hns⟩ := g.nodes
  rw [hns, List.getElem?_append_left hq]

theorem Grows.block_new {c : Nat} {m : Option Nat} {h1 h2 : Heap} (g : Grows c m h1 h2)
    (q : Nat) (hq1 : h1.blocks.length ≤ q) (hq2 : q < h2.blocks.length) :
    ∃ b, h2.blocks[q]? = some b ∧ b.context = some c ∧ b.moduleBlock = m ∧
      b.expanded = false ∧ b.cloneIndex = 0 ∧
      ∀ k ∈ b.childBlocks, k < h2.blocks.length := by
  obtain ⟨bs, hbs, hp⟩ := g.blocks
  have hlt : q - h1.blocks.length < bs.length := by
    rw [hbs, List.length_append] at hq2; omega
  refine ⟨bs[q - h1.blocks.length], ?_, hp _ (List.getElem_mem _)⟩
  rw [hbs, List.getElem?_append_right hq1, List.getElem?_eq_getElem hlt]

theorem builtAt_alloc (np c : Nat) (m : Option Nat) (h h1 : Heap) (kids : List Nat)
    (g : Grows c m h h1) (hk : ∀ k ∈ kids, h.blocks.length ≤ k ∧ k < h1.blocks.length) :
    BuiltAt np c m h (h1.allocBlock (Block.new np c m kids)) := by
  refine ⟨g.trans (Grows.allocBlock c m h1 np kids fun k hk2 => (hk k hk2).2), ?_, ?_, kids, ?_, ?_⟩
  · simpa [Heap.allocBlock] using g.length_le
  · simp [Heap.allocBlock]
  · simp [Heap.allocBlock]
  · simpa [Heap.allocBlock] using hk

mutual
theorem newBlock_builtAt : (body : Body) → (np c : Nat) → (m : Option Nat) → (h : Heap) →
    BuiltAt np c m h (newBlock body np (some c) m h)
  | .syntaxBody _ blocks, np, c, m, h => by
    have hc := newChildren_grows blocks c m h
    simpa [newBlock] using builtAt_alloc np c m h _ _ hc.1 hc.2
  | .schemaBody diag _ blocks, np, c, m, h => by
    by_cases hd : diag = some true
    · simpa [newBlock, hd] using builtAt_alloc np c m h h [] (Grows.refl c m h) (by simp)
    · have hc := newChildren_grows blocks c m h
      simpa [newBlock, hd] using builtAt_alloc np c m h _ _ hc.1 hc.2
theorem newChildren_grows : (ns : List HclBlock) → (c : Nat) → (m : Option Nat) → (h : Heap) →
    Grows c m h (newChildren ns c m h).1 ∧
      ∀ k ∈ (newChildren ns c m h).2, h.blocks.length ≤ k ∧ k < (newChildren ns c m h).1.blocks.length
  | [], c, m, h => by
    simpa [newChildren] using Grows.refl c m h
  | (.mk t ls body) :: ns, c, m, h => by
    have g0 := Grows.allocNode c m h (.mk t ls body)
    have hb := newBlock_builtAt body (h.allocNode (.mk t ls body)).2 c m (h.allocNode (.mk t ls body)).1
    have hr := newChildren_grows ns c m
      (newBlock body (h.allocNode (.mk t ls body)).2 (some c) m (h.allocNode (.mk t ls body)).1).1
    obtain ⟨g1, hle, hlast, -⟩ := hb
    obtain ⟨g2, hk⟩ := hr
    have l0 := g0.length_le
    have l2 := g2.length_le
    refine ⟨by simpa [newChildren] using (g0.trans g1).trans g2, ?_⟩
    intro k hk2
    simp only [newChildren, List.mem_cons] at hk2 ⊢
    rcases hk2 with rfl | hk2
    · omega
    · have := hk k hk2
      have l1 := g1.length_le
      omega
end

/-! ## Expansion -/

theorem Block.clone_spec (parse : String → Option BigFloat) (table : Char → Bool) (h : Heap)
    (bp : Nat) (b : Block) (np : Nat) (node : HclBlock) (index : Val)
    (hb : h.blocks[bp]? = some b) (hnp : b.hclBlock = some np) (hnode : h.nodes[np]? = some node)
    (hctx : ∀ c, b.context = some c → c < h.ctxs.length) :
    ∃ h2 clone, Block.Clone parse table h bp index = some (h2, clone) ∧
      CloneSpec parse table h bp b node index h2 clone := by
  have hchild : (match b.context with
      | some c => Context.NewChild h c
      | none => some (NewContext h none)) = some (NewContext h b.context) := by
    cases hc : b.context with
    | none => rfl
    | some c =>
      have := hctx c hc
      simp [Context.NewChild, List.getElem?_eq_getElem this]
  have hB := newBlock_builtAt node.body h.nodes.length h.ctxs.length b.moduleBlock
    ((NewContext h b.context).1.allocNode node).1
  obtain ⟨g, hle, hlast, kids, hcb, hkids⟩ := hB
  generalize hr : newBlock node.body h.nodes.length (some h.ctxs.length) b.moduleBlock
    ((NewContext h b.context).1.allocNode node).1 = r at g hle hlast hcb hkids
  have hbp : bp < h.blocks.length := (List.getElem?_eq_some.mp hb).1
  have hn2 : ((NewContext h b.context).1.allocNode node).1.nodes[h.nodes.length]? = some node := by
    simp [NewContext, Heap.allocNode]
  have hNew : NewHCLBlock ((NewContext h b.context).1.allocNode node).1 h.nodes.length
      (some h.ctxs.length) b.moduleBlock = some r := by
    simp [NewHCLBlock, hn2, hr]
  have hn3 : r.1.nodes[h.nodes.length]? = some node := by
    rw [g.node_old _ (by simp [NewContext, Heap.allocNode])]; exact hn2
  have hc3 : r.1.ctxs = h.ctxs ++ [{ parent := b.context, vars := [] }] := by
    rw [g.ctxs]; rfl
  have hb3 : r.1.blocks[bp]? = some b := by
    rw [g.block_old _ (by simpa [NewContext, Heap.allocNode] using hbp)]; exact hb
  have hne : r.2 ≠ bp := by
    have : h.blocks.length ≤ r.2 := by simpa [NewContext, Heap.allocNode] using hle
    omega
  have hr2 : r.2 < r.1.blocks.length := by omega
  simp [Block.Clone, hb, hchild, hnp]
  simp [NewContext, Heap.allocNode] at hNew
  simp [NewContext, Heap.allocNode, hnode, hNew, hcb, Block.new, hn3]
  have hl : (if 0 < node.labels.length then
        r.1.setLabels h.nodes.length (cloneLabels table node.labels index b.cloneIndex)
      else some r.1) = some { r.1 with nodes := (r.1.nodes.set h.nodes.length
        (.mk node.type (cloneLabels table node.labels index b.cloneIndex) node.body)) } := by
    split
    · simp [Heap.setLabels, hn3]
    · rename_i hlen
      have hs : r.1.nodes.set h.nodes.length
          (.mk node.type (cloneLabels table node.labels index b.cloneIndex) node.body) = r.1.nodes := by
        have hnode_eq : HclBlock.mk node.type (cloneLabels table node.labels index b.cloneIndex)
            node.body = node := by
          cases node
          simp [cloneLabels, HclBlock.labels, HclBlock.type, HclBlock.body] at hlen ⊢
          simp [hlen]
        rw [hnode_eq]
        apply List.ext_getElem?
        intro i
        rw [List.getElem?_set]
        split
        · rename_i hi
          subst hi
          split
          · exact hn3.symm
          · rename_i hlt
            exact (List.getElem?_eq_none (by omega)).symm
        · rfl
      rw [hs]
  rw [hl]
  have hset : ∀ x, (r.1.ctxs)[h.ctxs.length]? = some x → x = { parent := b.context, vars := [] } := by
    intro x hx
    rw [hc3] at hx
    simpa using hx.symm
  simp [Context.SetByDot, hc3, Heap.modifyBlock, hcb, Block.new, hb3, hne, List.getElem?_set, hr2]
  have hle2 : h.blocks.length ≤ r.2 := by simpa [NewContext, Heap.allocNode] using hle
  have hnl : h.nodes.length < r.1.nodes.length := by
    have := g.nodes_length_le
    simp [NewContext, Heap.allocNode] at this
    omega
  refine ⟨_, _, ⟨rfl, rfl⟩, ?_⟩
  refine ⟨hle2, ?_, ?_, ?_, ?_, ?_, ?_, ?_, ?_, ?_⟩
  · simp [List.getElem?_set, hbp, hlast ▸ (show bp < r.2 + 1 by omega)]
  · intro q hq hqb
    have h1 : bp ≠ q := fun e => hqb e.symm
    have h2 : r.2 ≠ q := by omega
    simp only [List.getElem?_set, h1, h2, if_false]
    rw [g.block_old _ (by simpa [NewContext, Heap.allocNode] using hq)]
    rfl
  · intro q hq
    have h1 : h.nodes.length ≠ q := by omega
    simp only [List.getElem?_set, h1, if_false]
    rw [g.node_old _ (by simp [NewContext, Heap.allocNode]; omega)]
    simp [NewContext, Heap.allocNode, List.getElem?_append_left hq]
  · intro q hq
    simp [List.getElem?_append_left hq]
  · simp
  · simp
  · simp [List.getElem?_set, hnl]
  · rw [hr]
  · refine ⟨kids, by rw [hr]; exact hcb, ?_, ?_⟩
    · have hbne : bp ≠ r.2 := fun e => hne e.symm
      simp only [List.getElem?_set, hbne, if_false, if_true, hr2, Block.new]
    · intro k hk
      obtain ⟨hk1, hk2⟩ := hkids k hk
      simp [NewContext, Heap.allocNode] at hk1
      have h1 : bp ≠ k := by omega
      have h2 : r.2 ≠ k := by omega
      refine ⟨hk1, hk2, ?_, ?_⟩
      · rw [hr]
        simp only [List.getElem?_set, h1, h2, if_false]
      · obtain ⟨kb, hkb, hc, hm, -⟩ := g.block_new k
          (by simpa [NewContext, Heap.allocNode] using hk1) (by omega)
        refine ⟨kb, ?_, hc, hm⟩
        simp only [List.getElem?_set, h1, h2, if_false]
        exact hkb

theorem cloneLabels_snoc (table : Char → Bool) (init : List String) (last : String) (index : Val)
    (c : Nat) :
    cloneLabels table (init ++ [last]) index c = init ++ [cloneLabel table last index c] := by
  induction init with
  | nil => simp [cloneLabels]
  | cons a rest ih =>
    simp only [cloneLabels, List.length_append, List.length_cons, List.length_nil,
      List.cons_append] at ih ⊢
    simp at ih ⊢

theorem cloneLabels_nil (table : Char → Bool) (index : Val) (c : Nat) :
    cloneLabels table [] index c = [] := by
  simp [cloneLabels]

theorem CloneSpec.nodeOf_clone {parse : String → Option BigFloat} {table : Char → Bool}
    {h : Heap} {bp : Nat} {b : Block} {node : HclBlock} {index : Val} {h2 : Heap} {clone : Nat}
    (s : CloneSpec parse table h bp b node index h2 clone) :
    h2.nodeOf clone =
      some (.mk node.type (cloneLabels table node.labels index b.cloneIndex) node.body) := by
  obtain ⟨kids, -, hc, -⟩ := s.cloneBlock
  simp [Heap.nodeOf, hc, Block.new, s.cloneNode]

theorem CloneSpec.nodeOf_origin {parse : String → Option BigFloat} {table : Char → Bool}
    {h : Heap} {bp : Nat} {b : Block} {node : HclBlock} {index : Val} {h2 : Heap} {clone : Nat}
    (s : CloneSpec parse table h bp b node index h2 clone) (np : Nat)
    (hnp : b.hclBlock = some np) (hnode : h.nodes[np]? = some node) :
    h2.nodeOf bp = some node := by
  have hlt : np < h.nodes.length := (List.getElem?_eq_some.mp hnode).1
  simp [Heap.nodeOf, s.origin, hnp, s.nodes_old np hlt, hnode]

theorem nodeOf_of (h : Heap) (bp : Nat) (b : Block) (np : Nat) (node : HclBlock)
    (hb : h.blocks[bp]? = some b) (hnp : b.hclBlock = some np) (hnode : h.nodes[np]? = some node) :
    h.nodeOf bp = some node := by
  simp [Heap.nodeOf, hb, hnp, hnode]

theorem bitLenAux_le (fuel : Nat) : ∀ (n k : Nat), n < 2 ^ k → bitLenAux fuel n ≤ k := by
  induction fuel with
  | zero => intro n k _; simp [bitLenAux]
  | succ f ih =>
    intro n k hn
    unfold bitLenAux
    split
    · omega
    · rename_i hn0
      cases k with
      | zero => simp at hn; omega
      | succ k =>
        have : n / 2 < 2 ^ k := by
          rw [pow_succ] at hn
          omega
        have := ih (n / 2) k this
        omega

theorem float64_exact (neg : Bool) (m : Nat) (e : Int) (hm : bitLen m ≤ 53) (he : -1074 ≤ e)
    (hmax : (bitLen m : Int) + e ≤ 1024) :
    (BigFloat.finite neg m e).Float64 = BigFloat.finite neg m e := by
  have hk : max ((bitLen m : Int) - 53) (-1074 - e) ≤ 0 := by
    apply max_le <;> omega
  have hd : (max ((bitLen m : Int) - 53) (-1074 - e)).toNat = 0 := Int.toNat_eq_zero.mpr hk
  simp only [BigFloat.Float64, hd]
  simp
  omega

theorem goInt_eq_trunc (x : BigFloat) (t : Int) (ht : x.trunc = some t)
    (hr : minInt64 ≤ t ∧ t < 2 ^ 63) : goInt x = t := by
  cases x with
  | inf neg => simp [BigFloat.trunc] at ht
  | finite neg m e =>
    simp only [BigFloat.trunc, Option.some.injEq] at ht
    simp only [goInt]
    rw [ht]
    rw [if_pos hr]

theorem CloneSpec.valid_after {parse : String → Option BigFloat} {table : Char → Bool}
    {h : Heap} {bp : Nat} {b : Block} {node : HclBlock} {index : Val} {h2 : Heap} {clone : Nat}
    (s : CloneSpec parse table h bp b node index h2 clone) (np : Nat)
    (hnode : h.nodes[np]? = some node) (hctx : ∀ c, b.context = some c → c < h.ctxs.length) :
    h2.nodes[np]? = some node ∧
      ∀ c, ({ b with cloneIndex := b.cloneIndex + 1 } : Block).context = some c →
        c < h2.ctxs.length := by
  have hlt : np < h.nodes.length := (List.getElem?_eq_some.mp hnode).1
  refine ⟨by rw [s.nodes_old np hlt, hnode], ?_⟩
  intro c hc
  have := hctx c hc
  rw [s.ctxs_len]
  omega

theorem Block.clone_labels (parse : String → Option BigFloat) (table : Char → Bool) (h : Heap)
    (bp : Nat) (b : Block) (np : Nat) (node : HclBlock) (index : Val) (init : List String)
    (last : String)
    (hb : h.blocks[bp]? = some b) (hnp : b.hclBlock = some np) (hnode : h.nodes[np]? = some node)
    (hctx : ∀ c, b.context = some c → c < h.ctxs.length) (hL : node.labels = init ++ [last]) :
    ∃ h2 clone, Block.Clone parse table h bp index = some (h2, clone) ∧
      CloneSpec parse table h bp b node index h2 clone ∧
      Block.Type h2 clone = some node.type ∧
      Block.Labels h2 clone = some (init ++ [cloneLabel table last index b.cloneIndex]) := by
  obtain ⟨h2, clone, hc, s⟩ := Block.clone_spec parse table h bp b np node index hb hnp hnode hctx
  refine ⟨h2, clone, hc, s, ?_, ?_⟩
  · rw [Block.Type, s.nodeOf_clone]
    rfl
  · rw [Block.Labels, s.nodeOf_clone]
    show some (cloneLabels table node.labels index b.cloneIndex) = _
    rw [hL, cloneLabels_snoc]

theorem Block.cloneAll_spec (parse : String → Option BigFloat) (table : Char → Bool)
    (np : Nat) (node : HclBlock) (bp : Nat) (idxs : List Val) :
    ∀ (h : Heap) (b : Block), h.blocks[bp]? = some b → b.hclBlock = some np →
      h.nodes[np]? = some node → (∀ c, b.context = some c → c < h.ctxs.length) →
      ∃ h1 cs, Block.cloneAll parse table h bp idxs = some (h1, cs) ∧
        cs.length = idxs.length ∧
        h1.blocks[bp]? = some { b with cloneIndex := b.cloneIndex + idxs.length } ∧
        h1.nodes[np]? = some node ∧
        ∀ c, b.context = some c → c < h1.ctxs.length := by
  induction idxs with
  | nil =>
    intro h b hb _ hnode hctx
    exact ⟨h, [], rfl, rfl, by simpa using hb, hnode, hctx⟩
  | cons i rest ih =>
    intro h b hb hnp hnode hctx
    obtain ⟨h2, clone, hc, s⟩ := Block.clone_spec parse table h bp b np node i hb hnp hnode hctx
    obtain ⟨hn2, hctx2⟩ := s.valid_after np hnode hctx
    obtain ⟨h1, cs, hall, hlen, hblk, hn1, hc1⟩ := ih h2 _ s.origin hnp hn2 hctx2
    refine ⟨h1, clone :: cs, ?_, by simp [hlen], ?_, hn1, hc1⟩
    · simp [Block.cloneAll, hc, hall]
    · rw [hblk]
      simp only [List.length_cons, Option.some.injEq]
      congr 1
      omega

theorem sampleResource_ctx :
    ∀ c, (Block.new 0 0 none []).context = some c → c < sampleResource.ctxs.length := by
  intro c hc
  cases hc
  decide

/-- C3 (amended): for a block with labels `init ++ [last]` and a known numeric
index `x`, `Clone` returns a block of the same type whose labels are `init`
followed by `last[d]`, where `d` is the decimal form of `x` rounded to the
nearest `float64` and then truncated to an `int`.  This is the truncation of
`x` whenever `x` has at most 53 significant bits with an exponent in the
`float64` range and its truncation fits in 64 bits, in particular for every
natural number below `2^53`. -/
theorem Block.clone_numeric_index (parse : String → Option BigFloat) (table : Char → Bool)
    (h : Heap) (bp : Nat) (b : Block) (np : Nat) (node : HclBlock) (x : BigFloat)
    (init : List String) (last : String)
    (hb : h.blocks[bp]? = some b) (hnp : b.hclBlock = some np) (hnode : h.nodes[np]? = some node)
    (hctx : ∀ c, b.context = some c → c < h.ctxs.length) (hL : node.labels = init ++ [last]) :
    (∃ h2 clone, Block.Clone parse table h bp (.number x) = some (h2, clone) ∧
      Block.Type h2 clone = some node.type ∧
      Block.Labels h2 clone = some (init ++ [last ++ "[" ++ fmtD (goInt x.Float64) ++ "]"])) ∧
    (∀ neg m e t, x = .finite neg m e → bitLen m ≤ 53 → -1074 ≤ e →
      (bitLen m : Int) + e ≤ 1024 → x.trunc = some t → minInt64 ≤ t → t < 2 ^ 63 →
      goInt x.Float64 = t) ∧
    (∀ i : Nat, i < 2 ^ 53 → x = BigFloat.ofInt i → fmtD (goInt x.Float64) = Nat.repr i) := by
  refine ⟨?_, ?_, ?_⟩
  · obtain ⟨h2, clone, hc, -, ht, hl⟩ :=
      Block.clone_labels parse table h bp b np node (.number x) init last hb hnp hnode hctx hL
    exact ⟨h2, clone, hc, ht, by simpa [cloneLabel, Val.IsKnown, Val.IsNull] using hl⟩
  · intro neg m e t hx hm he hmax ht h1 h2
    subst hx
    rw [float64_exact neg m e hm he hmax]
    exact goInt_eq_trunc _ t ht ⟨h1, h2⟩
  · intro i hi hx
    subst hx
    have hbl : bitLen i ≤ 53 := bitLenAux_le i i 53 hi
    have hof : BigFloat.ofInt (i : Int) = BigFloat.finite false i 0 := by
      simp [BigFloat.ofInt]
    rw [hof, float64_exact false i 0 hbl (by omega) (by omega)]
    have hg : goInt (BigFloat.finite false i 0) = (i : Int) := by
      apply goInt_eq_trunc
      · simp [BigFloat.trunc]
      · have : (i : Int) < 2 ^ 53 := by exact_mod_cast hi
        constructor
        · simp only [minInt64]; omega
        · omega
    rw [hg]
    rfl

/-- Witness of C3: the clone of `aws_instance.web` for index 2. -/
theorem Block.clone_numeric_index_witness :
    (∃ h2 clone, Block.Clone sampleParse sampleTable sampleResource 0
        (.number (BigFloat.ofInt 2)) = some (h2, clone) ∧
      Block.Type h2 clone = some sampleNode.type ∧
      Block.Labels h2 clone =
        some (["aws_instance"] ++ ["web" ++ "[" ++ fmtD (goInt (BigFloat.ofInt 2).Float64) ++ "]"])) ∧
    fmtD (goInt (BigFloat.ofInt 2).Float64) = Nat.repr 2 :=
  ⟨(Block.clone_numeric_index sampleParse sampleTable sampleResource 0 (Block.new 0 0 none []) 0
      sampleNode (BigFloat.ofInt 2) ["aws_instance"] "web" (by decide) (by decide) rfl
      sampleResource_ctx (by decide)).1,
    (Block.clone_numeric_index sampleParse sampleTable sampleResource 0 (Block.new 0 0 none []) 0
      sampleNode (BigFloat.ofInt 2) ["aws_instance"] "web" (by decide) (by decide) rfl
      sampleResource_ctx (by decide)).2.2 2 (by decide) rfl⟩

/-- Counterexample to C3 as stated: the index 2^53 + 1 is a known integer, its
truncation is itself, and the clone's last label ends in `[9007199254740992]`. -/
theorem Block.clone_numeric_index_counterexample :
    (BigFloat.ofInt 9007199254740993).trunc = some 9007199254740993 ∧
    (Block.Clone sampleParse sampleTable sampleResource 0
        (.number (BigFloat.ofInt 9007199254740993))).bind (fun r => Block.Labels r.1 r.2) =
      some ["aws_instance", "web[9007199254740992]"] ∧
    "web[9007199254740992]" ≠ "web" ++ "[" ++ fmtD 9007199254740993 ++ "]" := by
  decide

theorem escapeRunes_plain (table : Char → Bool) (cs : List Char)
    (hp : ∀ c ∈ cs, isPrint table c = true ∧ c ≠ dquote ∧ c ≠ backslash) :
    escapeRunes table cs = String.mk cs := by
  induction cs with
  | nil => rfl
  | cons c rest ih =>
    obtain ⟨h1, h2, h3⟩ := hp c (by simp)
    have ih2 := ih (fun d hd => hp d (by simp [hd]))
    simp only [escapeRunes, escapeRune, h1, h2, h3, or_self, if_false, if_true, ih2]
    rfl

/-- C4 (amended): for a block with labels `init ++ [last]` and a known string
index `k`, `Clone` returns a block whose labels are `init` followed by `last`,
"[", the Go-quoted form of `k` (the verb `%q`), and "]".  The quoted form is `k`
itself between double quotes whenever every character of `k` is printable and is
neither a double quote nor a backslash. -/
theorem Block.clone_string_index (parse : String → Option BigFloat) (table : Char → Bool)
    (h : Heap) (bp : Nat) (b : Block) (np : Nat) (node : HclBlock) (k : String)
    (init : List String) (last : String)
    (hb : h.blocks[bp]? = some b) (hnp : b.hclBlock = some np) (hnode : h.nodes[np]? = some node)
    (hctx : ∀ c, b.context = some c → c < h.ctxs.length) (hL : node.labels = init ++ [last]) :
    (∃ h2 clone, Block.Clone parse table h bp (.string k) = some (h2, clone) ∧
      Block.Labels h2 clone = some (init ++ [last ++ "[" ++ fmtQ table k ++ "]"])) ∧
    ((∀ c ∈ k.data, isPrint table c = true ∧ c ≠ dquote ∧ c ≠ backslash) →
      fmtQ table k = String.singleton dquote ++ k ++ String.singleton dquote) := by
  refine ⟨?_, ?_⟩
  · obtain ⟨h2, clone, hc, -, -, hl⟩ :=
      Block.clone_labels parse table h bp b np node (.string k) init last hb hnp hnode hctx hL
    exact ⟨h2, clone, hc, by simpa [cloneLabel, Val.IsKnown, Val.IsNull] using hl⟩
  · intro hp
    simp only [fmtQ, escapeRunes_plain table k.data hp]

/-- Witness of C4: the clone of `aws_instance.web` for the key "a". -/
theorem Block.clone_string_index_witness :
    (∃ h2 clone, Block.Clone sampleParse sampleTable sampleResource 0 (.string "a") =
        some (h2, clone) ∧
      Block.Labels h2 clone =
        some (["aws_instance"] ++ ["web" ++ "[" ++ fmtQ sampleTable "a" ++ "]"])) ∧
    fmtQ sampleTable "a" = String.singleton dquote ++ "a" ++ String.singleton dquote :=
  ⟨(Block.clone_string_index sampleParse sampleTable sampleResource 0 (Block.new 0 0 none []) 0
      sampleNode "a" ["aws_instance"] "web" (by decide) (by decide) rfl
      sampleResource_ctx (by decide)).1,
    (Block.clone_string_index sampleParse sampleTable sampleResource 0 (Block.new 0 0 none []) 0
      sampleNode "a" ["aws_instance"] "web" (by decide) (by decide) rfl
      sampleResource_ctx (by decide)).2 (by decide)⟩

/-- Counterexample to C4 as stated: for the key a"b the last label holds the
escaped key, with a backslash before the inner double quote, and differs from
the key between double quotes. -/
theorem Block.clone_string_index_counterexample :
    (Block.Clone sampleParse sampleTable sampleResource 0 (.string sampleKey)).bind
        (fun r => Block.Labels r.1 r.2) =
      some ["aws_instance",
        "web[" ++ String.mk [dquote, 'a', backslash, dquote, 'b', dquote] ++ "]"] ∧
    "web[" ++ String.mk [dquote, 'a', backslash, dquote, 'b', dquote] ++ "]" ≠
      "web" ++ "[" ++ String.singleton dquote ++ sampleKey ++ String.singleton dquote ++ "]" := by
  decide

theorem fmtD_natCast (c : Nat) : fmtD (c : Int) = Nat.repr c := rfl

theorem cloneLabel_fallback (table : Char → Bool) (last : String) (index : Val) (c : Nat)
    (hi : index.IsKnown = false ∨ index.IsNull = true) :
    cloneLabel table last index c = last ++ "[" ++ Nat.repr c ++ "]" := by
  have hcond : (index.IsKnown && !index.IsNull) = false := by
    rcases hi with hi | hi <;> simp [hi]
  simp only [cloneLabel, hcond, fmtD_natCast]
  rfl

/-- C5: every `Clone` call raises the clone counter of the block by exactly
one, whatever the index and whether or not the block has labels; for an unknown
or null index and labels `init ++ [last]` the clone's labels are `init` followed
by `last[c]` with `c` the counter before the call.  After any sequence of
`Clone` calls on the block the counter has grown by the number of calls, so the
next call with an unknown index uses that number as suffix. -/
theorem Block.clone_counter (parse : String → Option BigFloat) (table : Char → Bool)
    (h : Heap) (bp : Nat) (b : Block) (np : Nat) (node : HclBlock) (index : Val)
    (hb : h.blocks[bp]? = some b) (hnp : b.hclBlock = some np) (hnode : h.nodes[np]? = some node)
    (hctx : ∀ c, b.context = some c → c < h.ctxs.length) :
    (∃ h2 clone, Block.Clone parse table h bp index = some (h2, clone) ∧
      h2.blocks[bp]? = some { b with cloneIndex := b.cloneIndex + 1 } ∧
      ((index.IsKnown = false ∨ index.IsNull = true) →
        ∀ init last, node.labels = init ++ [last] →
          Block.Labels h2 clone =
            some (init ++ [last ++ "[" ++ Nat.repr b.cloneIndex ++ "]"]))) ∧
    (∀ idxs : List Val, ∃ h1 cs, Block.cloneAll parse table h bp idxs = some (h1, cs) ∧
      h1.blocks[bp]? = some { b with cloneIndex := b.cloneIndex + idxs.length } ∧
      ((index.IsKnown = false ∨ index.IsNull = true) →
        ∀ init last, node.labels = init ++ [last] →
          ∃ h2 clone, Block.Clone parse table h1 bp index = some (h2, clone) ∧
            Block.Labels h2 clone =
              some (init ++ [last ++ "[" ++ Nat.repr (b.cloneIndex + idxs.length) ++ "]"]))) := by
  refine ⟨?_, ?_⟩
  · obtain ⟨h2, clone, hc, s⟩ := Block.clone_spec parse table h bp b np node index hb hnp hnode hctx
    refine ⟨h2, clone, hc, s.origin, ?_⟩
    intro hi init last hL
    rw [Block.Labels, s.nodeOf_clone]
    show some (cloneLabels table node.labels index b.cloneIndex) = _
    rw [hL, cloneLabels_snoc, cloneLabel_fallback table last index _ hi]
  · intro idxs
    obtain ⟨h1, cs, hall, -, hblk, hn1, hc1⟩ :=
      Block.cloneAll_spec parse table np node bp idxs h b hb hnp hnode hctx
    refine ⟨h1, cs, hall, hblk, ?_⟩
    intro hi init last hL
    obtain ⟨h2, clone, hc, -, -, hl⟩ :=
      Block.clone_labels parse table h1 bp _ np node index init last hblk hnp hn1 hc1 hL
    exact ⟨h2, clone, hc, by rw [hl, cloneLabel_fallback table last index _ hi]⟩

/-- Witness of C5: an unknown index on `aws_instance.web`, first call and
third call. -/
theorem Block.clone_counter_witness :
    (∃ h2 clone, Block.Clone sampleParse sampleTable sampleResource 0 (.unknown .number) =
        some (h2, clone) ∧
      h2.blocks[0]? = some { Block.new 0 0 none [] with cloneIndex := 0 + 1 } ∧
      Block.Labels h2 clone = some (["aws_instance"] ++ ["web" ++ "[" ++ Nat.repr 0 ++ "]"])) ∧
    (∃ h1 cs, Block.cloneAll sampleParse sampleTable sampleResource 0
        [.string "a", .number (BigFloat.ofInt 7)] = some (h1, cs) ∧
      ∃ h2 clone, Block.Clone sampleParse sampleTable h1 0 (.unknown .number) =
          some (h2, clone) ∧
        Block.Labels h2 clone =
          some (["aws_instance"] ++ ["web" ++ "[" ++ Nat.repr (0 + 2) ++ "]"])) := by
  have w := Block.clone_counter sampleParse sampleTable sampleResource 0 (Block.new 0 0 none []) 0
    sampleNode (.unknown .number) (by decide) (by decide) rfl sampleResource_ctx
  obtain ⟨⟨h2, clone, hc, ho, hl⟩, hall⟩ := w
  refine ⟨⟨h2, clone, hc, ho, hl (Or.inl rfl) ["aws_instance"] "web" rfl⟩, ?_⟩
  obtain ⟨h1, cs, ha, -, hn⟩ := hall [.string "a", .number (BigFloat.ofInt 7)]
  exact ⟨h1, cs, ha, hn (Or.inl rfl) ["aws_instance"] "web" rfl⟩

/-! ## Label slices of a clone -/

theorem Slice.toList_spec (arrays : List (List String)) (s : Slice) (L : List String)
    (hs : s.toList arrays = some L) :
    ∃ a, arrays[s.array]? = some a ∧ s.len ≤ a.length ∧ L = a.take s.len ∧
      L.length = s.len ∧ s.array < arrays.length := by
  unfold Slice.toList at hs
  cases ha : arrays[s.array]? with
  | none => simp [ha] at hs
  | some a =>
    simp only [ha] at hs
    split at hs
    · rename_i hle
      cases hs
      exact ⟨a, rfl, hle, rfl, by simp [hle], (List.getElem?_eq_some.mp ha).1⟩
    · cases hs

theorem Slice.get_of_toList (arrays : List (List String)) (s : Slice) (L : List String)
    (hs : s.toList arrays = some L) (i : Nat) (hi : i < s.len) :
    s.get arrays i = L[i]? := by
  obtain ⟨a, ha, hle, hL, -, -⟩ := Slice.toList_spec arrays s L hs
  simp only [Slice.get, hi, if_true, ha, Option.some_bind, hL]
  rw [List.getElem?_take_of_lt hi]

/-- The copy loop fills the new array from the index `i` on with the elements
of the source and touches no other array. -/
theorem copyLabels_spec (arrays0 : List (List String)) (s : Slice) (L : List String)
    (hs : s.toList arrays0 = some L) :
    ∀ (k i : Nat) (d : List String), i + k = L.length → d.length = L.length →
      ∃ d2, copyLabels s { array := arrays0.length, len := L.length } i k (arrays0 ++ [d]) =
          some (arrays0 ++ [d2]) ∧ d2.length = L.length ∧
        ∀ j : Nat, d2[j]? = if i ≤ j then L[j]? else d[j]? := by
  obtain ⟨a, ha, hle, hL, hlen, hlt⟩ := Slice.toList_spec arrays0 s L hs
  intro k
  induction k with
  | zero =>
    intro i d hik hd
    refine ⟨d, rfl, hd, ?_⟩
    intro j
    split
    · rename_i hij
      have h1 : d[j]? = none := List.getElem?_eq_none (by omega)
      have h2 : L[j]? = none := List.getElem?_eq_none (by omega)
      rw [h1, h2]
    · rfl
  | succ k ih =>
    intro i d hik hd
    have hi : i < L.length := by omega
    have hs2 : s.toList (arrays0 ++ [d]) = some L := by
      simp only [Slice.toList, List.getElem?_append_left hlt, ha, hle, if_true, hL]
    have hget : s.get (arrays0 ++ [d]) i = some L[i] := by
      rw [Slice.get_of_toList _ s L hs2 i (by omega)]
      exact List.getElem?_eq_getElem hi
    have hset : Slice.set (arrays0 ++ [d]) { array := arrays0.length, len := L.length } i L[i] =
        some (arrays0 ++ [d.set i L[i]]) := by
      simp [Slice.set, hi, hd]
    obtain ⟨d2, h1, h2, h3⟩ := ih (i + 1) (d.set i L[i]) (by omega) (by simp [hd])
    refine ⟨d2, ?_, h2, ?_⟩
    · simp only [copyLabels, hget, hset]
      exact h1
    · intro j
      rw [h3 j]
      by_cases hij : i = j
      · subst hij
        have : ¬ i + 1 ≤ i := by omega
        simp [this, List.getElem?_set, hd, hi]
      · by_cases h4 : i + 1 ≤ j
        · have : i ≤ j := by omega
          simp [h4, this]
        · have : ¬ i ≤ j := by omega
          simp [h4, this, List.getElem?_set, hij]

/-- The label statements of `Clone` on slices: they return; the clone's slice
holds the labels that `cloneLabels` computes; no array that existed is
written; with at least one label the clone's slice has a new array. -/
theorem cloneLabelSlice_spec (table : Char → Bool) (arrays : List (List String)) (s : Slice)
    (L : List String) (index : Val) (c : Nat) (hs : s.toList arrays = some L) :
    ∃ a2 cs, cloneLabelSlice table arrays s index c = some (a2, cs) ∧
      cs.toList a2 = some (cloneLabels table L index c) ∧
      cs.len = s.len ∧
      (∀ q : Nat, q < arrays.length → a2[q]? = arrays[q]?) ∧
      (L ≠ [] → cs.array = arrays.length ∧ a2.length = arrays.length + 1) ∧
      (L = [] → cs = s ∧ a2 = arrays) := by
  obtain ⟨a, ha, hle, hL, hlen, hlt⟩ := Slice.toList_spec arrays s L hs
  by_cases hpos : s.len > 0
  · have hLpos : 0 < L.length := by omega
    obtain ⟨d2, h1, h2, h3⟩ := copyLabels_spec arrays s L hs L.length 0
      (List.replicate L.length "") (by omega) (by simp)
    have hd2 : d2 = L := by
      apply List.ext_getElem?
      intro j
      rw [h3 j]
      simp
    subst hd2
    have hs2 : s.toList (arrays ++ [d2]) = some d2 := by
      simp only [Slice.toList, List.getElem?_append_left hlt, ha, hle, if_true, hL]
    have hp : d2.length - 1 < d2.length := by omega
    have hget : s.get (arrays ++ [d2]) (s.len - 1) = some d2[d2.length - 1] := by
      rw [Slice.get_of_toList _ s d2 hs2 _ (by omega), hlen.symm]
      exact List.getElem?_eq_getElem hp
    have hset : Slice.set (arrays ++ [d2]) { array := arrays.length, len := s.len } (s.len - 1)
        (cloneLabel table d2[d2.length - 1] index c) =
        some (arrays ++ [d2.set (d2.length - 1) (cloneLabel table d2[d2.length - 1] index c)]) := by
      simp [Slice.set, ← hlen, hp]
    refine ⟨arrays ++ [d2.set (d2.length - 1) (cloneLabel table d2[d2.length - 1] index c)],
      { array := arrays.length, len := s.len }, ?_, ?_, rfl, ?_, ?_, ?_⟩
    · simp only [cloneLabelSlice, hpos, if_true, makeStrings]
      rw [hlen] at h1
      rw [h1]
      simp only [hget, hset]
    · have hgd : d2.getD (d2.length - 1) "" = d2[d2.length - 1] := by
        simp [List.getD, List.getElem?_eq_getElem hp]
      simp [Slice.toList, cloneLabels, hLpos, ← hlen, hgd]
    · intro q hq
      rw [List.getElem?_append_left hq]
    · intro _
      exact ⟨rfl, by simp⟩
    · intro hnil
      subst hnil
      simp at hLpos
  · have hL0 : L = [] := List.eq_nil_of_length_eq_zero (by omega)
    refine ⟨arrays, s, by simp [cloneLabelSlice, hpos], ?_, rfl, fun _ _ => rfl, ?_, ?_⟩
    · rw [hs, hL0]
      rfl
    · intro hne
      exact absurd hL0 hne
    · intro _
      exact ⟨rfl, rfl⟩

/-- An assignment through a slice leaves the elements of a slice with another
array as they were. -/
theorem Slice.set_other (arrays a3 : List (List String)) (s cs : Slice) (i : Nat) (v : String)
    (hne : cs.array ≠ s.array) (hset : cs.set arrays i v = some a3) :
    s.toList a3 = s.toList arrays := by
  unfold Slice.set at hset
  split at hset
  · split at hset
    · cases hset
    · split at hset
      · cases hset
        simp [Slice.toList, List.getElem?_set, hne]
      · cases hset
  · cases hset

theorem Slice.set_len_zero (arrays : List (List String)) (s : Slice) (i : Nat) (v : String)
    (h0 : s.len = 0) : s.set arrays i v = none := by
  simp [Slice.set, h0]

/-- C6: `Clone` returns a block marked expanded and changes nothing of the
block it is called on but the clone counter: hclBlock, Context, owning module,
expanded flag and child sequence are the same, type and labels read the same,
every other block and every context and `hcl.Block` that existed is untouched.
With the labels of the original held in the slice `ls` of a store of arrays,
the label statements of `Clone` return and write no array that existed, so
every position of the original reads as before; the slice of the clone holds
the labels of the clone; when there is a label it has a newly made array,
another one than the array of `ls`, and without label it is the empty slice
`ls` of the copy; in both cases an assignment through one of the two slices
leaves the elements of the other as they were. -/
theorem Block.clone_frame (parse : String → Option BigFloat) (table : Char → Bool)
    (h : Heap) (bp : Nat) (b : Block) (np : Nat) (node : HclBlock) (index : Val)
    (arrays : List (List String)) (ls : Slice)
    (hb : h.blocks[bp]? = some b) (hnp : b.hclBlock = some np) (hnode : h.nodes[np]? = some node)
    (hctx : ∀ c, b.context = some c → c < h.ctxs.length)
    (hs : ls.toList arrays = some node.labels) :
    ∃ h2 clone, Block.Clone parse table h bp index = some (h2, clone) ∧
      Block.IsCountExpanded h2 clone = some true ∧
      h2.blocks[bp]? = some { b with cloneIndex := b.cloneIndex + 1 } ∧
      Block.Type h2 bp = Block.Type h bp ∧
      Block.Labels h2 bp = Block.Labels h bp ∧
      (∀ q, q < h.blocks.length → q ≠ bp → h2.blocks[q]? = h.blocks[q]?) ∧
      (∀ q, q < h.ctxs.length → h2.ctxs[q]? = h.ctxs[q]?) ∧
      (∀ q, q < h.nodes.length → h2.nodes[q]? = h.nodes[q]?) ∧
      (∃ cb cnp, h2.blocks[clone]? = some cb ∧ cb.hclBlock = some cnp ∧ cnp ≠ np ∧
        h.nodes.length ≤ cnp) ∧
      ∃ a2 cs, cloneLabelSlice table arrays ls index b.cloneIndex = some (a2, cs) ∧
        cs.toList a2 = Block.Labels h2 clone ∧
        ls.toList a2 = Block.Labels h2 bp ∧
        (∀ q : Nat, q < arrays.length → a2[q]? = arrays[q]?) ∧
        (node.labels ≠ [] → arrays.length ≤ cs.array ∧ cs.array ≠ ls.array) ∧
        (node.labels = [] → cs = ls ∧ a2 = arrays) ∧
        (∀ i v a3, cs.set a2 i v = some a3 → ls.toList a3 = Block.Labels h2 bp) ∧
        (∀ i v a3, ls.set a2 i v = some a3 → cs.toList a3 = Block.Labels h2 clone) := by
  obtain ⟨h2, clone, hc, s⟩ := Block.clone_spec parse table h bp b np node index hb hnp hnode hctx
  have hlt : np < h.nodes.length := (List.getElem?_eq_some.mp hnode).1
  have hbp : bp < h.blocks.length := (List.getElem?_eq_some.mp hb).1
  have hn0 : h.nodeOf bp = some node := nodeOf_of h bp b np node hb hnp hnode
  have hn2 : h2.nodeOf bp = some node := s.nodeOf_origin np hnp hnode
  obtain ⟨kids, -, hcb, -⟩ := s.cloneBlock
  have hlb : Block.Labels h2 bp = some node.labels := by simp [Block.Labels, hn2]
  have hlc : Block.Labels h2 clone =
      some (cloneLabels table node.labels index b.cloneIndex) := by
    rw [Block.Labels, s.nodeOf_clone]
    rfl
  obtain ⟨a2, cs, hcl, hcs, hlen, hold, hnew, hnil⟩ :=
    cloneLabelSlice_spec table arrays ls node.labels index b.cloneIndex hs
  obtain ⟨a, ha, hle, hL, hll, halt⟩ := Slice.toList_spec arrays ls node.labels hs
  have hls2 : ls.toList a2 = some node.labels := by
    rw [← hs]
    simp only [Slice.toList, hold ls.array halt]
  have hsep : node.labels ≠ [] → cs.array ≠ ls.array := by
    intro hne
    rw [(hnew hne).1]
    omega
  have hempty : node.labels = [] → cs.len = 0 ∧ ls.len = 0 := by
    intro he
    rw [he] at hll
    simp at hll
    omega
  refine ⟨h2, clone, hc, ?_, s.origin, ?_, ?_, s.blocks_old, s.ctxs_old, s.nodes_old,
    ⟨_, h.nodes.length, hcb, rfl, by omega, le_refl _⟩,
    a2, cs, hcl, hcs.trans hlc.symm, hls2.trans hlb.symm, hold, ?_, hnil, ?_, ?_⟩
  · simp [Block.IsCountExpanded, hcb]
  · simp [Block.Type, hn0, hn2]
  · simp [Block.Labels, hn0, hn2]
  · intro hne
    exact ⟨by rw [(hnew hne).1], hsep hne⟩
  · intro i v a3 hset
    by_cases hne : node.labels = []
    · rw [Slice.set_len_zero a2 cs i v (hempty hne).1] at hset
      cases hset
    · rw [Slice.set_other a2 a3 ls cs i v (hsep hne) hset, hls2, hlb]
  · intro i v a3 hset
    by_cases hne : node.labels = []
    · rw [Slice.set_len_zero a2 ls i v (hempty hne).2] at hset
      cases hset
    · rw [Slice.set_other a2 a3 cs ls i v (fun e => hsep hne e.symm) hset, hcs, hlc]

/-- Witness of C6: a clone of `aws_instance.web`, whose two labels are held in
the array 0, is expanded, the original keeps its labels, and the labels of the
clone are held in the new array 1. -/
theorem Block.clone_frame_witness :
    ∃ h2 clone, Block.Clone sampleParse sampleTable sampleResource 0
        (.number (BigFloat.ofInt 0)) = some (h2, clone) ∧
      Block.IsCountExpanded h2 clone = some true ∧
      Block.Labels h2 0 = Block.Labels sampleResource 0 ∧
      ∃ a2 cs, cloneLabelSlice sampleTable [["aws_instance", "web"]] ⟨0, 2⟩
          (.number (BigFloat.ofInt 0)) 0 = some (a2, cs) ∧
        a2[0]? = some ["aws_instance", "web"] ∧ cs.array ≠ 0 ∧
        cs.toList a2 = Block.Labels h2 clone := by
  obtain ⟨h2, clone, hc, he, -, -, hl, -, -, -, -, a2, cs, hcl, hcs, -, hold, hnew, -⟩ :=
    Block.clone_frame sampleParse sampleTable sampleResource 0 (Block.new 0 0 none []) 0
      sampleNode (.number (BigFloat.ofInt 0)) [["aws_instance", "web"]] ⟨0, 2⟩
      (by decide) (by decide) rfl sampleResource_ctx (by decide)
  exact ⟨h2, clone, hc, he, hl, a2, cs, hcl, hold 0 (by decide),
    (hnew (by simp [sampleNode, HclBlock.labels])).2, hcs⟩

/-! ## Contexts of clones -/

theorem Context.resolve_frame (h h2 : Heap) (n : Nat)
    (hcl : ∀ q cx p, q < n → h.ctxs[q]? = some cx → cx.parent = some p → p < n)
    (hsame : ∀ q, q < n → h2.ctxs[q]? = h.ctxs[q]?) :
    ∀ (fuel c : Nat) (path : String), c < n →
      Context.resolve fuel h2 c path = Context.resolve fuel h c path := by
  intro fuel
  induction fuel with
  | zero => intro c path _; rfl
  | succ f ih =>
    intro c path hc
    simp only [Context.resolve, hsame c hc]
    cases hcx : h.ctxs[c]? with
    | none => rfl
    | some cx =>
      simp only []
      cases hl : cx.vars.lookup path with
      | some v => rfl
      | none =>
        simp only []
        cases hp : cx.parent with
        | none => rfl
        | some p => exact ih p path (hcl c cx p hc hcx hp)

theorem Context.resolve_frame_child (h h2 : Heap) (c p : Nat) (cx : Context) (path : String)
    (h1 : h.ctxs[c]? = some cx) (h2c : h2.ctxs[c]? = some cx) (hp : cx.parent = some p)
    (hpar : ∀ fuel, Context.resolve fuel h2 p path = Context.resolve fuel h p path) :
    ∀ fuel, Context.resolve fuel h2 c path = Context.resolve fuel h c path := by
  intro fuel
  cases fuel with
  | zero => rfl
  | succ f =>
    simp only [Context.resolve, h1, h2c, hp]
    cases cx.vars.lookup path with
    | some v => rfl
    | none => exact hpar f

theorem Context.setByDot_spec (h : Heap) (c : Nat) (cx : Context) (v : Val) (path : String)
    (hc : h.ctxs[c]? = some cx) :
    ∃ h2, Context.SetByDot h c v path = some h2 ∧
      h2.ctxs[c]? = some { cx with vars := (path, v) :: cx.vars } ∧
      (∀ q, q ≠ c → h2.ctxs[q]? = h.ctxs[q]?) ∧ h2.blocks = h.blocks ∧ h2.nodes = h.nodes := by
  have hlt : c < h.ctxs.length := (List.getElem?_eq_some.mp hc).1
  refine ⟨{ h with ctxs := h.ctxs.set c { cx with vars := (path, v) :: cx.vars } },
    by simp [Context.SetByDot, hc], ?_, ?_, rfl, rfl⟩
  · simp [List.getElem?_set, hlt]
  · intro q hq
    have : c ≠ q := fun e => hq e.symm
    simp [List.getElem?_set, this]

theorem CloneSpec.context_clone {parse : String → Option BigFloat} {table : Char → Bool}
    {h : Heap} {bp : Nat} {b : Block} {node : HclBlock} {index : Val} {h2 : Heap} {clone : Nat}
    (s : CloneSpec parse table h bp b node index h2 clone) :
    Block.Context h2 clone = some (some h.ctxs.length) ∧ clone < h2.blocks.length ∧
      clone ≠ bp := by
  obtain ⟨kids, -, hcb, -⟩ := s.cloneBlock
  have hlt : clone < h2.blocks.length := (List.getElem?_eq_some.mp hcb).1
  refine ⟨by simp [Block.Context, hcb, Block.new], hlt, ?_⟩
  intro e
  have h1 := s.origin
  rw [← e, hcb] at h1
  simp [Block.new] at h1

/-- C7: for a block whose Context is `c`, `Clone` returns a block whose Context
is a newly allocated context with parent `c`, different from `c`; the binding
that `Clone` makes is not seen through `c`; a second `Clone` of the same block
gets another new context, and its binding is seen neither through `c` nor
through the context of the first clone; and a value bound afterwards in the
context of one clone changes no lookup through `c` nor through the context of
the other clone. -/
theorem Block.clone_context (parse : String → Option BigFloat) (table : Char → Bool)
    (h : Heap) (bp : Nat) (b : Block) (np : Nat) (node : HclBlock) (i1 i2 : Val) (c : Nat)
    (hb : h.blocks[bp]? = some b) (hnp : b.hclBlock = some np) (hnode : h.nodes[np]? = some node)
    (hbc : b.context = some c) (hc : c < h.ctxs.length) (hcl : h.ctxClosed) :
    ∃ h2 clone1 cc1, Block.Clone parse table h bp i1 = some (h2, clone1) ∧
      Block.Context h2 clone1 = some (some cc1) ∧ cc1 ≠ c ∧ h.ctxs.length ≤ cc1 ∧
      (h2.ctxs[cc1]?).map Context.parent = some (some c) ∧
      (∀ fuel path, Context.resolve fuel h2 c path = Context.resolve fuel h c path) ∧
      ∃ h3 clone2 cc2, Block.Clone parse table h2 bp i2 = some (h3, clone2) ∧
        Block.Context h3 clone2 = some (some cc2) ∧
        Block.Context h3 clone1 = some (some cc1) ∧
        cc2 ≠ cc1 ∧ cc2 ≠ c ∧ (h3.ctxs[cc2]?).map Context.parent = some (some c) ∧
        (∀ fuel path, Context.resolve fuel h3 c path = Context.resolve fuel h c path ∧
          Context.resolve fuel h3 cc1 path = Context.resolve fuel h2 cc1 path) ∧
        (∀ v p, ∃ h4, Context.SetByDot h3 cc1 v p = some h4 ∧
          Context.bound h4 cc1 p = some v ∧
          ∀ fuel path, Context.resolve fuel h4 c path = Context.resolve fuel h3 c path ∧
            Context.resolve fuel h4 cc2 path = Context.resolve fuel h3 cc2 path) ∧
        (∀ v p, ∃ h4, Context.SetByDot h3 cc2 v p = some h4 ∧
          Context.bound h4 cc2 p = some v ∧
          ∀ fuel path, Context.resolve fuel h4 c path = Context.resolve fuel h3 c path ∧
            Context.resolve fuel h4 cc1 path = Context.resolve fuel h3 cc1 path) := by
  have hctx : ∀ c', b.context = some c' → c' < h.ctxs.length := by
    intro c' hc'
    rw [hbc] at hc'
    cases hc'
    exact hc
  have hcln : ∀ q cx p, q < h.ctxs.length → h.ctxs[q]? = some cx → cx.parent = some p →
      p < h.ctxs.length := fun q cx p _ hq hp => hcl q cx p hq hp
  obtain ⟨h2, clone1, hc1, s1⟩ :=
    Block.clone_spec parse table h bp b np node i1 hb hnp hnode hctx
  obtain ⟨hn2, hctx2⟩ := s1.valid_after np hnode hctx
  obtain ⟨h3, clone2, hc2, s2⟩ :=
    Block.clone_spec parse table h2 bp _ np node i2 s1.origin hnp hn2 hctx2
  obtain ⟨hcc1, hlt1, hne1⟩ := s1.context_clone
  obtain ⟨hcc2, -, -⟩ := s2.context_clone
  have hl2 : h2.ctxs.length = h.ctxs.length + 1 := s1.ctxs_len
  -- the cells of the two new contexts in the last heap
  have hcell1 : h3.ctxs[h.ctxs.length]? =
      some { parent := b.context, vars := [("count.index", toCtyNumber parse i1)] } := by
    rw [s2.ctxs_old _ (by omega)]; exact s1.cloneCtx
  have hcell2 : h3.ctxs[h2.ctxs.length]? =
      some { parent := b.context, vars := [("count.index", toCtyNumber parse i2)] } := s2.cloneCtx
  have hold3 : ∀ q, q < h.ctxs.length → h3.ctxs[q]? = h.ctxs[q]? := by
    intro q hq
    rw [s2.ctxs_old q (by omega), s1.ctxs_old q hq]
  have hcl3 : ∀ q cx p, q < h.ctxs.length → h3.ctxs[q]? = some cx → cx.parent = some p →
      p < h.ctxs.length := by
    intro q cx p hq hcx hp
    rw [hold3 q hq] at hcx
    exact hcl q cx p hcx hp
  refine ⟨h2, clone1, h.ctxs.length, hc1, hcc1, by omega, le_refl _, ?_, ?_,
    h3, clone2, h2.ctxs.length, hc2, hcc2, ?_, by omega, by omega, ?_, ?_, ?_, ?_⟩
  · simp [s1.cloneCtx, hbc]
  · intro fuel path
    exact Context.resolve_frame h h2 h.ctxs.length hcln s1.ctxs_old fuel c path hc
  · have := s2.blocks_old clone1 hlt1 hne1
    simp only [Block.Context, this]
    exact hcc1
  · simp [hcell2, hbc]
  · intro fuel path
    have hcl2 : ∀ q cx p, q < h.ctxs.length → h2.ctxs[q]? = some cx → cx.parent = some p →
        p < h.ctxs.length := by
      intro q cx p hq hcx hp
      rw [s1.ctxs_old q hq] at hcx
      exact hcl q cx p hcx hp
    have hbase : ∀ fuel, Context.resolve fuel h3 c path = Context.resolve fuel h2 c path := by
      intro fuel
      exact Context.resolve_frame h2 h3 h.ctxs.length hcl2
        (fun q hq => s2.ctxs_old q (by omega)) fuel c path hc
    refine ⟨?_, ?_⟩
    · exact Context.resolve_frame h h3 h.ctxs.length hcln hold3 fuel c path hc
    · exact Context.resolve_frame_child h2 h3 _ c _ path s1.cloneCtx hcell1 hbc hbase fuel
  · intro v p
    obtain ⟨h4, hset, hnew, hother, -, -⟩ := Context.setByDot_spec h3 _ _ v p hcell1
    refine ⟨h4, hset, by simp [Context.bound, hnew, List.lookup], ?_⟩
    intro fuel path
    have hbase : ∀ fuel, Context.resolve fuel h4 c path = Context.resolve fuel h3 c path := by
      intro fuel
      exact Context.resolve_frame h3 h4 h.ctxs.length hcl3
        (fun q hq => hother q (by omega)) fuel c path hc
    refine ⟨hbase fuel, ?_⟩
    exact Context.resolve_frame_child h3 h4 _ c _ path hcell2
      (by rw [hother _ (by omega)]; exact hcell2) hbc hbase fuel
  · intro v p
    obtain ⟨h4, hset, hnew, hother, -, -⟩ := Context.setByDot_spec h3 _ _ v p hcell2
    refine ⟨h4, hset, by simp [Context.bound, hnew, List.lookup], ?_⟩
    intro fuel path
    have hbase : ∀ fuel, Context.resolve fuel h4 c path = Context.resolve fuel h3 c path := by
      intro fuel
      exact Context.resolve_frame h3 h4 h.ctxs.length hcl3
        (fun q hq => hother q (by omega)) fuel c path hc
    refine ⟨hbase fuel, ?_⟩
    exact Context.resolve_frame_child h3 h4 _ c _ path hcell1
      (by rw [hother _ (by omega)]; exact hcell1) hbc hbase fuel

theorem sampleResource_closed : sampleResource.ctxClosed := by
  intro q cx p hq hp
  cases q with
  | zero =>
    simp [sampleResource] at hq
    subst hq
    simp at hp
  | succ q => simp [sampleResource] at hq

/-- Witness of C7: two clones of `aws_instance.web`, whose Context is the root
context 0. -/
theorem Block.clone_context_witness :
    ∃ h2 clone1 cc1, Block.Clone sampleParse sampleTable sampleResource 0
        (.number (BigFloat.ofInt 0)) = some (h2, clone1) ∧
      Block.Context h2 clone1 = some (some cc1) ∧ cc1 ≠ 0 ∧
      ∃ h3 clone2 cc2, Block.Clone sampleParse sampleTable h2 0
          (.number (BigFloat.ofInt 1)) = some (h3, clone2) ∧
        Block.Context h3 clone2 = some (some cc2) ∧ cc2 ≠ cc1 := by
  obtain ⟨h2, clone1, cc1, hc1, hx1, hne1, -, -, -, h3, clone2, cc2, hc2, hx2, -, hne2, -⟩ :=
    Block.clone_context sampleParse sampleTable sampleResource 0 (Block.new 0 0 none []) 0
      sampleNode (.number (BigFloat.ofInt 0)) (.number (BigFloat.ofInt 1)) 0
      (by decide) (by decide) rfl rfl (by decide) sampleResource_closed
  exact ⟨h2, clone1, cc1, hc1, hx1, hne1, h3, clone2, cc2, hc2, hx2, hne2⟩

/-- C8 (amended): the Context of the clone has "count.index" bound to the result
of converting the index to a number with the error discarded: a known number is
bound as it is; a known string is bound as the number it parses to, and as the
nil value when it is not a number literal; an unknown number, string or dynamic
value is bound as the unknown number. -/
theorem Block.clone_count_index (parse : String → Option BigFloat) (table : Char → Bool)
    (h : Heap) (bp : Nat) (b : Block) (np : Nat) (node : HclBlock) (index : Val)
    (hb : h.blocks[bp]? = some b) (hnp : b.hclBlock = some np) (hnode : h.nodes[np]? = some node)
    (hctx : ∀ c, b.context = some c → c < h.ctxs.length) :
    (∃ h2 clone cc, Block.Clone parse table h bp index = some (h2, clone) ∧
      Block.Context h2 clone = some (some cc) ∧
      Context.bound h2 cc "count.index" = some (toCtyNumber parse index) ∧
      ∀ fuel, Context.resolve (fuel + 1) h2 cc "count.index" = some (toCtyNumber parse index)) ∧
    (∀ x, index = .number x → toCtyNumber parse index = .number x) ∧
    (∀ s x, index = .string s → parse s = some x → toCtyNumber parse index = .number x) ∧
    (∀ s, index = .string s → parse s = none → toCtyNumber parse index = .nilVal) ∧
    (index = .unknown .number ∨ index = .unknown .string ∨ index = .unknown .dynamic →
      toCtyNumber parse index = .unknown .number) := by
  refine ⟨?_, ?_, ?_, ?_, ?_⟩
  · obtain ⟨h2, clone, hc, s⟩ :=
      Block.clone_spec parse table h bp b np node index hb hnp hnode hctx
    refine ⟨h2, clone, h.ctxs.length, hc, s.context_clone.1, ?_, ?_⟩
    · simp [Context.bound, s.cloneCtx, List.lookup]
    · intro fuel
      simp [Context.resolve, s.cloneCtx, List.lookup]
  · rintro x rfl
    rfl
  · rintro s x rfl hs
    simp [toCtyNumber, hs]
  · rintro s rfl hs
    simp [toCtyNumber, hs]
  · rintro (rfl | rfl | rfl) <;> rfl

/-- Witness of C8: the clones of `aws_instance.web` for the indices 0, 1, 2
have "count.index" bound to 0, 1, 2. -/
theorem Block.clone_count_index_witness :
    (∃ h2 clone cc, Block.Clone sampleParse sampleTable sampleResource 0
        (.number (BigFloat.ofInt 0)) = some (h2, clone) ∧
      Block.Context h2 clone = some (some cc) ∧
      Context.bound h2 cc "count.index" = some (.number (BigFloat.ofInt 0))) ∧
    (∃ h2 clone cc, Block.Clone sampleParse sampleTable sampleResource 0
        (.number (BigFloat.ofInt 1)) = some (h2, clone) ∧
      Block.Context h2 clone = some (some cc) ∧
      Context.bound h2 cc "count.index" = some (.number (BigFloat.ofInt 1))) ∧
    (∃ h2 clone cc, Block.Clone sampleParse sampleTable sampleResource 0
        (.number (BigFloat.ofInt 2)) = some (h2, clone) ∧
      Block.Context h2 clone = some (some cc) ∧
      Context.bound h2 cc "count.index" = some (.number (BigFloat.ofInt 2))) := by
  refine ⟨?_, ?_, ?_⟩
  · obtain ⟨⟨h2, clone, cc, hc, hx, hbd, -⟩, -⟩ :=
      Block.clone_count_index sampleParse sampleTable sampleResource 0 (Block.new 0 0 none []) 0
        sampleNode (.number (BigFloat.ofInt 0)) (by decide) (by decide) rfl sampleResource_ctx
    exact ⟨h2, clone, cc, hc, hx, hbd⟩
  · obtain ⟨⟨h2, clone, cc, hc, hx, hbd, -⟩, -⟩ :=
      Block.clone_count_index sampleParse sampleTable sampleResource 0 (Block.new 0 0 none []) 0
        sampleNode (.number (BigFloat.ofInt 1)) (by decide) (by decide) rfl sampleResource_ctx
    exact ⟨h2, clone, cc, hc, hx, hbd⟩
  · obtain ⟨⟨h2, clone, cc, hc, hx, hbd, -⟩, -⟩ :=
      Block.clone_count_index sampleParse sampleTable sampleResource 0 (Block.new 0 0 none []) 0
        sampleNode (.number (BigFloat.ofInt 2)) (by decide) (by decide) rfl sampleResource_ctx
    exact ⟨h2, clone, cc, hc, hx, hbd⟩

/-- Counterexample to C8 as stated: for the string key "a" the path
"count.index" of the clone's Context is bound to the nil value, which is not a
number. -/
theorem Block.clone_count_index_counterexample :
    (Block.Clone sampleParse sampleTable sampleResource 0 (.string "a")).bind
        (fun r => (Block.Context r.1 r.2).bind
          (fun c => c.bind (fun cc => Context.bound r.1 cc "count.index"))) =
      some Val.nilVal ∧
    Val.isNumber Val.nilVal = false := by
  decide

/-! ## Children of a clone -/

theorem Context.setByDot_blocks (h h2 : Heap) (c : Nat) (v : Val) (path : String)
    (hs : Context.SetByDot h c v path = some h2) :
    h2.blocks = h.blocks ∧ h2.nodes = h.nodes := by
  unfold Context.SetByDot at hs
  split at hs
  · cases hs
  · cases hs
    exact ⟨rfl, rfl⟩

theorem injectLoop_blocks (value : Heap → Attribute → Val) (fuel bp : Nat) (name : String)
    (attrs : List (String × Attribute)) :
    ∀ (h3 h4 : Heap),
      attrs.foldlM (fun (acc : Heap) (a : String × Attribute) => do
        let b ← acc.blocks[bp]?
        let c ← b.context
        let root ← Context.Root fuel acc c
        let ref ← Block.LocalName acc bp
        Context.SetByDot acc root (value acc a.2) (ref ++ "." ++ name ++ "." ++ a.1)) h3 = some h4 →
      h4.blocks = h3.blocks ∧ h4.nodes = h3.nodes := by
  induction attrs with
  | nil =>
    intro h3 h4 hf
    simp at hf
    subst hf
    exact ⟨rfl, rfl⟩
  | cons a rest ih =>
    intro h3 h4 hf
    simp only [List.foldlM_cons, Option.bind_eq_bind, Option.bind_eq_some] at hf
    obtain ⟨hmid, ⟨b, -, c, -, root, -, ref, -, hset⟩, hrest⟩ := hf
    have h1 := Context.setByDot_blocks _ _ _ _ _ hset
    have h2 := ih hmid h4 hrest
    exact ⟨h2.1.trans h1.1, h2.2.trans h1.2⟩

theorem Block.injectBlock_spec (value : Heap → Attribute → Val) (fuel : Nat) (h0 h : Heap)
    (bp sp : Nat) (name : String) (hi : Block.InjectBlock value fuel h0 bp sp name = some h) :
    sp < h.blocks.length ∧ h.blocks.length = h0.blocks.length ∧
      ∃ b, h.blocks[bp]? = some b ∧ sp ∈ b.childBlocks := by
  simp only [Block.InjectBlock, Option.bind_eq_bind, Option.bind_eq_some] at hi
  obtain ⟨sb, hsb, snp, hsnp, h1, hh1, h2, hh2, ⟨h3, attrs⟩, hattr, h4, hloop, hmod⟩ := hi
  have hsp : sp < h0.blocks.length := (List.getElem?_eq_some.mp hsb).1
  have e1 : h1.blocks = h0.blocks := by
    unfold Heap.setLabels at hh1
    split at hh1
    · cases hh1
    · cases hh1; rfl
  have e2 : h2.blocks = h1.blocks := by
    unfold Heap.setType at hh2
    split at hh2
    · cases hh2
    · cases hh2; rfl
  have e3 : h3.blocks.length = h2.blocks.length := by
    simp only [Block.Attributes, Block.GetAttributes] at hattr
    split at hattr
    · cases hattr
    · rename_i r hr
      simp only [Option.some.injEq, Prod.mk.injEq] at hattr
      obtain ⟨rfl, -⟩ := hattr
      split at hr
      · cases hr
      · split at hr
        · cases hr; rfl
        · split at hr
          · cases hr
          · cases hr
            simp
  have e4 := (injectLoop_blocks value fuel bp name attrs h3 h4 hloop).1
  unfold Heap.modifyBlock at hmod
  split at hmod
  · cases hmod
  · rename_i b hb
    cases hmod
    have hbp : bp < h4.blocks.length := (List.getElem?_eq_some.mp hb).1
    refine ⟨?_, ?_, { b with childBlocks := b.childBlocks ++ [sp] }, ?_, ?_⟩
    · simp only [List.length_set]
      rw [e4, e3, e2, e1]
      exact hsp
    · simp only [List.length_set]
      rw [e4, e3, e2, e1]
    · simp only [List.getElem?_set, hbp, if_true]
    · simp

/-- C9: the children of a clone are the children of the block that
`NewHCLBlock` builds from the copy of the syntax node of `b` under the clone's
new Context: the same addresses, and the same `Block` objects as right after
the construction.  Each child carries the clone's Context and the owning module
of `b`, and is a block allocated by this call: it is not `b`, it is not a child
of `b`, and when the heap comes from an `InjectBlock` call that appended `sp` to
`b`, then `sp` is a child of `b` and none of the clone's children. -/
theorem Block.clone_children (parse : String → Option BigFloat) (table : Char → Bool)
    (h : Heap) (bp : Nat) (b : Block) (np : Nat) (node : HclBlock) (index : Val)
    (hb : h.blocks[bp]? = some b) (hnp : b.hclBlock = some np) (hnode : h.nodes[np]? = some node)
    (hctx : ∀ c, b.context = some c → c < h.ctxs.length)
    (hkids : ∀ k ∈ b.childBlocks, k < h.blocks.length) :
    ∃ h2 clone cb, Block.Clone parse table h bp index = some (h2, clone) ∧
      h2.blocks[clone]? = some cb ∧ cb.context = some h.ctxs.length ∧
      (∃ r, NewHCLBlock ((NewContext h b.context).1.allocNode node).1 h.nodes.length
          (some h.ctxs.length) b.moduleBlock = some r ∧
        ((NewContext h b.context).1.allocNode node).1.nodes[h.nodes.length]? = some node ∧
        r.2 = clone ∧
        (r.1.blocks[r.2]?).map Block.childBlocks = some cb.childBlocks ∧
        ∀ k ∈ cb.childBlocks, h2.blocks[k]? = r.1.blocks[k]?) ∧
      (∀ k ∈ cb.childBlocks, ∃ kb, h2.blocks[k]? = some kb ∧
        kb.context = some h.ctxs.length ∧ kb.moduleBlock = b.moduleBlock ∧
        h.blocks.length ≤ k ∧ k ≠ bp ∧ k ∉ b.childBlocks) ∧
      (∀ value fuel h0 sp name, Block.InjectBlock value fuel h0 bp sp name = some h →
        sp ∈ b.childBlocks ∧ sp ∉ cb.childBlocks) := by
  obtain ⟨h2, clone, hc, s⟩ := Block.clone_spec parse table h bp b np node index hb hnp hnode hctx
  obtain ⟨kids, hbuilt, hcb, hk⟩ := s.cloneBlock
  have hbp : bp < h.blocks.length := (List.getElem?_eq_some.mp hb).1
  refine ⟨h2, clone, _, hc, hcb, rfl, ?_, ?_, ?_⟩
  · refine ⟨_, ?_, ?_, s.built.symm, ?_, ?_⟩
    · simp [NewHCLBlock, NewContext, Heap.allocNode]
    · simp [NewContext, Heap.allocNode]
    · rw [← s.built, hbuilt]
      rfl
    · intro k hkm
      exact (hk k hkm).2.2.1
  · intro k hkm
    obtain ⟨h1, h2', -, kb, hkb, hkc, hkmod⟩ := hk k hkm
    refine ⟨kb, hkb, hkc, hkmod, h1, by omega, ?_⟩
    intro hmem
    have := hkids k hmem
    omega
  · intro value fuel h0 sp name hinj
    obtain ⟨hsp, -, b1, hb1, hmem⟩ := Block.injectBlock_spec value fuel h0 h bp sp name hinj
    rw [hb] at hb1
    cases hb1
    refine ⟨hmem, ?_⟩
    intro hmem2
    have := (hk sp hmem2).1
    omega

theorem sampleInjected_ctx :
    ∀ c, (Block.new 0 0 none [1]).context = some c → c < sampleInjected.ctxs.length := by
  intro c hc
  cases hc
  decide

/-- Witness of C9: `aws_instance.web` after the injection of the block at
address 1; the injected block is a child of the original and not of the clone. -/
theorem Block.clone_children_witness :
    Block.InjectBlock sampleValue 2 sampleInject 0 1 "timeouts" = some sampleInjected ∧
    ∃ h2 clone cb, Block.Clone sampleParse sampleTable sampleInjected 0
        (.number (BigFloat.ofInt 0)) = some (h2, clone) ∧
      h2.blocks[clone]? = some cb ∧
      (∀ k ∈ cb.childBlocks, ∃ kb, h2.blocks[k]? = some kb ∧ kb.context = some 1 ∧
        kb.moduleBlock = none ∧ 2 ≤ k ∧ k ≠ 0 ∧ k ∉ [1]) ∧
      1 ∈ [1] ∧ 1 ∉ cb.childBlocks := by
  have hinj : Block.InjectBlock sampleValue 2 sampleInject 0 1 "timeouts" = some sampleInjected := by
    rfl
  obtain ⟨h2, clone, cb, hc, hcb, -, -, hkids, hsp⟩ :=
    Block.clone_children sampleParse sampleTable sampleInjected 0 (Block.new 0 0 none [1]) 0
      sampleNode (.number (BigFloat.ofInt 0)) (by decide) (by decide) rfl sampleInjected_ctx
      (by decide)
  exact ⟨hinj, h2, clone, cb, hc, hcb, hkids,
    hsp sampleValue 2 sampleInject 1 "timeouts" hinj⟩

/-! ## Rebinding -/

theorem Context.ancestor_append (h h2 : Heap) (cs : List Context) (he : h2.ctxs = h.ctxs ++ cs) :
    ∀ (k c a : Nat), Context.ancestor h k c = some a → Context.ancestor h2 k c = some a := by
  intro k
  induction k with
  | zero =>
    intro c a ha
    simp only [Context.ancestor] at ha ⊢
    split at ha
    · rename_i hlt
      have : c < h2.ctxs.length := by rw [he, List.length_append]; omega
      simpa [this] using ha
    · cases ha
  | succ k ih =>
    intro c a ha
    simp only [Context.ancestor] at ha ⊢
    cases hc : h.ctxs[c]? with
    | none => simp [hc] at ha
    | some cx =>
      have hlt : c < h.ctxs.length := (List.getElem?_eq_some.mp hc).1
      have hc2 : h2.ctxs[c]? = some cx := by rw [he, List.getElem?_append_left hlt]; exact hc
      rw [hc] at ha
      rw [hc2]
      cases hp : cx.parent with
      | none => simp [hp] at ha
      | some p =>
        simp only [hp] at ha ⊢
        exact ih p a ha

theorem Context.ancestor_succ (h : Heap) (a p : Nat) (cx : Context) (ha : h.ctxs[a]? = some cx)
    (hp : cx.parent = some p) (hpl : p < h.ctxs.length) :
    ∀ (k c : Nat), Context.ancestor h k c = some a → Context.ancestor h (k + 1) c = some p := by
  intro k
  induction k with
  | zero =>
    intro c hc
    simp only [Context.ancestor] at hc
    split at hc
    · cases hc
      simp [Context.ancestor, ha, hp, hpl]
    · cases hc
  | succ k ih =>
    intro c hc
    rw [Context.ancestor] at hc ⊢
    cases hcc : h.ctxs[c]? with
    | none => simp [hcc] at hc
    | some cc =>
      rw [hcc] at hc
      simp only []  at hc ⊢
      cases hpp : cc.parent with
      | none => simp [hpp] at hc
      | some q =>
        simp only [hpp] at hc ⊢
        exact ih q hc

theorem Context.root_ancestor (h : Heap) :
    ∀ (k c a : Nat), Context.ancestor h k c = some a →
      ∀ f, Context.Root (f + k) h c = Context.Root f h a := by
  intro k
  induction k with
  | zero =>
    intro c a ha f
    simp only [Context.ancestor] at ha
    split at ha
    · cases ha; rfl
    · cases ha
  | succ k ih =>
    intro c a ha f
    rw [Context.ancestor] at ha
    cases hcc : h.ctxs[c]? with
    | none => simp [hcc] at ha
    | some cc =>
      rw [hcc] at ha
      simp only [] at ha
      cases hpp : cc.parent with
      | none => simp [hpp] at ha
      | some q =>
        simp only [hpp] at ha
        have := ih q a ha f
        rw [← Nat.add_assoc, Context.Root, hcc]
        simp only [hpp]
        exact this

theorem Context.root_frame (h h2 : Heap) (n : Nat)
    (hcl : ∀ q cx p, q < n → h.ctxs[q]? = some cx → cx.parent = some p → p < n)
    (hsame : ∀ q, q < n → h2.ctxs[q]? = h.ctxs[q]?) :
    ∀ (fuel c : Nat), c < n → Context.Root fuel h2 c = Context.Root fuel h c := by
  intro fuel
  induction fuel with
  | zero => intro c _; rfl
  | succ f ih =>
    intro c hc
    simp only [Context.Root, hsame c hc]
    cases hcx : h.ctxs[c]? with
    | none => rfl
    | some cx =>
      simp only []
      cases hp : cx.parent with
      | none => rfl
      | some p => exact ih p (hcl c cx p hc hcx hp)

mutual
theorem represents_congr (h h2 : Heap)
    (hk : ∀ q : Nat,
      (h2.blocks[q]?).map Block.dropContext = (h.blocks[q]?).map Block.dropContext) :
    (t : BTree) → Represents h t → Represents h2 t
  | .node p kids => by
    intro hr
    simp only [Represents] at hr ⊢
    refine ⟨?_, representsAll_congr h h2 hk kids hr.2⟩
    have h1 := hk p
    have h3 := hr.1
    cases hb : h.blocks[p]? with
    | none => simp [hb] at h3
    | some b =>
      cases hb2 : h2.blocks[p]? with
      | none => simp [hb, hb2] at h1
      | some b2 =>
        simp only [hb, hb2, Option.map_some', Option.some.injEq] at h1 h3 ⊢
        have : b2.childBlocks = b.childBlocks := by
          have := congrArg Block.childBlocks h1
          simpa [Block.dropContext] using this
        rw [this]; exact h3
theorem representsAll_congr (h h2 : Heap)
    (hk : ∀ q : Nat,
      (h2.blocks[q]?).map Block.dropContext = (h.blocks[q]?).map Block.dropContext) :
    (ts : List BTree) → RepresentsAll h ts → RepresentsAll h2 ts
  | [] => fun _ => by simp [RepresentsAll]
  | t :: ts => by
    intro hr
    simp only [RepresentsAll] at hr ⊢
    exact ⟨represents_congr h h2 hk t hr.1, representsAll_congr h h2 hk ts hr.2⟩
end

theorem map_fst_shift (l : List (Nat × Nat)) :
    (l.map (fun x => (x.1, x.2 + 1))).map Prod.fst = l.map Prod.fst := by
  induction l with
  | nil => rfl
  | cons a rest ih => simp [ih]

theorem BTree.root_mem_nodes (t : BTree) : (t.ptr, 0) ∈ t.nodes := by
  cases t with
  | node p kids => simp [BTree.nodes, BTree.ptr]

theorem dropContext_set (h : Heap) (p : Nat) (b : Block) (c : Option Nat)
    (hb : h.blocks[p]? = some b) (q : Nat) :
    ((h.blocks.set p { b with context := c })[q]?).map Block.dropContext =
      (h.blocks[q]?).map Block.dropContext := by
  rw [List.getElem?_set]
  split
  · rename_i hpq
    subst hpq
    have hlt : p < h.blocks.length := (List.getElem?_eq_some.mp hb).1
    simp [hlt, hb, Block.dropContext]
  · rfl

mutual
theorem Block.overrideContext_rebound : (t : BTree) → ∀ (fuel : Nat) (h : Heap) (c0 : Nat),
    t.nodes.length ≤ fuel → Represents h t → (t.nodes.map Prod.fst).Nodup →
    c0 < h.ctxs.length →
    ∃ h2, Block.OverrideContext fuel h t.ptr (some c0) = some h2 ∧ Rebound h t.nodes c0 0 h2
  | .node p kids => by
    intro fuel h c0 hf hr hnd hc
    simp only [BTree.nodes, List.length_cons, List.length_map] at hf
    obtain ⟨f, rfl⟩ : ∃ f, fuel = f + 1 := ⟨fuel - 1, by omega⟩
    simp only [Represents] at hr
    obtain ⟨hkids, hrk⟩ := hr
    cases hb : h.blocks[p]? with
    | none => simp [hb] at hkids
    | some b =>
      simp only [hb, Option.map_some', Option.some.injEq] at hkids
      have hlt : p < h.blocks.length := (List.getElem?_eq_some.mp hb).1
      have hstrip0 := dropContext_set h p b (some c0) hb
      have hrk0 : RepresentsAll
          { h with blocks := h.blocks.set p { b with context := some c0 } } kids :=
        representsAll_congr h _ hstrip0 kids hrk
      simp only [BTree.nodes, List.map_cons, map_fst_shift, List.nodup_cons] at hnd
      obtain ⟨hpn, hndk⟩ := hnd
      obtain ⟨H2, hloop, R⟩ := overrideKids_rebound kids f
        { h with blocks := h.blocks.set p { b with context := some c0 } } c0 (by omega) hrk0 hndk hc
      refine ⟨H2, ?_, ?_⟩
      · rw [← hkids] at hloop
        simp only [Block.OverrideContext, BTree.ptr, hb]
        exact hloop
      · have hp2 : H2.blocks[p]? = some { b with context := some c0 } := by
          rw [R.frame p hpn]
          simp [List.getElem?_set, hlt]
        obtain ⟨cs, hcs⟩ := R.ctxs
        refine ⟨R.nodes, ⟨cs, hcs⟩, ?_, ?_, ?_⟩
        · intro q hq
          simp only [BTree.nodes, List.map_cons, map_fst_shift, List.mem_cons, not_or] at hq
          rw [R.frame q hq.2]
          have : p ≠ q := fun e => hq.1 e.symm
          simp [List.getElem?_set, this]
        · intro q
          rw [R.strip q]
          exact hstrip0 q
        · intro d k hdk
          simp only [BTree.nodes, List.mem_cons, List.mem_map, Prod.mk.injEq] at hdk
          rcases hdk with ⟨rfl, rfl⟩ | ⟨x, hx, rfl, rfl⟩
          · refine ⟨c0, by simp [hp2], ?_, by omega⟩
            have : c0 < H2.ctxs.length := by rw [hcs, List.length_append]; simp at hc ⊢; omega
            simp [Context.ancestor, this]
          · obtain ⟨c, h1, h2, h3⟩ := R.bound x.1 x.2 hx
            exact ⟨c, h1, h2, fun _ => h3 (by omega)⟩
theorem overrideKids_rebound : (ts : List BTree) → ∀ (fuel : Nat) (H : Heap) (c0 : Nat),
    (BTree.nodesAll ts).length ≤ fuel → RepresentsAll H ts →
    ((BTree.nodesAll ts).map Prod.fst).Nodup → c0 < H.ctxs.length →
    ∃ H2, (ts.map BTree.ptr).foldlM (overrideChild (Block.OverrideContext fuel) (some c0)) H =
        some H2 ∧
      Rebound H (BTree.nodesAll ts) c0 1 H2
  | [] => by
    intro fuel H c0 _ _ _ _
    refine ⟨H, by simp, rfl, ⟨[], by simp⟩, fun _ _ => rfl, fun _ => rfl, ?_⟩
    intro d k hdk
    simp [BTree.nodesAll] at hdk
  | t :: ts => by
    intro fuel H c0 hf hr hnd hc
    simp only [BTree.nodesAll, List.length_append] at hf
    simp only [RepresentsAll] at hr
    simp only [BTree.nodesAll, List.map_append] at hnd
    obtain ⟨hnd1, hnd2, hdisj⟩ := List.nodup_append.mp hnd
    -- the new child context
    have hnew : Context.NewChild H c0 = some (NewContext H (some c0)) := by
      simp [Context.NewChild, List.getElem?_eq_getElem hc]
    have hc1 : H.ctxs.length < (NewContext H (some c0)).1.ctxs.length := by
      simp [NewContext]
    obtain ⟨H1, hcall, R1⟩ := Block.overrideContext_rebound t fuel (NewContext H (some c0)).1
      H.ctxs.length (by omega)
      (represents_congr H (NewContext H (some c0)).1 (fun _ => rfl) t hr.1) hnd1 hc1
    obtain ⟨cs1, hcs1⟩ := R1.ctxs
    have hrest : RepresentsAll H1 ts :=
      representsAll_congr (NewContext H (some c0)).1 H1 R1.strip ts
        (representsAll_congr H (NewContext H (some c0)).1 (fun _ => rfl) ts hr.2)
    have hc01 : c0 < H1.ctxs.length := by
      rw [hcs1, List.length_append]
      simp [NewContext]
      omega
    obtain ⟨H2, hloop, R2⟩ := overrideKids_rebound ts fuel H1 c0 (by omega) hrest hnd2 hc01
    obtain ⟨cs2, hcs2⟩ := R2.ctxs
    refine ⟨H2, ?_, ?_⟩
    · simp only [List.map_cons, List.foldlM_cons, overrideChild, hnew]
      show (Block.OverrideContext fuel (NewContext H (some c0)).1 t.ptr
        (some (NewContext H (some c0)).2)).bind _ = some H2
      have h2nd : (NewContext H (some c0)).2 = H.ctxs.length := rfl
      rw [h2nd, hcall]
      exact hloop
    · have hcell : H1.ctxs[H.ctxs.length]? = some { parent := some c0, vars := [] } := by
        rw [hcs1, List.getElem?_append_left (by simp [NewContext])]
        simp [NewContext]
      refine ⟨R2.nodes.trans R1.nodes, ⟨[{ parent := some c0, vars := [] }] ++ cs1 ++ cs2, ?_⟩,
        ?_, ?_, ?_⟩
      · rw [hcs2, hcs1]
        simp [NewContext]
      · intro q hq
        simp only [BTree.nodesAll, List.map_append, List.mem_append, not_or] at hq
        rw [R2.frame q hq.2, R1.frame q hq.1]
        rfl
      · intro q
        rw [R2.strip q, R1.strip q]
        rfl
      · intro d k hdk
        simp only [BTree.nodesAll, List.mem_append] at hdk
        rcases hdk with hdk | hdk
        · obtain ⟨c, h1, h2, h3⟩ := R1.bound d k hdk
          have hdn : d ∉ (BTree.nodesAll ts).map Prod.fst := by
            intro hmem
            exact hdisj (List.mem_map_of_mem Prod.fst hdk) hmem
          refine ⟨c, by rw [R2.frame d hdn]; exact h1, ?_, ?_⟩
          · apply Context.ancestor_append H1 H2 cs2 hcs2
            exact Context.ancestor_succ H1 H.ctxs.length c0 _ hcell rfl hc01 k c h2
          · intro _
            by_cases hk : 1 ≤ k + 0
            · have := h3 hk
              simp [NewContext] at this
              omega
            · have hk0 : k = 0 := by omega
              subst hk0
              simp only [Context.ancestor, Nat.add_zero] at h2
              split at h2
              · cases h2; exact le_refl _
              · cases h2
        · obtain ⟨c, h1, h2, h3⟩ := R2.bound d k hdk
          refine ⟨c, h1, h2, ?_⟩
          intro hk
          have := h3 hk
          rw [hcs1, List.length_append] at this
          simp [NewContext] at this
          omega
end

theorem nodeOf_dropContext (h h2 : Heap) (hn : h2.nodes = h.nodes)
    (hk : ∀ q : Nat,
      (h2.blocks[q]?).map Block.dropContext = (h.blocks[q]?).map Block.dropContext) (q : Nat) :
    h2.nodeOf q = h.nodeOf q := by
  have h1 := hk q
  unfold Heap.nodeOf
  cases hb : h.blocks[q]? with
  | none =>
    cases hb2 : h2.blocks[q]? with
    | none => rfl
    | some b2 => simp [hb, hb2] at h1
  | some b =>
    cases hb2 : h2.blocks[q]? with
    | none => simp [hb, hb2] at h1
    | some b2 =>
      simp only [hb, hb2, Option.map_some', Option.some.injEq] at h1
      have : b2.hclBlock = b.hclBlock := by
        have := congrArg Block.hclBlock h1
        simpa [Block.dropContext] using this
      simp only [this, hn]

/-- C10 (amended): for a block whose children form a finite tree `t` without
sharing, and a context `ctx` of the heap, `OverrideContext` returns with any
fuel of at least the number of blocks of `t`; afterwards the Context of the
block is `ctx`; every descendant at depth `k >= 1` has a Context allocated by
the call whose ancestor number `k` is `ctx`, so the root reached from it is the
root that `ctx` had before the call (`ctx` itself when it has no parent); the
shape of the tree and the order of children are as before, no `hcl.Block` is
touched, no block changes in anything but its Context, so types and labels are
as before, and the contexts that existed are untouched. -/
theorem Block.overrideContext_tree (t : BTree) (h : Heap) (ctx fuel : Nat)
    (hrep : Represents h t) (hnd : (t.nodes.map Prod.fst).Nodup) (hctx : ctx < h.ctxs.length)
    (hcl : h.ctxClosed) (hfuel : t.nodes.length ≤ fuel) :
    ∃ h2, Block.OverrideContext fuel h t.ptr (some ctx) = some h2 ∧
      Block.Context h2 t.ptr = some (some ctx) ∧
      (∀ d k, (d, k) ∈ t.nodes → 1 ≤ k →
        ∃ c, Block.Context h2 d = some (some c) ∧ h.ctxs.length ≤ c ∧
          Context.ancestor h2 k c = some ctx ∧
          (∀ f, Context.Root (f + k) h2 c = Context.Root f h ctx) ∧
          ((h.ctxs[ctx]?).map Context.parent = some none →
            Context.Root (1 + k) h2 c = some ctx)) ∧
      Represents h2 t ∧ h2.nodes = h.nodes ∧
      (∀ q : Nat,
        (h2.blocks[q]?).map Block.dropContext = (h.blocks[q]?).map Block.dropContext) ∧
      (∀ q, Block.Type h2 q = Block.Type h q ∧ Block.Labels h2 q = Block.Labels h q) ∧
      (∀ q, q < h.ctxs.length → h2.ctxs[q]? = h.ctxs[q]?) := by
  obtain ⟨h2, hcall, R⟩ := Block.overrideContext_rebound t fuel h ctx hfuel hrep hnd hctx
  obtain ⟨cs, hcs⟩ := R.ctxs
  have hold : ∀ q, q < h.ctxs.length → h2.ctxs[q]? = h.ctxs[q]? := by
    intro q hq
    rw [hcs, List.getElem?_append_left hq]
  have hroot : ∀ f, Context.Root f h2 ctx = Context.Root f h ctx := fun f =>
    Context.root_frame h h2 h.ctxs.length (fun q cx p _ hq hp => hcl q cx p hq hp) hold f ctx hctx
  refine ⟨h2, hcall, ?_, ?_, represents_congr h h2 R.strip t hrep, R.nodes, R.strip, ?_, hold⟩
  · obtain ⟨c, h1, h2', -⟩ := R.bound t.ptr 0 t.root_mem_nodes
    simp only [Context.ancestor, Nat.add_zero] at h2'
    split at h2'
    · cases h2'
      exact h1
    · cases h2'
  · intro d k hdk hk
    obtain ⟨c, h1, h2', h3⟩ := R.bound d k hdk
    rw [Nat.add_zero] at h2'
    have hr : ∀ f, Context.Root (f + k) h2 c = Context.Root f h ctx := by
      intro f
      rw [Context.root_ancestor h2 k c ctx h2' f, hroot f]
    refine ⟨c, h1, h3 (by omega), h2', hr, ?_⟩
    intro hpar
    rw [hr 1]
    cases hcx : h.ctxs[ctx]? with
    | none => simp [hcx] at hpar
    | some cx =>
      simp only [hcx, Option.map_some', Option.some.injEq] at hpar
      simp [Context.Root, hcx, hpar]
  · intro q
    have := nodeOf_dropContext h h2 R.nodes R.strip q
    simp [Block.Type, Block.Labels, this]

theorem sampleTree_closed : sampleTree.ctxClosed := by
  intro q cx p hq hp
  cases q with
  | zero =>
    simp [sampleTree] at hq
    subst hq
    simp at hp
  | succ q => simp [sampleTree] at hq

/-- Witness of C10: the tree of four blocks rebound to its root context. -/
theorem Block.overrideContext_tree_witness :
    ∃ h2, Block.OverrideContext 4 sampleTree sampleShape.ptr (some 0) = some h2 ∧
      Block.Context h2 sampleShape.ptr = some (some 0) ∧
      (∃ c, Block.Context h2 3 = some (some c) ∧ sampleTree.ctxs.length ≤ c ∧
        Context.ancestor h2 2 c = some 0 ∧ Context.Root (1 + 2) h2 c = some 0) ∧
      Represents h2 sampleShape := by
  obtain ⟨h2, hcall, hroot, hdesc, hrep, -⟩ :=
    Block.overrideContext_tree sampleShape sampleTree 0 4
      (by simp [Represents, RepresentsAll, sampleShape, sampleTree, BTree.ptr, Block.new])
      (by decide) (by decide) sampleTree_closed (by decide)
  obtain ⟨c, h1, h2', h3, -, h5⟩ := hdesc 3 2 (by decide) (by decide)
  exact ⟨h2, hcall, hroot, ⟨c, h1, h2', h3, h5 (by decide)⟩, hrep⟩

/-- Counterexample to C10 as stated: the block 0 of `sampleTree` is rebound to
the Context it already has; the root reached from the new Context of its child
1 is the context 0, which is the Context that the child had before the call. -/
theorem Block.overrideContext_tree_counterexample :
    Block.Context sampleTree 0 = some (some 0) ∧
    Block.Context sampleTree 1 = some (some 0) ∧
    (Block.OverrideContext 4 sampleTree 0 (some 0)).bind
        (fun h2 => (Block.Context h2 1).bind (fun c => c.bind (Context.Root 4 h2))) =
      some 0 := by
  decide

/-! ## Accessors -/

/-- C15: for a block with labels `L`, `TypeLabel` is the first label when there
is one and the empty string otherwise, and `NameLabel` is the second label when
there are two and the empty string otherwise; both always return, so no index
is out of range. -/
theorem Block.typeLabel_nameLabel (h : Heap) (bp : Nat) (L : List String)
    (hL : Block.Labels h bp = some L) :
    Block.TypeLabel h (some bp) = some (L[0]?.getD "") ∧
    Block.NameLabel h (some bp) = some (L[1]?.getD "") ∧
    (∀ a rest, L = a :: rest → Block.TypeLabel h (some bp) = some a) ∧
    (L = [] → Block.TypeLabel h (some bp) = some "") ∧
    (∀ a b rest, L = a :: b :: rest → Block.NameLabel h (some bp) = some b) ∧
    (L.length < 2 → Block.NameLabel h (some bp) = some "") := by
  have ht : Block.TypeLabel h (some bp) = some (L[0]?.getD "") := by
    simp only [Block.TypeLabel, hL]
    cases L with
    | nil => rfl
    | cons a rest => simp
  have hn : Block.NameLabel h (some bp) = some (L[1]?.getD "") := by
    simp only [Block.NameLabel, hL]
    cases L with
    | nil => rfl
    | cons a rest =>
      cases rest with
      | nil => rfl
      | cons b rest2 => simp
  refine ⟨ht, hn, ?_, ?_, ?_, ?_⟩
  · rintro a rest rfl
    rw [ht]; simp
  · rintro rfl
    rw [ht]; rfl
  · rintro a b rest rfl
    rw [hn]; simp
  · intro hlen
    rw [hn]
    have : L[1]? = none := List.getElem?_eq_none (by omega)
    rw [this]; rfl

/-- Witness of C15: the labels of `aws_instance.web` and of `module.vpc`. -/
theorem Block.typeLabel_nameLabel_witness :
    (Block.TypeLabel sampleResource (some 0) = some "aws_instance" ∧
      Block.NameLabel sampleResource (some 0) = some "web") ∧
    (Block.TypeLabel sampleModules (some 0) = some "vpc" ∧
      Block.NameLabel sampleModules (some 0) = some "") :=
  ⟨⟨(Block.typeLabel_nameLabel sampleResource 0 ["aws_instance", "web"] (by decide)).2.2.1
        "aws_instance" ["web"] rfl,
      (Block.typeLabel_nameLabel sampleResource 0 ["aws_instance", "web"] (by decide)).2.2.2.2.1
        "aws_instance" "web" [] rfl⟩,
    ⟨(Block.typeLabel_nameLabel sampleModules 0 ["vpc"] (by decide)).2.2.1 "vpc" [] rfl,
      (Block.typeLabel_nameLabel sampleModules 0 ["vpc"] (by decide)).2.2.2.2.2 (by decide)⟩⟩

/-- C14 (amended): on a `nil` receiver `HasModuleBlock` and `HasChild` return
false, `GetBlock` and `GetAttribute` return `nil`, `AllBlocks` and
`GetAttributes` return the empty sequence, and the heap is untouched; on a
block without `hcl.Block` the same holds for `HasChild`, `GetBlock`,
`GetAttribute`, `AllBlocks` and `GetAttributes`, while `HasModuleBlock` tells
whether the owning module is set.  `TypeLabel` and `NameLabel` have no guard for
an absent block: they dereference the `hcl.Block` and do not return. -/
theorem Block.absent_accessors (h : Heap) (name : String) :
    (Block.HasModuleBlock h none = some false ∧
      Block.HasChild h none name = some (h, false) ∧
      Block.GetBlock h none name = some none ∧
      Block.GetAttribute h none name = some (h, none) ∧
      Block.AllBlocks h none = some [] ∧
      Block.GetAttributes h none = some (h, []) ∧
      Block.TypeLabel h none = none ∧
      Block.NameLabel h none = none) ∧
    (∀ p b, h.blocks[p]? = some b → b.hclBlock = none →
      Block.HasModuleBlock h (some p) = some b.moduleBlock.isSome ∧
      Block.HasChild h (some p) name = some (h, false) ∧
      Block.GetBlock h (some p) name = some none ∧
      Block.GetAttribute h (some p) name = some (h, none) ∧
      Block.AllBlocks h (some p) = some [] ∧
      Block.GetAttributes h (some p) = some (h, []) ∧
      Block.TypeLabel h (some p) = none ∧
      Block.NameLabel h (some p) = none) := by
  refine ⟨⟨rfl, rfl, rfl, rfl, rfl, rfl, rfl, rfl⟩, ?_⟩
  intro p b hb hn
  have hl : Block.Labels h p = none := by
    simp [Block.Labels, Heap.nodeOf, hb, hn]
  refine ⟨?_, ?_, ?_, ?_, ?_, ?_, ?_, ?_⟩
  · simp [Block.HasModuleBlock, hb]
  · simp [Block.HasChild, Block.GetAttribute, Block.GetBlock, Attribute.IsNotNil, hb, hn]
  · simp [Block.GetBlock, hb, hn]
  · simp [Block.GetAttribute, hb, hn]
  · simp [Block.AllBlocks, hb, hn]
  · simp [Block.GetAttributes, hb, hn]
  · simp [Block.TypeLabel, hl]
  · simp [Block.NameLabel, hl]

/-- Witness of C14: the block without `hcl.Block` of `sampleAbsent`. -/
theorem Block.absent_accessors_witness :
    Block.GetBlock sampleAbsent (some 1) "x" = some none ∧
    Block.AllBlocks sampleAbsent (some 1) = some [] ∧
    Block.HasChild sampleAbsent (some 1) "x" = some (sampleAbsent, false) :=
  ⟨((Block.absent_accessors sampleAbsent "x").2 1 _ rfl rfl).2.2.1,
    ((Block.absent_accessors sampleAbsent "x").2 1 _ rfl rfl).2.2.2.2.1,
    ((Block.absent_accessors sampleAbsent "x").2 1 _ rfl rfl).2.1⟩

/-- Counterexample to C14 as stated: on a `nil` receiver and on the block
without `hcl.Block` of `sampleAbsent`, `TypeLabel` and `NameLabel` do not
return; and on that block, which has an owning module, `HasModuleBlock` returns
true. -/
theorem Block.absent_accessors_counterexample :
    Block.TypeLabel sampleAbsent none = none ∧
    Block.NameLabel sampleAbsent none = none ∧
    Block.TypeLabel sampleAbsent (some 1) = none ∧
    Block.NameLabel sampleAbsent (some 1) = none ∧
    Block.HasModuleBlock sampleAbsent (some 1) = some true := by
  decide

/-! ## Loading -/

/-- C17 (amended): `loadBlocksFromFile` returns an error exactly when the
diagnostics have errors or the content is absent; otherwise it returns the
blocks of the content and no error. -/
theorem loadBlocksFromFile_spec (file : FileContent) :
    ((∃ e, loadBlocksFromFile file = .error e) ↔
      (file.diags = some true ∨ file.contents = none)) ∧
    (file.diags = some true → loadBlocksFromFile file = .error .diagnostics) ∧
    (file.diags ≠ some true → file.contents = none →
      loadBlocksFromFile file = .error .emptyContents) ∧
    (∀ c, file.diags ≠ some true → file.contents = some c →
      loadBlocksFromFile file = .ok c) := by
  unfold loadBlocksFromFile
  by_cases hd : file.diags = some true
  · simp [hd]
  · cases hc : file.contents with
    | none => simp [hd]
    | some c => simp [hd]

/-- Witness of C17: a file with a block and diagnostics without errors. -/
theorem loadBlocksFromFile_spec_witness :
    loadBlocksFromFile { contents := some sampleResource.nodes, diags := some false } =
      .ok sampleResource.nodes :=
  (loadBlocksFromFile_spec { contents := some sampleResource.nodes, diags := some false }).2.2.2
    sampleResource.nodes (by decide) rfl

/-- Counterexample to C17 as stated: the content of `sampleFile` is present,
with one block, and `loadBlocksFromFile` returns an error, because the
diagnostics have errors. -/
theorem loadBlocksFromFile_counterexample :
    sampleFile.contents.isSome = true ∧
    loadBlocksFromFile sampleFile = .error .diagnostics := by
  exact ⟨rfl, rfl⟩

/-! ## Lookup of children -/

theorem ofTypeLoop_eq (h : Heap) (t : String) :
    ∀ (bs acc l : List Nat), ofTypeLoop h t bs acc = some l → l = acc ++ subseqOfType h t bs := by
  intro bs
  induction bs with
  | nil =>
    intro acc l hl
    simp [ofTypeLoop, subseqOfType] at hl ⊢
    exact hl.symm
  | cons p rest ih =>
    intro acc l hl
    simp only [ofTypeLoop] at hl
    cases hty : Block.Type h p with
    | none => simp [hty] at hl
    | some ty =>
      simp only [hty] at hl
      have := ih _ l hl
      rw [this]
      by_cases he : ty = t
      · simp [subseqOfType, hty, he, List.filter_cons]
      · simp [subseqOfType, hty, he, List.filter_cons]

theorem ofTypeLoop_total (h : Heap) (t : String) :
    ∀ (bs acc : List Nat), (∀ p ∈ bs, (Block.Type h p).isSome = true) →
      ∃ l, ofTypeLoop h t bs acc = some l := by
  intro bs
  induction bs with
  | nil => intro acc _; exact ⟨acc, rfl⟩
  | cons p rest ih =>
    intro acc hv
    have hp := hv p (by simp)
    cases hty : Block.Type h p with
    | none => simp [hty] at hp
    | some ty =>
      simp only [ofTypeLoop, hty]
      exact ih _ (fun q hq => hv q (by simp [hq]))

theorem getBlockLoop_eq (h : Heap) (name : String) :
    ∀ (bs acc l : List Nat), ofTypeLoop h name bs acc = some l →
      getBlockLoop h name bs = some (subseqOfType h name bs).head? := by
  intro bs
  induction bs with
  | nil => intro acc l _; rfl
  | cons p rest ih =>
    intro acc l hl
    simp only [ofTypeLoop] at hl
    cases hty : Block.Type h p with
    | none => simp [hty] at hl
    | some ty =>
      simp only [hty] at hl
      by_cases he : ty = name
      · simp [getBlockLoop, subseqOfType, hty, he, List.filter_cons]
      · have := ih _ l hl
        simp [getBlockLoop, subseqOfType, hty, he, List.filter_cons] at this ⊢
        exact this

/-- C13: `OfType` returns exactly the sub-sequence of the blocks whose type is
`t`, in the original order, and it returns whenever every block of the list has
a type; for a block `b`, whenever `b.AllBlocks().OfType(n)` returns a list,
`GetBlock(n)` returns its first element, and `nil` when the list is empty. -/
theorem Blocks.ofType_getBlock (h : Heap) (t : String) :
    (∀ bs l, Blocks.OfType h bs t = some l → l = subseqOfType h t bs) ∧
    (∀ bs, (∀ p ∈ bs, (Block.Type h p).isSome = true) →
      Blocks.OfType h bs t = some (subseqOfType h t bs)) ∧
    (∀ bp b l, h.blocks[bp]? = some b →
      (Block.AllBlocks h (some bp)).bind (fun bs => Blocks.OfType h bs t) = some l →
      Block.GetBlock h (some bp) t = some l.head? ∧
      (l = [] → Block.GetBlock h (some bp) t = some none) ∧
      (∀ first rest, l = first :: rest → Block.GetBlock h (some bp) t = some (some first))) := by
  refine ⟨?_, ?_, ?_⟩
  · intro bs l hl
    simpa using ofTypeLoop_eq h t bs [] l hl
  · intro bs hv
    obtain ⟨l, hl⟩ := ofTypeLoop_total h t bs [] hv
    have := ofTypeLoop_eq h t bs [] l hl
    simp only [List.nil_append] at this
    rw [Blocks.OfType, hl, this]
  · intro bp b l hb hl
    have hg : Block.GetBlock h (some bp) t = some l.head? := by
      simp only [Block.AllBlocks, hb] at hl
      simp only [Block.GetBlock, hb]
      cases hn : b.hclBlock with
      | none =>
        simp only [hn, Option.some_bind, Blocks.OfType, ofTypeLoop, Option.some.injEq] at hl
        subst hl
        rfl
      | some np =>
        simp only [hn, Option.some_bind, Blocks.OfType] at hl
        have h1 := ofTypeLoop_eq h t b.childBlocks [] l hl
        simp only [List.nil_append] at h1
        rw [getBlockLoop_eq h t b.childBlocks [] l hl, h1]
    refine ⟨hg, ?_, ?_⟩
    · rintro rfl
      exact hg
    · rintro first rest rfl
      exact hg

/-- Witness of C13: the children of block 0 of `sampleTree`, of the types
"ebs_block_device" and "timeouts". -/
theorem Blocks.ofType_getBlock_witness :
    Blocks.OfType sampleTree [1, 2] "timeouts" = some (subseqOfType sampleTree "timeouts" [1, 2]) ∧
    Block.GetBlock sampleTree (some 0) "timeouts" = some (some 2) :=
  ⟨(Blocks.ofType_getBlock sampleTree "timeouts").2.1 [1, 2] (by decide),
    ((Blocks.ofType_getBlock sampleTree "timeouts").2.2 0 (Block.new 0 0 none [1, 2]) [2]
      (by decide) (by decide)).2.2 2 [] rfl⟩

/-! ## Colliding labels -/

theorem fmtD_goInt_ofNat (i : Nat) (hi : i < 2 ^ 53) :
    fmtD (goInt (BigFloat.ofInt (i : Int)).Float64) = Nat.repr i := by
  have hbl : bitLen i ≤ 53 := bitLenAux_le i i 53 hi
  have hof : BigFloat.ofInt (i : Int) = BigFloat.finite false i 0 := by
    simp [BigFloat.ofInt]
  rw [hof, float64_exact false i 0 hbl (by omega) (by omega)]
  have hg : goInt (BigFloat.finite false i 0) = (i : Int) := by
    apply goInt_eq_trunc
    · simp [BigFloat.trunc]
    · have : (i : Int) < 2 ^ 53 := by exact_mod_cast hi
      constructor
      · simp only [minInt64]; omega
      · omega
  rw [hg]
  rfl

theorem localName_of_node (h : Heap) (bp : Nat) (n : HclBlock) (hn : h.nodeOf bp = some n) :
    Block.LocalName h bp =
      some (join "." ((if n.type ≠ "resource" then [] ++ [n.type] else []) ++ n.labels)) := by
  simp only [Block.LocalName, Block.Reference, Block.Type, Block.Labels, hn, Option.map_some']
  rfl

theorem fullName_congr (h : Heap) (p q : Nat) (bp bq : Block) (hp : h.blocks[p]? = some bp)
    (hq : h.blocks[q]? = some bq) (hm : bp.moduleBlock = bq.moduleBlock)
    (hl : Block.LocalName h p = Block.LocalName h q) :
    ∀ fuel, Block.FullName fuel h p = Block.FullName fuel h q := by
  intro fuel
  cases fuel with
  | zero => rfl
  | succ f =>
    simp only [Block.FullName, hp, hq, hm, hl]

/-- C19: on a block with labels `init ++ [last]` whose clone counter is `c`, a
`Clone` call with an unknown or null index followed by a `Clone` call with the
number `c` gives two different blocks with the same labels, namely `init`
followed by `last[c]`, hence with the same local name and the same full name.
On a freshly built block `c` is 0: an unknown index first and the number 0
afterwards collide. -/
theorem Block.clone_collision (parse : String → Option BigFloat) (table : Char → Bool)
    (h : Heap) (bp : Nat) (b : Block) (np : Nat) (node : HclBlock) (i1 : Val)
    (init : List String) (last : String)
    (hb : h.blocks[bp]? = some b) (hnp : b.hclBlock = some np) (hnode : h.nodes[np]? = some node)
    (hctx : ∀ c, b.context = some c → c < h.ctxs.length) (hL : node.labels = init ++ [last])
    (hi : i1.IsKnown = false ∨ i1.IsNull = true) (hc : b.cloneIndex < 2 ^ 53) :
    ∃ h2 clone1 h3 clone2, Block.Clone parse table h bp i1 = some (h2, clone1) ∧
      Block.Clone parse table h2 bp (.number (BigFloat.ofInt (b.cloneIndex : Int))) =
        some (h3, clone2) ∧
      clone1 ≠ clone2 ∧
      Block.Labels h3 clone1 = some (init ++ [last ++ "[" ++ Nat.repr b.cloneIndex ++ "]"]) ∧
      Block.Labels h3 clone2 = some (init ++ [last ++ "[" ++ Nat.repr b.cloneIndex ++ "]"]) ∧
      (∃ name, Block.LocalName h3 clone1 = some name ∧ Block.LocalName h3 clone2 = some name) ∧
      ∀ fuel, Block.FullName fuel h3 clone1 = Block.FullName fuel h3 clone2 := by
  obtain ⟨h2, clone1, hc1, s1⟩ :=
    Block.clone_spec parse table h bp b np node i1 hb hnp hnode hctx
  obtain ⟨hn2, hctx2⟩ := s1.valid_after np hnode hctx
  obtain ⟨h3, clone2, hc2, s2⟩ := Block.clone_spec parse table h2 bp _ np node
    (.number (BigFloat.ofInt (b.cloneIndex : Int))) s1.origin hnp hn2 hctx2
  obtain ⟨-, hlt1, hne1⟩ := s1.context_clone
  obtain ⟨kids1, -, hcb1, -⟩ := s1.cloneBlock
  obtain ⟨kids2, -, hcb2, -⟩ := s2.cloneBlock
  -- the first clone and its node in the last heap
  have hb31 : h3.blocks[clone1]? = h2.blocks[clone1]? := s2.blocks_old clone1 hlt1 hne1
  have hnl : h.nodes.length < h2.nodes.length := (List.getElem?_eq_some.mp s1.cloneNode).1
  have hnode1 : h3.nodeOf clone1 =
      some (.mk node.type (init ++ [last ++ "[" ++ Nat.repr b.cloneIndex ++ "]"]) node.body) := by
    simp only [Heap.nodeOf, hb31, hcb1, Block.new]
    rw [s2.nodes_old _ hnl, s1.cloneNode, hL, cloneLabels_snoc,
      cloneLabel_fallback table last i1 _ hi]
  have hnode2 : h3.nodeOf clone2 =
      some (.mk node.type (init ++ [last ++ "[" ++ Nat.repr b.cloneIndex ++ "]"]) node.body) := by
    rw [s2.nodeOf_clone, hL, cloneLabels_snoc]
    simp only [cloneLabel, Val.IsKnown, Val.IsNull, Bool.not_false, Bool.and_self, if_true,
      fmtD_goInt_ofNat b.cloneIndex hc]
  have hl1 := localName_of_node h3 clone1 _ hnode1
  have hl2 := localName_of_node h3 clone2 _ hnode2
  refine ⟨h2, clone1, h3, clone2, hc1, hc2, ?_, ?_, ?_, ⟨_, hl1, hl2⟩, ?_⟩
  · have := s2.fresh
    omega
  · simp [Block.Labels, hnode1, HclBlock.labels]
  · simp [Block.Labels, hnode2, HclBlock.labels]
  · exact fullName_congr h3 clone1 clone2 _ _ (hb31.trans hcb1) hcb2 rfl (hl1.trans hl2.symm)

/-- Witness of C19: on `aws_instance.web`, freshly built, an unknown index
first and the number 0 afterwards. -/
theorem Block.clone_collision_witness :
    ∃ h2 clone1 h3 clone2, Block.Clone sampleParse sampleTable sampleResource 0
        (.unknown .number) = some (h2, clone1) ∧
      Block.Clone sampleParse sampleTable h2 0 (.number (BigFloat.ofInt 0)) = some (h3, clone2) ∧
      clone1 ≠ clone2 ∧
      Block.Labels h3 clone1 = some ["aws_instance", "web[0]"] ∧
      Block.Labels h3 clone2 = some ["aws_instance", "web[0]"] ∧
      (∃ name, Block.LocalName h3 clone1 = some name ∧ Block.LocalName h3 clone2 = some name) ∧
      ∀ fuel, Block.FullName fuel h3 clone1 = Block.FullName fuel h3 clone2 :=
  Block.clone_collision sampleParse sampleTable sampleResource 0 (Block.new 0 0 none []) 0
    sampleNode (.unknown .number) ["aws_instance"] "web" (by decide) (by decide) rfl
    sampleResource_ctx (by decide) (Or.inl rfl) (by decide)

/-! ## The tree built by construction -/

mutual
theorem holds_mono (h h2 : Heap) (c : Nat) (m : Option Nat)
    (hb : ∀ q : Nat, q < h.blocks.length → h2.blocks[q]? = h.blocks[q]?)
    (hn : ∀ q : Nat, q < h.nodes.length → h2.nodes[q]? = h.nodes[q]?) :
    (s : Shape) → (bp : Nat) → Holds h c m bp s → Holds h2 c m bp s
  | .node t ls kids, bp => by
    intro hh
    simp only [Holds] at hh ⊢
    obtain ⟨b, np, nd, h1, h2', h3, h4, h5, h6, h7, h8⟩ := hh
    have hlt : bp < h.blocks.length := (List.getElem?_eq_some.mp h1).1
    have hnl : np < h.nodes.length := (List.getElem?_eq_some.mp h3).1
    exact ⟨b, np, nd, by rw [hb bp hlt]; exact h1, h2', by rw [hn np hnl]; exact h3, h4, h5, h6,
      h7, holdsAll_mono h h2 c m hb hn kids b.childBlocks h8⟩
theorem holdsAll_mono (h h2 : Heap) (c : Nat) (m : Option Nat)
    (hb : ∀ q : Nat, q < h.blocks.length → h2.blocks[q]? = h.blocks[q]?)
    (hn : ∀ q : Nat, q < h.nodes.length → h2.nodes[q]? = h.nodes[q]?) :
    (ss : List Shape) → (ps : List Nat) → HoldsAll h c m ps ss → HoldsAll h2 c m ps ss
  | [], ps => by
    intro hh
    cases ps with
    | nil => simp [HoldsAll]
    | cons p rest => simp [HoldsAll] at hh
  | s :: ss, ps => by
    intro hh
    cases ps with
    | nil => simp [HoldsAll] at hh
    | cons p rest =>
      simp only [HoldsAll] at hh ⊢
      exact ⟨holds_mono h h2 c m hb hn s p hh.1, holdsAll_mono h h2 c m hb hn ss rest hh.2⟩
end

theorem holds_grows {h h2 : Heap} {c c2 : Nat} {m m2 : Option Nat} (g : Grows c2 m2 h h2)
    (s : Shape) (bp : Nat) (hh : Holds h c m bp s) : Holds h2 c m bp s :=
  holds_mono h h2 c m g.block_old g.node_old s bp hh

theorem holdsAll_grows {h h2 : Heap} {c c2 : Nat} {m m2 : Option Nat} (g : Grows c2 m2 h h2)
    (ss : List Shape) (ps : List Nat) (hh : HoldsAll h c m ps ss) : HoldsAll h2 c m ps ss :=
  holdsAll_mono h h2 c m g.block_old g.node_old ss ps hh

theorem holds_alloc (h1 : Heap) (np c : Nat) (m : Option Nat) (t : String) (ls : List String)
    (body : Body) (kids : List Nat) (ss : List Shape)
    (hnode : h1.nodes[np]? = some (.mk t ls body))
    (hk : HoldsAll h1 c m kids ss) :
    Holds (h1.allocBlock (Block.new np c m kids)).1 c m
      (h1.allocBlock (Block.new np c m kids)).2 (.node t ls ss) := by
  simp only [Holds]
  refine ⟨Block.new np c m kids, np, .mk t ls body, ?_, rfl, ?_, rfl, rfl, rfl, rfl, ?_⟩
  · simp [Heap.allocBlock]
  · simpa [Heap.allocBlock] using hnode
  · exact holdsAll_mono h1 (h1.allocBlock (Block.new np c m kids)).1 c m
      (fun q hq => by simp [Heap.allocBlock, List.getElem?_append_left hq])
      (fun q _ => rfl) ss kids hk

mutual
theorem newBlock_holds : (body : Body) → ∀ (np c : Nat) (m : Option Nat) (h : Heap)
    (t : String) (ls : List String), h.nodes[np]? = some (.mk t ls body) →
    Holds (newBlock body np (some c) m h).1 c m (newBlock body np (some c) m h).2
      (.node t ls (kidShapes body))
  | .syntaxBody attrs blocks => by
    intro np c m h t ls hnode
    have hk := newChildren_holds blocks c m h
    have g := (newChildren_grows blocks c m h).1
    have hlt : np < h.nodes.length := (List.getElem?_eq_some.mp hnode).1
    have hnode2 : (newChildren blocks c m h).1.nodes[np]? =
        some (.mk t ls (.syntaxBody attrs blocks)) := by
      rw [g.node_old np hlt]; exact hnode
    simpa [newBlock, kidShapes] using
      holds_alloc _ np c m t ls _ _ _ hnode2 hk
  | .schemaBody diag attrs blocks => by
    intro np c m h t ls hnode
    by_cases hd : diag = some true
    · have := holds_alloc h np c m t ls _ [] [] hnode (by simp [HoldsAll])
      simpa [newBlock, kidShapes, hd] using this
    · have hk := newChildren_holds blocks c m h
      have g := (newChildren_grows blocks c m h).1
      have hlt : np < h.nodes.length := (List.getElem?_eq_some.mp hnode).1
      have hnode2 : (newChildren blocks c m h).1.nodes[np]? =
          some (.mk t ls (.schemaBody diag attrs blocks)) := by
        rw [g.node_old np hlt]; exact hnode
      simpa [newBlock, kidShapes, hd] using
        holds_alloc _ np c m t ls _ _ _ hnode2 hk
theorem newChildren_holds : (ns : List HclBlock) → ∀ (c : Nat) (m : Option Nat) (h : Heap),
    HoldsAll (newChildren ns c m h).1 c m (newChildren ns c m h).2 (shapesOf ns)
  | [] => by
    intro c m h
    simp [newChildren, shapesOf, HoldsAll]
  | (.mk t ls body) :: ns => by
    intro c m h
    have hb := newBlock_holds body (h.allocNode (.mk t ls body)).2 c m
      (h.allocNode (.mk t ls body)).1 t ls (by simp [Heap.allocNode])
    have hr := newChildren_holds ns c m
      (newBlock body (h.allocNode (.mk t ls body)).2 (some c) m (h.allocNode (.mk t ls body)).1).1
    have g := (newChildren_grows ns c m
      (newBlock body (h.allocNode (.mk t ls body)).2 (some c) m
        (h.allocNode (.mk t ls body)).1).1).1
    simp only [newChildren, shapesOf, shapeOf, HoldsAll]
    exact ⟨holds_grows g _ _ hb, hr⟩
end

theorem newBlock_nil_ctx (body : Body) (np : Nat) (m : Option Nat) (h : Heap) :
    newBlock body np none m h = newBlock body np (some h.ctxs.length) m (NewContext h none).1 := by
  cases body <;> rfl

theorem holdsAll_length (h : Heap) (c : Nat) (m : Option Nat) :
    ∀ (ss : List Shape) (ps : List Nat), HoldsAll h c m ps ss → ps.length = ss.length := by
  intro ss
  induction ss with
  | nil =>
    intro ps hh
    cases ps with
    | nil => rfl
    | cons p rest => simp [HoldsAll] at hh
  | cons s ss ih =>
    intro ps hh
    cases ps with
    | nil => simp [HoldsAll] at hh
    | cons p rest =>
      simp only [HoldsAll] at hh
      simp [ih rest hh.2]

theorem holdsAll_mem (h : Heap) (c : Nat) (m : Option Nat) :
    ∀ (ss : List Shape) (ps : List Nat), HoldsAll h c m ps ss →
      ∀ q ∈ ps, ∃ s, Holds h c m q s := by
  intro ss
  induction ss with
  | nil =>
    intro ps hh q hq
    cases ps with
    | nil => simp at hq
    | cons p rest => simp [HoldsAll] at hh
  | cons s ss ih =>
    intro ps hh q hq
    cases ps with
    | nil => simp at hq
    | cons p rest =>
      simp only [HoldsAll] at hh
      rcases List.mem_cons.mp hq with rfl | hq
      · exact ⟨s, hh.1⟩
      · exact ih rest hh.2 q hq

theorem holds_reach (h : Heap) (c : Nat) (m : Option Nat) (p : Nat) (s : Shape)
    (hh : Holds h c m p s) (q : Nat) (hr : Reach h p q) : ∃ s2, Holds h c m q s2 := by
  induction hr with
  | root => exact ⟨s, hh⟩
  | child q k b _ hb hk ih =>
    obtain ⟨s2, h2⟩ := ih
    cases s2 with
    | node t ls kids =>
      simp only [Holds] at h2
      obtain ⟨b2, np, nd, h1, -, -, -, -, -, -, h8⟩ := h2
      rw [hb] at h1
      cases h1
      exact holdsAll_mem h c m kids b.childBlocks h8 k hk

mutual
theorem shapeOf_full : (n : HclBlock) → allSyntax n → shapeOf n = fullShape n
  | .mk t ls body => by
    intro ha
    simp only [allSyntax] at ha
    simp only [shapeOf, fullShape, kidShapes_full body ha]
theorem kidShapes_full : (body : Body) → allSyntaxBody body → kidShapes body = fullKids body
  | .syntaxBody _ blocks => by
    intro ha
    simp only [allSyntaxBody] at ha
    simp only [kidShapes, fullKids, shapesOf_full blocks ha]
  | .schemaBody _ _ _ => by
    intro ha
    simp [allSyntaxBody] at ha
theorem shapesOf_full : (ns : List HclBlock) → allSyntaxList ns → shapesOf ns = fullShapes ns
  | [] => fun _ => by simp [shapesOf, fullShapes]
  | n :: ns => by
    intro ha
    simp only [allSyntaxList] at ha
    simp only [shapesOf, fullShapes, shapeOf_full n ha.1, shapesOf_full ns ha.2]
end

theorem shapesOf_append (xs ys : List HclBlock) :
    shapesOf (xs ++ ys) = shapesOf xs ++ shapesOf ys := by
  induction xs with
  | nil => simp [shapesOf]
  | cons x rest ih => simp [shapesOf, ih]

theorem shapesOf_length (ns : List HclBlock) : (shapesOf ns).length = ns.length := by
  induction ns with
  | nil => simp [shapesOf]
  | cons n rest ih => simp [shapesOf, ih]

theorem fullShapes_length (ns : List HclBlock) : (fullShapes ns).length = ns.length := by
  induction ns with
  | nil => simp [fullShapes]
  | cons n rest ih => simp [fullShapes, ih]

/-- C20: `NewHCLBlock` returns a tree in which every block, at every depth, has
the Context of the root, which is `ctx` when `ctx` is given and otherwise one
newly allocated context without parent, and has the owning module `m`; the
tree has the shape `shapeOf node`; a root whose body exposes its nested nodes
directly has exactly one child per nested node, in order, and when the node is
a syntax node throughout, so has every block of the tree. -/
theorem NewHCLBlock_tree (h : Heap) (np : Nat) (node : HclBlock) (ctx m : Option Nat)
    (hnode : h.nodes[np]? = some node) :
    ∃ r c, NewHCLBlock h np ctx m = some r ∧
      (∀ c0, ctx = some c0 → c = c0 ∧ r.1.ctxs = h.ctxs) ∧
      (ctx = none → c = h.ctxs.length ∧
        r.1.ctxs = h.ctxs ++ [{ parent := none, vars := [] }]) ∧
      Block.Context r.1 r.2 = some (some c) ∧
      Holds r.1 c m r.2 (shapeOf node) ∧
      (∀ q, Reach r.1 r.2 q →
        ∃ b, r.1.blocks[q]? = some b ∧ b.context = some c ∧ b.moduleBlock = m) ∧
      (∀ t ls attrs blocks, node = .mk t ls (.syntaxBody attrs blocks) →
        ∃ b, r.1.blocks[r.2]? = some b ∧ b.childBlocks.length = blocks.length ∧
          HoldsAll r.1 c m b.childBlocks (shapesOf blocks)) ∧
      (allSyntax node → Holds r.1 c m r.2 (fullShape node)) := by
  obtain ⟨t, ls, body⟩ := node
  -- the context of the tree and the heap in which the tree is built
  have key : ∀ (c : Nat) (h0 : Heap), h0.nodes = h.nodes →
      newBlock body np ctx m h = newBlock body np (some c) m h0 →
      NewHCLBlock h np ctx m = some (newBlock body np (some c) m h0) ∧
      (newBlock body np (some c) m h0).1.ctxs = h0.ctxs ∧
      Block.Context (newBlock body np (some c) m h0).1 (newBlock body np (some c) m h0).2 =
        some (some c) ∧
      Holds (newBlock body np (some c) m h0).1 c m (newBlock body np (some c) m h0).2
        (shapeOf (.mk t ls body)) := by
    intro c h0 hn0 he
    have hnode0 : h0.nodes[np]? = some (.mk t ls body) := by rw [hn0]; exact hnode
    have hh := newBlock_holds body np c m h0 t ls hnode0
    obtain ⟨g, -, -, kids, hcb, -⟩ := newBlock_builtAt body np c m h0
    refine ⟨?_, g.ctxs, ?_, ?_⟩
    · simp only [NewHCLBlock, hnode, HclBlock.body, he]
    · simp [Block.Context, hcb, Block.new]
    · simpa [shapeOf] using hh
  have rest : ∀ (c : Nat) (r : Heap × Nat), Holds r.1 c m r.2 (shapeOf (.mk t ls body)) →
      (∀ q, Reach r.1 r.2 q →
        ∃ b, r.1.blocks[q]? = some b ∧ b.context = some c ∧ b.moduleBlock = m) ∧
      (∀ t2 ls2 attrs blocks, HclBlock.mk t ls body = .mk t2 ls2 (.syntaxBody attrs blocks) →
        ∃ b, r.1.blocks[r.2]? = some b ∧ b.childBlocks.length = blocks.length ∧
          HoldsAll r.1 c m b.childBlocks (shapesOf blocks)) ∧
      (allSyntax (.mk t ls body) → Holds r.1 c m r.2 (fullShape (.mk t ls body))) := by
    intro c r hh
    refine ⟨?_, ?_, ?_⟩
    · intro q hq
      obtain ⟨s2, h2⟩ := holds_reach r.1 c m r.2 _ hh q hq
      cases s2 with
      | node t2 ls2 kids =>
        simp only [Holds] at h2
        obtain ⟨b, -, -, h1, -, -, -, -, h6, h7, -⟩ := h2
        exact ⟨b, h1, h6, h7⟩
    · intro t2 ls2 attrs blocks he
      cases he
      simp only [shapeOf, kidShapes, Holds] at hh
      obtain ⟨b, -, -, h1, -, -, -, -, -, -, h8⟩ := hh
      refine ⟨b, h1, ?_, h8⟩
      rw [holdsAll_length r.1 c m _ _ h8, shapesOf_length]
    · intro ha
      rw [← shapeOf_full _ ha]
      exact hh
  cases ctx with
  | some c0 =>
    obtain ⟨k1, k2, k3, k4⟩ := key c0 h rfl rfl
    obtain ⟨r1, r2, r3⟩ := rest c0 _ k4
    refine ⟨_, c0, k1, ?_, ?_, k3, k4, r1, r2, r3⟩
    · intro c1 hc1
      cases hc1
      exact ⟨rfl, k2⟩
    · intro hc
      cases hc
  | none =>
    obtain ⟨k1, k2, k3, k4⟩ := key h.ctxs.length (NewContext h none).1 rfl
      (newBlock_nil_ctx body np m h)
    obtain ⟨r1, r2, r3⟩ := rest h.ctxs.length _ k4
    refine ⟨_, h.ctxs.length, k1, ?_, ?_, k3, k4, r1, r2, r3⟩
    · intro c1 hc1
      cases hc1
    · intro _
      exact ⟨rfl, k2⟩

/-- Witness of C20: the tree built for the node of `aws_instance.web` with its
nested block, without Context given. -/
theorem NewHCLBlock_tree_witness :
    ∃ r c, NewHCLBlock sampleResource 0 none none = some r ∧
      c = sampleResource.ctxs.length ∧
      Block.Context r.1 r.2 = some (some c) ∧
      Holds r.1 c none r.2 (fullShape sampleNode) ∧
      ∃ b, r.1.blocks[r.2]? = some b ∧ b.childBlocks.length = 1 := by
  obtain ⟨r, c, hr, -, hnil, hctx, -, -, hkids, hfull⟩ :=
    NewHCLBlock_tree sampleResource 0 sampleNode none none rfl
  obtain ⟨b, hb, hlen, -⟩ := hkids _ _ _ _ rfl
  exact ⟨r, c, hr, (hnil rfl).1, hctx,
    hfull (by simp [sampleNode, allSyntax, allSyntaxBody, allSyntaxList]), b, hb, hlen⟩

/-! ## Diagnostics of the schema-based extraction -/

/-- On a content that is present, `newSchemaBlock` is the schema branch of
`newBlock`. -/
theorem newSchemaBlock_some (blocks : List HclBlock) (diag : Option Bool)
    (attrs : Option (List HclAttr)) (np : Nat) (ctx m : Option Nat) (h : Heap) :
    newSchemaBlock (some blocks) diag np ctx m h =
      some (newBlock (.schemaBody diag attrs blocks) np ctx m h) := by
  cases ctx <;> by_cases hd : diag = some true <;> simp [newSchemaBlock, newBlock, hd]

/-- C16 (amended): for a node whose body is seen through the schema and whose
extraction reports diagnostics that have errors, `NewHCLBlock` returns a block
with the node, the Context (the given one, or a new root context) and the
owning module, without children, and allocates nothing else; this holds
whatever the extracted content is, a `nil` content included.  Without errors
in the diagnostics the content is used: a `nil` content makes the call fail,
and a content that is present gives one child per block of the content, as
`newBlock` builds it for a node of the heap.  In a list of nested nodes a node whose extraction reports errors is built without
children while the nodes before and after it are built with the shapes they
have without it. -/
theorem NewHCLBlock_diagnostics (h : Heap) (np : Nat) (t : String) (ls : List String)
    (attrs : Option (List HclAttr)) (blocks : List HclBlock) (ctx m : Option Nat)
    (hnode : h.nodes[np]? = some (.mk t ls (.schemaBody (some true) attrs blocks))) :
    ∃ r c, NewHCLBlock h np ctx m = some r ∧
      (∀ c0, ctx = some c0 → c = c0 ∧ r.1.ctxs = h.ctxs) ∧
      (ctx = none → c = h.ctxs.length ∧
        r.1.ctxs = h.ctxs ++ [{ parent := none, vars := [] }]) ∧
      r.1.blocks = h.blocks ++ [Block.new np c m []] ∧ r.2 = h.blocks.length ∧
      r.1.nodes = h.nodes ∧
      (∀ content, newSchemaBlock content (some true) np ctx m h = some r) ∧
      (∀ diag, diag ≠ some true → newSchemaBlock none diag np ctx m h = none) ∧
      (∀ diag bs, diag ≠ some true →
        ∃ r2 b, newSchemaBlock (some bs) diag np ctx m h = some r2 ∧
          r2.1.blocks[r2.2]? = some b ∧ b.hclBlock = some np ∧ b.context = some c ∧
          b.moduleBlock = m ∧ b.childBlocks.length = bs.length ∧
          HoldsAll r2.1 c m b.childBlocks (shapesOf bs)) ∧
      (∀ diag bs, newSchemaBlock (some bs) diag np ctx m h =
        some (newBlock (.schemaBody diag attrs bs) np ctx m h)) ∧
      (∀ (pre post : List HclBlock) (c1 : Nat) (m1 : Option Nat) (h1 : Heap),
        HoldsAll (newChildren (pre ++ .mk t ls (.schemaBody (some true) attrs blocks) :: post)
            c1 m1 h1).1 c1 m1
          (newChildren (pre ++ .mk t ls (.schemaBody (some true) attrs blocks) :: post)
            c1 m1 h1).2
          (shapesOf pre ++ .node t ls [] :: shapesOf post) ∧
        HoldsAll (newChildren (pre ++ post) c1 m1 h1).1 c1 m1
          (newChildren (pre ++ post) c1 m1 h1).2 (shapesOf pre ++ shapesOf post)) := by
  -- the block built in a given context
  have key : ∀ (c : Nat) (h0 : Heap),
      (∀ content, newSchemaBlock content (some true) np (some c) m h0 =
        some (h0.allocBlock (Block.new np c m []))) ∧
      (∀ diag, diag ≠ some true → newSchemaBlock none diag np (some c) m h0 = none) ∧
      (∀ diag bs, diag ≠ some true →
        ∃ r2 b, newSchemaBlock (some bs) diag np (some c) m h0 = some r2 ∧
          r2.1.blocks[r2.2]? = some b ∧ b.hclBlock = some np ∧ b.context = some c ∧
          b.moduleBlock = m ∧ b.childBlocks.length = bs.length ∧
          HoldsAll r2.1 c m b.childBlocks (shapesOf bs)) := by
    intro c h0
    refine ⟨?_, ?_, ?_⟩
    · intro content
      simp [newSchemaBlock]
    · intro diag hd
      simp [newSchemaBlock, hd]
    · intro diag bs hd
      have hk := newChildren_holds bs c m h0
      have hr : newSchemaBlock (some bs) diag np (some c) m h0 =
          some ((newChildren bs c m h0).1.allocBlock
            (Block.new np c m (newChildren bs c m h0).2)) := by
        simp [newSchemaBlock, hd]
      refine ⟨_, Block.new np c m (newChildren bs c m h0).2, hr, ?_, rfl, rfl, rfl, ?_, ?_⟩
      · simp [Heap.allocBlock]
      · show (newChildren bs c m h0).2.length = bs.length
        rw [holdsAll_length _ c m _ _ hk, shapesOf_length]
      · exact holdsAll_mono (newChildren bs c m h0).1
          ((newChildren bs c m h0).1.allocBlock (Block.new np c m (newChildren bs c m h0).2)).1
          c m (fun q hq => by simp [Heap.allocBlock, List.getElem?_append_left hq])
          (fun q _ => rfl) _ _ hk
  have sib : ∀ (pre post : List HclBlock) (c1 : Nat) (m1 : Option Nat) (h1 : Heap),
      HoldsAll (newChildren (pre ++ .mk t ls (.schemaBody (some true) attrs blocks) :: post)
          c1 m1 h1).1 c1 m1
        (newChildren (pre ++ .mk t ls (.schemaBody (some true) attrs blocks) :: post)
          c1 m1 h1).2
        (shapesOf pre ++ .node t ls [] :: shapesOf post) ∧
      HoldsAll (newChildren (pre ++ post) c1 m1 h1).1 c1 m1
        (newChildren (pre ++ post) c1 m1 h1).2 (shapesOf pre ++ shapesOf post) := by
    intro pre post c1 m1 h1
    have a := newChildren_holds
      (pre ++ .mk t ls (.schemaBody (some true) attrs blocks) :: post) c1 m1 h1
    have b := newChildren_holds (pre ++ post) c1 m1 h1
    rw [shapesOf_append] at a b
    simp only [shapesOf, shapeOf, kidShapes, if_true] at a
    exact ⟨a, b⟩
  cases ctx with
  | some c0 =>
    obtain ⟨k1, k2, k3⟩ := key c0 h
    refine ⟨h.allocBlock (Block.new np c0 m []), c0, ?_, ?_, ?_, rfl, rfl, rfl, k1, k2, k3,
      fun diag bs => newSchemaBlock_some bs diag attrs np (some c0) m h, sib⟩
    · simp [NewHCLBlock, hnode, HclBlock.body, newBlock]
    · intro c1 hc1
      cases hc1
      exact ⟨rfl, rfl⟩
    · intro hc
      cases hc
  | none =>
    obtain ⟨k1, k2, k3⟩ := key h.ctxs.length (NewContext h none).1
    refine ⟨(NewContext h none).1.allocBlock (Block.new np h.ctxs.length m []), h.ctxs.length,
      ?_, ?_, ?_, rfl, rfl, rfl, ?_, ?_, ?_,
      fun diag bs => newSchemaBlock_some bs diag attrs np none m h, sib⟩
    · simp [NewHCLBlock, hnode, HclBlock.body, newBlock, NewContext]
    · intro c1 hc1
      cases hc1
    · intro _
      exact ⟨rfl, rfl⟩
    · intro content
      exact k1 content
    · intro diag hd
      exact k2 diag hd
    · intro diag bs hd
      exact k3 diag bs hd

/-- Witness of C16: the node of `aws_s3_bucket.logs` whose extraction reports
errors is built, in the given context, as one block without children, also
when the extracted content is `nil`. -/
theorem NewHCLBlock_diagnostics_witness :
    ∃ r, NewHCLBlock sampleSchema 0 (some 0) none = some r ∧
      r.1.blocks = [Block.new 0 0 none []] ∧ r.2 = 0 ∧
      newSchemaBlock none (some true) 0 (some 0) none sampleSchema = some r ∧
      newSchemaBlock none (some false) 0 (some 0) none sampleSchema = none := by
  obtain ⟨r, c, hr, hc, -, h1, h2, -, hany, hnil, -, -, -⟩ :=
    NewHCLBlock_diagnostics sampleSchema 0 "resource" ["aws_s3_bucket", "logs"] none
      [.mk "versioning" [] (.syntaxBody [] [])] (some 0) none rfl
  obtain ⟨rfl, -⟩ := hc 0 rfl
  exact ⟨r, hr, h1, h2, hany none, hnil (some false) (by decide)⟩

/-- Counterexample to C16 as stated: the extraction of `sampleWarnNode` reports
diagnostics, none of which is an error, and the block built for it has one
child. -/
theorem NewHCLBlock_diagnostics_counterexample :
    sampleSchema.nodes[1]? = some sampleWarnNode ∧
      (NewHCLBlock sampleSchema 1 (some 0) none).bind
        (fun r => (r.1.blocks[r.2]?).map (fun b => b.childBlocks.length)) = some 1 := by
  exact ⟨rfl, by decide⟩

/-! ## Injection -/

theorem string_append_cancel (p a b : String) (h : p ++ a = p ++ b) : a = b := by
  have hd := congrArg String.data h
  simp only [String.data_append] at hd
  exact String.ext (List.append_cancel_left hd)

theorem lookup_of_mem_nodup {β : Type} (k : String) (v : β) (rest : List (String × β)) :
    ∀ (l : List (String × β)), (l.map Prod.fst).Nodup → (k, v) ∈ l →
      (l ++ rest).lookup k = some v := by
  intro l
  induction l with
  | nil => intro _ hm; simp at hm
  | cons x l ih =>
    intro hn hm
    obtain ⟨k1, v1⟩ := x
    simp only [List.map_cons, List.nodup_cons] at hn
    by_cases hk : k = k1
    · subst hk
      rcases List.mem_cons.mp hm with he | hm2
      · cases he
        simp [List.lookup]
      · exact absurd (List.mem_map_of_mem Prod.fst hm2) hn.1
    · rcases List.mem_cons.mp hm with he | hm2
      · cases he
        exact absurd rfl hk
      · have hbeq : (k == k1) = false := by simpa using hk
        simp only [List.cons_append, List.lookup, hbeq]
        exact ih hn.2 hm2

theorem lookup_append_of_not_mem {β : Type} (k : String) (rest : List (String × β)) :
    ∀ (l : List (String × β)), k ∉ l.map Prod.fst → (l ++ rest).lookup k = rest.lookup k := by
  intro l
  induction l with
  | nil => intro _; rfl
  | cons x l ih =>
    intro hn
    obtain ⟨k1, v1⟩ := x
    simp only [List.map_cons, List.mem_cons, not_or] at hn
    have hbeq : (k == k1) = false := by simpa using hn.1
    simp only [List.cons_append, List.lookup, hbeq]
    exact ih hn.2

theorem mapInsert_keys_mem {α : Type} (k : String) (v : α) :
    ∀ (m : List (String × α)), k ∈ m.map Prod.fst →
      (mapInsert m k v).map Prod.fst = m.map Prod.fst := by
  intro m
  induction m with
  | nil => intro hm; simp at hm
  | cons x m ih =>
    intro hm
    obtain ⟨k1, v1⟩ := x
    by_cases hk : k1 = k
    · simp [mapInsert, hk]
    · simp only [List.map_cons, List.mem_cons] at hm
      rcases hm with he | hm2
      · exact absurd he.symm hk
      · simp [mapInsert, hk, ih hm2]

theorem mapInsert_not_mem {α : Type} (k : String) (v : α) :
    ∀ (m : List (String × α)), k ∉ m.map Prod.fst → mapInsert m k v = m ++ [(k, v)] := by
  intro m
  induction m with
  | nil => intro _; rfl
  | cons x m ih =>
    intro hm
    obtain ⟨k1, v1⟩ := x
    simp only [List.map_cons, List.mem_cons, not_or] at hm
    have hk : ¬ k1 = k := fun e => hm.1 e.symm
    simp [mapInsert, hk, ih hm.2]

theorem mapInsert_mem {α : Type} (k : String) (v : α) (p : String × α) :
    ∀ (m : List (String × α)), p ∈ mapInsert m k v → p ∈ m ∨ p = (k, v) := by
  intro m
  induction m with
  | nil => intro hp; simpa [mapInsert] using hp
  | cons x m ih =>
    intro hp
    obtain ⟨k1, v1⟩ := x
    by_cases hk : k1 = k
    · simp only [mapInsert, hk, if_true, List.mem_cons] at hp
      rcases hp with he | hm
      · exact Or.inr he
      · exact Or.inl (List.mem_cons_of_mem _ hm)
    · simp only [mapInsert, hk, if_false, List.mem_cons] at hp
      rcases hp with he | hm
      · exact Or.inl (he ▸ List.mem_cons_self _ _)
      · rcases ih hm with h1 | h1
        · exact Or.inl (List.mem_cons_of_mem _ h1)
        · exact Or.inr h1

theorem mapInsert_nodup {α : Type} (k : String) (v : α) (m : List (String × α))
    (hn : (m.map Prod.fst).Nodup) : ((mapInsert m k v).map Prod.fst).Nodup := by
  by_cases hk : k ∈ m.map Prod.fst
  · rw [mapInsert_keys_mem k v m hk]; exact hn
  · rw [mapInsert_not_mem k v m hk]
    simp only [List.map_append, List.map_cons, List.map_nil]
    exact List.Nodup.append hn (List.nodup_singleton k)
      (by
        intro x hx hx2
        simp only [List.mem_singleton] at hx2
        exact hk (hx2 ▸ hx))

/-- The map built by repeated assignment under the key `f a` has one entry per
key, and the key of every entry is `f` of its value. -/
theorem foldl_mapInsert_inv {α : Type} (f : α → String) (l : List α) :
    ∀ (m : List (String × α)), (m.map Prod.fst).Nodup → (∀ p ∈ m, f p.2 = p.1) →
      ((l.foldl (fun m a => mapInsert m (f a) a) m).map Prod.fst).Nodup ∧
        ∀ p ∈ l.foldl (fun m a => mapInsert m (f a) a) m, f p.2 = p.1 := by
  induction l with
  | nil => intro m hn hk; exact ⟨hn, hk⟩
  | cons a l ih =>
    intro m hn hk
    simp only [List.foldl_cons]
    apply ih
    · exact mapInsert_nodup (f a) a m hn
    · intro p hp
      rcases mapInsert_mem (f a) a p m hp with h1 | h1
      · exact hk p h1
      · subst h1; rfl

/-- When the keys `f a` of a list are distinct, repeated assignment keeps the
order of the list. -/
theorem foldl_mapInsert_of_nodup {α : Type} (f : α → String) (l : List α) :
    ∀ (m : List (String × α)), ((m.map Prod.fst) ++ l.map f).Nodup →
      l.foldl (fun m a => mapInsert m (f a) a) m = m ++ l.map (fun a => (f a, a)) := by
  induction l with
  | nil => intro m _; simp
  | cons a l ih =>
    intro m hn
    have hna : f a ∉ m.map Prod.fst := by
      intro hm
      have := (List.nodup_append.mp hn).2.2
      exact this hm (by simp)
    simp only [List.foldl_cons]
    rw [mapInsert_not_mem (f a) a m hna, ih]
    · simp
    · simpa [List.map_append] using hn

theorem getHCLAttributes_inv (node : HclBlock) :
    ((getHCLAttributes node).map Prod.fst).Nodup ∧
      ∀ p ∈ getHCLAttributes node, p.2.name = p.1 := by
  have base : (([] : List (String × HclAttr)).map Prod.fst).Nodup ∧
      ∀ p ∈ ([] : List (String × HclAttr)), p.2.name = p.1 := by simp
  obtain ⟨t, ls, body⟩ := node
  cases body with
  | syntaxBody attrs blocks =>
    simpa [getHCLAttributes, HclBlock.body] using
      foldl_mapInsert_inv HclAttr.name attrs [] base.1 base.2
  | schemaBody diag attrs blocks =>
    simp only [getHCLAttributes, HclBlock.body]
    split
    · exact base
    · cases attrs with
      | none => exact base
      | some xs => exact foldl_mapInsert_inv HclAttr.name xs [] base.1 base.2

theorem getHCLAttributes_body (t t2 : String) (ls ls2 : List String) (body : Body) :
    getHCLAttributes (.mk t ls body) = getHCLAttributes (.mk t2 ls2 body) := rfl

theorem Context.root_parents (h h2 : Heap)
    (hp : ∀ q : Nat, (h2.ctxs[q]?).map Context.parent = (h.ctxs[q]?).map Context.parent) :
    ∀ (fuel c : Nat), Context.Root fuel h2 c = Context.Root fuel h c := by
  intro fuel
  induction fuel with
  | zero => intro c; rfl
  | succ f ih =>
    intro c
    have hc := hp c
    simp only [Context.Root]
    cases h1 : h.ctxs[c]? with
    | none =>
      cases h2c : h2.ctxs[c]? with
      | none => rfl
      | some cx2 => simp [h1, h2c] at hc
    | some cx =>
      cases h2c : h2.ctxs[c]? with
      | none => simp [h1, h2c] at hc
      | some cx2 =>
        simp only [h1, h2c, Option.map_some', Option.some.injEq] at hc
        simp only [hc]
        cases cx.parent with
        | none => rfl
        | some p => exact ih p

theorem set_vars_parents (h : Heap) (root : Nat) (cx : Context) (vars : List (String × Val))
    (hc : h.ctxs[root]? = some cx) (q : Nat) :
    ((h.ctxs.set root { cx with vars := vars })[q]?).map Context.parent =
      (h.ctxs[q]?).map Context.parent := by
  rw [List.getElem?_set]
  split
  · rename_i hq
    subst hq
    have hlt : root < h.ctxs.length := (List.getElem?_eq_some.mp hc).1
    simp [hlt, hc]
  · rfl

theorem set_getElem?_self {α : Type} (l : List α) (i : Nat) (x : α) (h : l[i]? = some x) :
    l.set i x = l := by
  have hlt : i < l.length := (List.getElem?_eq_some.mp h).1
  apply List.ext_getElem?
  intro j
  rw [List.getElem?_set]
  split
  · rename_i hij
    subst hij
    simp [hlt, h]
  · rfl

/-- The loop of `InjectBlock`: every iteration adds one binding in front of the
bindings of the root context, at the path of the attribute, and the value is
the value of the attribute in the heap reached by the iterations before it. -/
theorem injectLoop_binds (value : Heap → Attribute → Val) (fuel bp : Nat) (name ln : String)
    (c root : Nat) (b : Block) (attrs : List (String × Attribute)) :
    ∀ (h3 : Heap) (cx : Context), h3.blocks[bp]? = some b → b.context = some c →
      Context.Root fuel h3 c = some root → Block.LocalName h3 bp = some ln →
      h3.ctxs[root]? = some cx →
      ∃ binds : List (String × Val),
        attrs.foldlM (fun (acc : Heap) (a : String × Attribute) => do
          let b ← acc.blocks[bp]?
          let c ← b.context
          let root ← Context.Root fuel acc c
          let ref ← Block.LocalName acc bp
          Context.SetByDot acc root (value acc a.2) (ref ++ "." ++ name ++ "." ++ a.1)) h3 =
          some { h3 with ctxs := h3.ctxs.set root { cx with vars := binds.reverse ++ cx.vars } } ∧
        binds.map Prod.fst = attrs.map (fun a => ln ++ "." ++ name ++ "." ++ a.1) ∧
        ∀ i a, attrs[i]? = some a → (binds[i]?).map Prod.snd =
          some (value
            { h3 with ctxs := h3.ctxs.set root ⟨cx.parent, (binds.take i).reverse ++ cx.vars⟩ }
            a.2) := by
  induction attrs with
  | nil =>
    intro h3 cx _ _ _ _ hcx
    refine ⟨[], ?_, rfl, ?_⟩
    · simp [set_getElem?_self h3.ctxs root cx hcx]
    · intro i a hi
      simp at hi
  | cons a rest ih =>
    intro h3 cx hb hc hroot hln hcx
    have hlt : root < h3.ctxs.length := (List.getElem?_eq_some.mp hcx).1
    have hself := set_getElem?_self h3.ctxs root cx hcx
    obtain ⟨p, hp⟩ : ∃ p : String, p = ln ++ "." ++ name ++ "." ++ a.1 := ⟨_, rfl⟩
    obtain ⟨v, hv⟩ : ∃ v : Val, v = value h3 a.2 := ⟨_, rfl⟩
    obtain ⟨hn, hhn⟩ : ∃ hn : Heap,
        hn = { h3 with ctxs := h3.ctxs.set root { cx with vars := (p, v) :: cx.vars } } :=
      ⟨_, rfl⟩
    have hstep : Context.SetByDot h3 root v p = some hn := by
      simp [Context.SetByDot, hcx, hhn]
    have hroot2 : Context.Root fuel hn c = some root := by
      rw [Context.root_parents h3 hn
        (by rw [hhn]; exact set_vars_parents h3 root cx _ hcx) fuel c]
      exact hroot
    have hcx2 : hn.ctxs[root]? = some { cx with vars := (p, v) :: cx.vars } := by
      simp [hhn, List.getElem?_set, hlt]
    have hb2 : hn.blocks[bp]? = some b := by rw [hhn]; exact hb
    have hln2 : Block.LocalName hn bp = some ln := by rw [hhn]; exact hln
    obtain ⟨binds, hfold, hkeys, hvals⟩ := ih hn { cx with vars := (p, v) :: cx.vars } hb2 hc
      hroot2 hln2 hcx2
    refine ⟨(p, v) :: binds, ?_, ?_, ?_⟩
    · simp only [List.foldlM_cons, Option.bind_eq_bind, hb, hc, hroot, hln, Option.some_bind]
      rw [← hp, ← hv, hstep]
      simp only [Option.some_bind]
      simp only [Option.bind_eq_bind] at hfold
      rw [hfold, hhn]
      simp [List.set_set]
    · simp [hkeys, hp]
    · intro i x hi
      cases i with
      | zero =>
        simp only [List.getElem?_cons_zero, Option.some.injEq] at hi
        subst hi
        simp [hself, hv]
      | succ j =>
        simp only [List.getElem?_cons_succ] at hi
        have := hvals j x hi
        simp only [List.getElem?_cons_succ, this]
        simp [hhn, List.set_set]

theorem Context.root_some (h : Heap) :
    ∀ (fuel c root : Nat), Context.Root fuel h c = some root →
      ∃ cx, h.ctxs[root]? = some cx ∧ cx.parent = none := by
  intro fuel
  induction fuel with
  | zero => intro c root hr; simp [Context.Root] at hr
  | succ f ih =>
    intro c root hr
    simp only [Context.Root] at hr
    cases hc : h.ctxs[c]? with
    | none => simp [hc] at hr
    | some cx =>
      simp only [hc] at hr
      cases hp : cx.parent with
      | none =>
        simp only [hp, Option.some.injEq] at hr
        subst hr
        exact ⟨cx, hc, hp⟩
      | some p =>
        simp only [hp] at hr
        exact ih p root hr

/-- The heap after `InjectBlock`, when the receiver and the synthetic block
have a `hcl.Block` and the Context of the receiver has a root within `fuel`
steps: the call returns; the node of the synthetic block has the new type, no
label and the same body; the synthetic block has its attributes cached; the
receiver has the synthetic block as a new last child; the root context has one
new binding per attribute of the synthetic block, in front of its bindings. -/
theorem Block.injectBlock_result (value : Heap → Attribute → Val) (fuel : Nat) (h0 : Heap)
    (bp sp bnp snp c root : Nat) (name : String) (b sb : Block) (bnode snode : HclBlock)
    (hb : h0.blocks[bp]? = some b) (hbn : b.hclBlock = some bnp)
    (hbnode : h0.nodes[bnp]? = some bnode) (hc : b.context = some c)
    (hroot : Context.Root fuel h0 c = some root)
    (hs : h0.blocks[sp]? = some sb) (hsn : sb.hclBlock = some snp)
    (hsnode : h0.nodes[snp]? = some snode) :
    ∃ (h2 : Heap) (binds : List (String × Val)) (ln : String) (b3 : Block) (cx : Hcl.Context),
      Block.InjectBlock value fuel h0 bp sp name = some h2 ∧
      h2.nodes = h0.nodes.set snp (.mk name [] snode.body) ∧
      (h0.blocks.set sp { sb with cachedAttributes := attributesOf snode sb.context })[bp]? = some b3 ∧
      b3.hclBlock = some bnp ∧ b3.context = some c ∧ b3.childBlocks = b.childBlocks ∧
      b3.moduleBlock = b.moduleBlock ∧
      h2.blocks = (h0.blocks.set sp { sb with cachedAttributes := attributesOf snode sb.context }).set bp
          { b3 with childBlocks := b.childBlocks ++ [sp] } ∧
      h0.ctxs[root]? = some cx ∧ cx.parent = none ∧
      h2.ctxs = h0.ctxs.set root { cx with vars := binds.reverse ++ cx.vars } ∧
      Block.LocalName h2 bp = some ln ∧
      binds.map Prod.fst =
        (getHCLAttributes snode).map (fun p => ln ++ "." ++ name ++ "." ++ p.1) ∧
      ∀ i p, (getHCLAttributes snode)[i]? = some p → (binds[i]?).map Prod.snd =
        some (value
          ⟨h0.ctxs.set root ⟨cx.parent, (binds.take i).reverse ++ cx.vars⟩, h2.nodes,
            h0.blocks.set sp { sb with cachedAttributes := attributesOf snode sb.context }⟩
          ⟨p.2, sb.context⟩) := by
  obtain ⟨cx, hcx, hcxp⟩ := Context.root_some h0 fuel c root hroot
  have hsplt : sp < h0.blocks.length := (List.getElem?_eq_some.mp hs).1
  have hbplt : bp < h0.blocks.length := (List.getElem?_eq_some.mp hb).1
  have hsnlt : snp < h0.nodes.length := (List.getElem?_eq_some.mp hsnode).1
  obtain ⟨G, hG⟩ : ∃ G, G = getHCLAttributes snode := ⟨_, rfl⟩
  obtain ⟨A, hA⟩ : ∃ A : List Attribute, A = G.map (fun p => ⟨p.2, sb.context⟩) := ⟨_, rfl⟩
  obtain ⟨N, hN⟩ : ∃ N, N = h0.nodes.set snp (.mk name [] snode.body) := ⟨_, rfl⟩
  obtain ⟨B, hB⟩ : ∃ B, B = h0.blocks.set sp { sb with cachedAttributes := A } := ⟨_, rfl⟩
  have hAB : h0.blocks.set sp { sb with cachedAttributes := attributesOf snode sb.context } = B := by
    rw [hB, hA, hG]; rfl
  -- the two assignments to the node
  have e1 : h0.setLabels snp [] =
      some { h0 with nodes := h0.nodes.set snp (.mk snode.type [] snode.body) } := by
    simp [Heap.setLabels, hsnode]
  have e2 : Heap.setType { h0 with nodes := h0.nodes.set snp (.mk snode.type [] snode.body) }
      snp name = some { h0 with nodes := N } := by
    simp [Heap.setType, List.getElem?_set, hsnlt, HclBlock.labels, HclBlock.body, List.set_set, hN]
  -- the attributes of the synthetic block
  have hGinv := getHCLAttributes_inv snode
  rw [← hG] at hGinv
  have hnames : A.map Attribute.Name = G.map Prod.fst := by
    rw [hA, List.map_map]
    apply List.map_congr_left
    intro p hp
    exact hGinv.2 p hp
  have hmap : A.foldl (fun m a => mapInsert m a.Name a) [] = A.map (fun a => (a.Name, a)) := by
    have := foldl_mapInsert_of_nodup Attribute.Name A []
      (by simpa [hnames] using hGinv.1)
    simpa using this
  have hNs : N[snp]? = some (.mk name [] snode.body) := by
    simp [hN, List.getElem?_set, hsnlt]
  have e3 : Block.Attributes { h0 with nodes := N } (some sp) =
      some ({ h0 with nodes := N, blocks := B }, A.map (fun a => (a.Name, a))) := by
    have hg : getHCLAttributes (.mk name [] snode.body) = G := by
      rw [hG]
      obtain ⟨t, ls, body⟩ := snode
      rfl
    simp only [Block.Attributes, Block.GetAttributes, hs, hsn, hNs, hg, ← hA, hmap, hB]
  -- the receiver after the attributes have been read
  obtain ⟨b3, hb3, h3n, h3c, h3k, h3m⟩ : ∃ b3, B[bp]? = some b3 ∧ b3.hclBlock = some bnp ∧
      b3.context = some c ∧ b3.childBlocks = b.childBlocks ∧
      b3.moduleBlock = b.moduleBlock := by
    by_cases he : sp = bp
    · subst he
      have hsb : sb = b := by
        rw [hs] at hb
        exact Option.some.inj hb
      subst hsb
      exact ⟨{ sb with cachedAttributes := A }, by simp [hB, List.getElem?_set, hsplt],
        hbn, hc, rfl, rfl⟩
    · exact ⟨b, by simp [hB, List.getElem?_set, he, hb], hbn, hc, rfl, rfl⟩
  have hbnlt : bnp < h0.nodes.length := (List.getElem?_eq_some.mp hbnode).1
  obtain ⟨bn3, hbn3⟩ : ∃ n, N[bnp]? = some n := by
    have : bnp < N.length := by rw [hN]; simpa using hbnlt
    exact ⟨N[bnp], List.getElem?_eq_getElem this⟩
  obtain ⟨ln, hln⟩ : ∃ ln, Block.LocalName { h0 with nodes := N, blocks := B } bp = some ln :=
    ⟨_, localName_of_node _ bp bn3 (nodeOf_of _ bp b3 bnp bn3 hb3 h3n hbn3)⟩
  have hroot3 : Context.Root fuel { h0 with nodes := N, blocks := B } c = some root := by
    exact (Context.root_parents h0 ⟨h0.ctxs, N, B⟩ (fun _ => rfl) fuel c).trans hroot
  obtain ⟨binds, hfold, hkeys, hvals⟩ := injectLoop_binds value fuel bp name ln c root b3
    (A.map (fun a => (a.Name, a))) { h0 with nodes := N, blocks := B } cx hb3 h3c hroot3 hln hcx
  have hBlt : bp < B.length := (List.getElem?_eq_some.mp hb3).1
  refine ⟨⟨h0.ctxs.set root { cx with vars := binds.reverse ++ cx.vars }, N,
    B.set bp { b3 with childBlocks := b.childBlocks ++ [sp] }⟩, binds, ln, b3, cx, ?_, hN ▸ rfl,
    ?_, h3n, h3c, h3k, h3m, ?_, hcx, hcxp, rfl, ?_, ?_, ?_⟩
  · simp only [Block.InjectBlock, Option.bind_eq_bind, hs, hsn, Option.some_bind, e1, e2, e3]
    simp only [Option.bind_eq_bind] at hfold
    rw [hfold]
    simp [Heap.modifyBlock, hb3, h3k]
  · rw [hAB]; exact hb3
  · rw [hAB]
  · have ha := localName_of_node ⟨h0.ctxs, N, B⟩ bp bn3
      (nodeOf_of _ bp b3 bnp bn3 hb3 h3n hbn3)
    rw [← hln, ha]
    exact localName_of_node _ bp bn3
      (nodeOf_of _ bp { b3 with childBlocks := b.childBlocks ++ [sp] } bnp bn3
        (by simp [List.getElem?_set, hBlt]) h3n hbn3)
  · rw [hkeys, ← hG, hA]
    simp only [List.map_map]
    apply List.map_congr_left
    intro p hp
    simp [Attribute.Name, hGinv.2 p hp]
  · intro i p hi
    rw [← hG] at hi
    have hi2 : (A.map (fun a => (a.Name, a)))[i]? = some ((⟨p.2, sb.context⟩ : Attribute).Name,
        ⟨p.2, sb.context⟩) := by
      simp [hA, List.getElem?_map, hi]
    have := hvals i _ hi2
    rw [this, hAB]

theorem nodeOf_eq (h : Heap) (k : Nat) :
    h.nodeOf k = ((h.blocks[k]?).bind Block.hclBlock).bind (fun n => h.nodes[n]?) := by
  unfold Heap.nodeOf
  cases h.blocks[k]? with
  | none => rfl
  | some b =>
    cases hb : b.hclBlock with
    | none => simp [hb]
    | some n => simp [hb]

theorem set_set_proj {α : Type} (f : Block → α) (B0 : List Block) (sp bp : Nat)
    (sb sb2 b3 b4 : Block) (hs : B0[sp]? = some sb) (h1 : f sb2 = f sb)
    (hb3 : (B0.set sp sb2)[bp]? = some b3) (h2 : f b4 = f b3) (k : Nat) :
    (((B0.set sp sb2).set bp b4)[k]?).map f = (B0[k]?).map f := by
  have hsplt : sp < B0.length := (List.getElem?_eq_some.mp hs).1
  have inner : ∀ j : Nat, ((B0.set sp sb2)[j]?).map f = (B0[j]?).map f := by
    intro j
    rw [List.getElem?_set]
    split
    · rename_i hj
      subst hj
      simp [hsplt, hs, h1]
    · rfl
  rw [List.getElem?_set]
  split
  · rename_i hk
    subst hk
    have hlt : bp < (B0.set sp sb2).length := (List.getElem?_eq_some.mp hb3).1
    rw [← inner bp, hb3]
    have hlt2 : bp < B0.length := by simpa using hlt
    simp [hlt2, h2]
  · exact inner k

theorem find?_of_nodup {α : Type} (f : α → String) (x : α) :
    ∀ (l : List α), (l.map f).Nodup → x ∈ l →
      l.find? (fun a => decide (f a = f x)) = some x := by
  intro l
  induction l with
  | nil => intro _ hx; simp at hx
  | cons y l ih =>
    intro hn hx
    simp only [List.map_cons, List.nodup_cons] at hn
    rcases List.mem_cons.mp hx with he | hm
    · subst he
      simp [List.find?]
    · have hne : f y ≠ f x := by
        intro e
        exact hn.1 (e ▸ List.mem_map_of_mem f hm)
      simp only [List.find?, hne, decide_False]
      exact ih hn.2 hm

theorem attributesOf_names (node : HclBlock) (ctx : Option Nat) :
    (attributesOf node ctx).map Attribute.Name = (getHCLAttributes node).map Prod.fst := by
  unfold attributesOf
  rw [List.map_map]
  apply List.map_congr_left
  intro p hp
  exact (getHCLAttributes_inv node).2 p hp

theorem getBlockLoop_snoc (h : Heap) (name : String) (sp : Nat)
    (hsp : Block.Type h sp = some name) :
    ∀ (kids : List Nat), (∀ k ∈ kids, ∃ ty, Block.Type h k = some ty ∧ ty ≠ name) →
      getBlockLoop h name (kids ++ [sp]) = some (some sp) := by
  intro kids
  induction kids with
  | nil => intro _; simp [getBlockLoop, hsp]
  | cons k rest ih =>
    intro hk
    obtain ⟨ty, hty, hne⟩ := hk k (List.mem_cons_self _ _)
    simp only [List.cons_append, getBlockLoop, hty, hne, if_false]
    exact ih (fun q hq => hk q (List.mem_cons_of_mem _ hq))

/-- The attributes read from a block that has a node: the result of
`GetAttribute` is the first attribute of `attributesOf` with the name. -/
theorem getAttribute_of_node (h : Heap) (p np : Nat) (b : Block) (node : HclBlock)
    (hb : h.blocks[p]? = some b) (hn : b.hclBlock = some np) (hnode : h.nodes[np]? = some node)
    (x : String) :
    (Block.GetAttribute h (some p) x).map Prod.snd =
      some ((attributesOf node b.context).find? (fun a => decide (a.Name = x))) := by
  simp [Block.GetAttribute, Block.GetAttributes, hb, hn, hnode, attributesOf]

/-- C11 (amended): when the receiver `b` and the synthetic block `s` have a `hcl.Block`
and the Context of `b` has a root, `InjectBlock(s, n)` returns, and after it
`s` has type `n` and no labels, and the child sequence of `b` is its previous
child sequence followed by `s`; when, in addition, no previous child of `b` has
the type `n` or shares the `hcl.Block` of `s`, `GetBlock(n)` on `b` returns `s`;
and `GetAttribute(x)` on `s` returns after the call what it returns before it,
which for every entry of the attribute map of the node of `s` is the attribute
of that entry in the Context of `s`. -/
theorem Block.injectBlock_getBlock (value : Heap → Attribute → Val) (fuel : Nat) (h0 : Heap)
    (bp sp bnp snp c root : Nat) (name : String) (b sb : Block) (bnode snode : HclBlock)
    (hb : h0.blocks[bp]? = some b) (hbn : b.hclBlock = some bnp)
    (hbnode : h0.nodes[bnp]? = some bnode) (hc : b.context = some c)
    (hroot : Context.Root fuel h0 c = some root)
    (hs : h0.blocks[sp]? = some sb) (hsn : sb.hclBlock = some snp)
    (hsnode : h0.nodes[snp]? = some snode) :
    ∃ h2, Block.InjectBlock value fuel h0 bp sp name = some h2 ∧
      Block.Type h2 sp = some name ∧ Block.Labels h2 sp = some [] ∧
      Block.AllBlocks h0 (some bp) = some b.childBlocks ∧
      Block.AllBlocks h2 (some bp) = some (b.childBlocks ++ [sp]) ∧
      ((∀ k ∈ b.childBlocks, ∃ ty, Block.Type h0 k = some ty ∧ ty ≠ name ∧
          (h0.blocks[k]?).bind Block.hclBlock ≠ some snp) →
        Block.GetBlock h2 (some bp) name = some (some sp)) ∧
      (∀ x, (Block.GetAttribute h2 (some sp) x).map Prod.snd =
        (Block.GetAttribute h0 (some sp) x).map Prod.snd) ∧
      (∀ p ∈ getHCLAttributes snode, (Block.GetAttribute h2 (some sp) p.1).map Prod.snd =
        some (some { hclAttr := p.2, ctx := sb.context })) := by
  obtain ⟨h2, binds, ln, b3, cx, hinj, hnodes, hb3, h3n, h3c, h3k, h3m, hblocks, -⟩ :=
    Block.injectBlock_result value fuel h0 bp sp bnp snp c root name b sb bnode snode hb hbn
      hbnode hc hroot hs hsn hsnode
  have hsnlt : snp < h0.nodes.length := (List.getElem?_eq_some.mp hsnode).1
  have hb3lt := (List.getElem?_eq_some.mp hb3).1
  -- every block keeps its node and its context
  have hproj : ∀ k : Nat, (h2.blocks[k]?).map (fun x => (x.hclBlock, x.context)) =
      (h0.blocks[k]?).map (fun x => (x.hclBlock, x.context)) := by
    intro k
    rw [hblocks]
    exact set_set_proj (fun x => (x.hclBlock, x.context)) h0.blocks sp bp sb
      { sb with cachedAttributes := attributesOf snode sb.context } b3
      { b3 with childBlocks := b.childBlocks ++ [sp] } hs rfl hb3 rfl k
  have hnew : h2.nodes[snp]? = some (.mk name [] snode.body) := by
    rw [hnodes]
    simp [List.getElem?_set, hsnlt]
  obtain ⟨sb2, hsb2, hsb2n, hsb2c⟩ : ∃ sb2, h2.blocks[sp]? = some sb2 ∧
      sb2.hclBlock = some snp ∧ sb2.context = sb.context := by
    have := hproj sp
    rw [hs] at this
    cases h2s : h2.blocks[sp]? with
    | none => simp [h2s] at this
    | some sb2 =>
      simp only [h2s, Option.map_some', Option.some.injEq, Prod.mk.injEq] at this
      exact ⟨sb2, rfl, this.1.trans hsn, this.2⟩
  have hnodeS : h2.nodeOf sp = some (.mk name [] snode.body) := nodeOf_of h2 sp sb2 snp _ hsb2 hsb2n hnew
  have hb2 : h2.blocks[bp]? = some { b3 with childBlocks := b.childBlocks ++ [sp] } := by
    have hbplt : bp < h0.blocks.length := (List.getElem?_eq_some.mp hb).1
    rw [hblocks]
    simp [List.getElem?_set, hbplt]
  have htype : Block.Type h2 sp = some name := by simp [Block.Type, hnodeS, HclBlock.type]
  have hattr : ∀ x, (Block.GetAttribute h2 (some sp) x).map Prod.snd =
      some ((attributesOf snode sb.context).find? (fun a => decide (a.Name = x))) := by
    intro x
    rw [getAttribute_of_node h2 sp snp sb2 _ hsb2 hsb2n hnew x, hsb2c]
    obtain ⟨t, ls, body⟩ := snode
    rfl
  refine ⟨h2, hinj, htype, ?_, ?_, ?_, ?_, ?_, ?_⟩
  · simp [Block.Labels, hnodeS, HclBlock.labels]
  · simp [Block.AllBlocks, hb, hbn]
  · simp [Block.AllBlocks, hb2, h3n]
  · intro hkids
    simp only [Block.GetBlock, hb2, h3n]
    apply getBlockLoop_snoc h2 name sp htype
    intro k hk
    obtain ⟨ty, hty, hne, hnp⟩ := hkids k hk
    refine ⟨ty, ?_, hne⟩
    rw [← hty]
    simp only [Block.Type, nodeOf_eq]
    have hpk := congrArg (Option.map Prod.fst) (hproj k)
    simp only [Option.map_map] at hpk
    have hpk2 : (h2.blocks[k]?).bind Block.hclBlock = (h0.blocks[k]?).bind Block.hclBlock := by
      cases e2 : h2.blocks[k]? <;> cases e0 : h0.blocks[k]? <;> simp [e2, e0] at hpk ⊢
      exact hpk
    rw [hpk2]
    cases e : (h0.blocks[k]?).bind Block.hclBlock with
    | none => rfl
    | some knp =>
      have hneq : snp ≠ knp := fun e2 => hnp (by rw [e, e2])
      simp [hnodes, List.getElem?_set, hneq]
  · intro x
    rw [hattr x, getAttribute_of_node h0 sp snp sb snode hs hsn hsnode x]
  · intro p hp
    rw [hattr p.1]
    have hmem : ({ hclAttr := p.2, ctx := sb.context } : Attribute) ∈
        attributesOf snode sb.context := by
      unfold attributesOf
      exact List.mem_map.mpr ⟨p, hp, rfl⟩
    have hnd : ((attributesOf snode sb.context).map Attribute.Name).Nodup := by
      rw [attributesOf_names]
      exact (getHCLAttributes_inv snode).1
    have hname : Attribute.Name { hclAttr := p.2, ctx := sb.context } = p.1 :=
      (getHCLAttributes_inv snode).2 p hp
    have := find?_of_nodup Attribute.Name _ _ hnd hmem
    rw [hname] at this
    rw [this]

/-- Witness of C11: the block `timeouts` is injected into `aws_instance.web`,
which has a child `ebs_block_device`; afterwards `GetBlock` finds it under the
new name and its attribute `create` is the one of the injected block. -/
theorem Block.injectBlock_getBlock_witness :
    ∃ h2, Block.InjectBlock sampleValue 2 sampleInjectKid 0 1 "timeouts" = some h2 ∧
      Block.Type h2 1 = some "timeouts" ∧ Block.Labels h2 1 = some [] ∧
      Block.AllBlocks h2 (some 0) = some [2, 1] ∧
      Block.GetBlock h2 (some 0) "timeouts" = some (some 1) ∧
      (Block.GetAttribute h2 (some 1) "create").map Prod.snd =
        some (some { hclAttr := { name := "create", expr := "30m" }, ctx := some 0 }) := by
  obtain ⟨h2, hinj, hty, hls, -, hall, hget, -, hattr⟩ :=
    Block.injectBlock_getBlock sampleValue 2 sampleInjectKid 0 1 0 1 0 0 "timeouts"
      (Block.new 0 0 none [2]) (Block.new 1 0 none []) sampleNode
      (.mk "timeouts" ["x"] (.syntaxBody [{ name := "create", expr := "30m" }] []))
      rfl rfl rfl rfl rfl rfl rfl rfl
  refine ⟨h2, hinj, hty, hls, hall, hget ?_, hattr ("create", { name := "create", expr := "30m" })
    (by decide)⟩
  intro k hk
  have hk2 : k = 2 := by simpa [Block.new] using hk
  subst hk2
  exact ⟨"ebs_block_device", by decide, by decide, by decide⟩

/-- Counterexample to C11 as stated: `aws_instance.web` already has a child of
type `timeouts`; after another block is injected under the name "timeouts",
`GetBlock("timeouts")` still returns the earlier child (address 2), not the
injected block (address 1), and the attribute `create` read through it is the
one of the earlier child. -/
theorem Block.injectBlock_getBlock_counterexample :
    (Block.InjectBlock sampleValue 2 sampleInjectDup 0 1 "timeouts").bind
        (fun h2 => Block.GetBlock h2 (some 0) "timeouts") = some (some 2) ∧
      (Block.InjectBlock sampleValue 2 sampleInjectDup 0 1 "timeouts").bind
        (fun h2 => (Block.GetAttribute h2 (some 2) "create").map Prod.snd) =
        some (some { hclAttr := { name := "create", expr := "10m" }, ctx := some 0 }) ∧
      (Block.InjectBlock sampleValue 2 sampleInjectDup 0 1 "timeouts").bind
        (fun h2 => (Block.GetAttribute h2 (some 1) "create").map Prod.snd) =
        some (some { hclAttr := { name := "create", expr := "30m" }, ctx := some 0 }) := by
  decide

/-- C12 (amended): when the receiver `b` and the synthetic block `s` have a `hcl.Block`
and the Context of `b` has the root `root`, `InjectBlock(s, n)` returns, and
it binds in the root context, for every entry of the attribute map of the node
of `s`, the value of the attribute at the path
`LocalName(b) ++ "." ++ n ++ "." ++ name`, where the value is taken in the heap
reached by the bindings before it; the root context gets exactly these
bindings in front of its own, so no path of another form changes its binding;
every other context is unchanged, and so the Context of `b` itself when it is
not the root. -/
theorem Block.injectBlock_binds (value : Heap → Attribute → Val) (fuel : Nat) (h0 : Heap)
    (bp sp bnp snp c root : Nat) (name : String) (b sb : Block) (bnode snode : HclBlock)
    (hb : h0.blocks[bp]? = some b) (hbn : b.hclBlock = some bnp)
    (hbnode : h0.nodes[bnp]? = some bnode) (hc : b.context = some c)
    (hroot : Context.Root fuel h0 c = some root)
    (hs : h0.blocks[sp]? = some sb) (hsn : sb.hclBlock = some snp)
    (hsnode : h0.nodes[snp]? = some snode) :
    ∃ (h2 : Heap) (ln : String) (cx : Hcl.Context) (binds : List (String × Val)),
      Block.InjectBlock value fuel h0 bp sp name = some h2 ∧
      Block.LocalName h2 bp = some ln ∧
      (bnp ≠ snp → Block.LocalName h0 bp = some ln) ∧
      h0.ctxs[root]? = some cx ∧ cx.parent = none ∧
      h2.ctxs[root]? = some { cx with vars := binds.reverse ++ cx.vars } ∧
      binds.map Prod.fst =
        (getHCLAttributes snode).map (fun p => ln ++ "." ++ name ++ "." ++ p.1) ∧
      (∀ i p, (getHCLAttributes snode)[i]? = some p →
        Context.bound h2 root (ln ++ "." ++ name ++ "." ++ p.1) =
          some (value
            ⟨h0.ctxs.set root ⟨cx.parent, (binds.take i).reverse ++ cx.vars⟩, h2.nodes,
              h0.blocks.set sp { sb with cachedAttributes := attributesOf snode sb.context }⟩
            ⟨p.2, sb.context⟩)) ∧
      (∀ path, (∀ p ∈ getHCLAttributes snode, path ≠ ln ++ "." ++ name ++ "." ++ p.1) →
        Context.bound h2 root path = Context.bound h0 root path) ∧
      (∀ q : Nat, q ≠ root → h2.ctxs[q]? = h0.ctxs[q]?) ∧
      (c ≠ root → ∀ path, Context.bound h2 c path = Context.bound h0 c path) := by
  obtain ⟨h2, binds, ln, b3, cx, hinj, hnodes, hb3, h3n, h3c, h3k, h3m, hblocks, hcx, hcxp,
    hctxs, hln, hkeys, hvals⟩ :=
    Block.injectBlock_result value fuel h0 bp sp bnp snp c root name b sb bnode snode hb hbn
      hbnode hc hroot hs hsn hsnode
  have hrlt : root < h0.ctxs.length := (List.getElem?_eq_some.mp hcx).1
  have hroot2 : h2.ctxs[root]? = some { cx with vars := binds.reverse ++ cx.vars } := by
    rw [hctxs]
    simp [List.getElem?_set, hrlt]
  have hother : ∀ q : Nat, q ≠ root → h2.ctxs[q]? = h0.ctxs[q]? := by
    intro q hq
    have : root ≠ q := fun e => hq e.symm
    rw [hctxs]
    simp [List.getElem?_set, this]
  have hinj2 : Function.Injective (fun k : String => ln ++ "." ++ name ++ "." ++ k) :=
    fun k1 k2 e => string_append_cancel _ k1 k2 e
  have hnd : (binds.reverse.map Prod.fst).Nodup := by
    rw [List.map_reverse, List.nodup_reverse, hkeys]
    have := List.Nodup.map hinj2 (getHCLAttributes_inv snode).1
    simpa [List.map_map] using this
  refine ⟨h2, ln, cx, binds, hinj, hln, ?_, hcx, hcxp, hroot2, hkeys, ?_, ?_, hother, ?_⟩
  · intro hne
    rw [← hln]
    have hbnlt : bnp < h0.nodes.length := (List.getElem?_eq_some.mp hbnode).1
    have hbplt : bp < h0.blocks.length := (List.getElem?_eq_some.mp hb).1
    have hn2 : h2.nodes[bnp]? = some bnode := by
      have : snp ≠ bnp := fun e => hne e.symm
      rw [hnodes]
      simp [List.getElem?_set, this, hbnode]
    have hb2 : h2.blocks[bp]? = some { b3 with childBlocks := b.childBlocks ++ [sp] } := by
      rw [hblocks]
      simp [List.getElem?_set, hbplt]
    rw [localName_of_node h0 bp bnode (nodeOf_of h0 bp b bnp bnode hb hbn hbnode),
      localName_of_node h2 bp bnode (nodeOf_of h2 bp _ bnp bnode hb2 h3n hn2)]
  · intro i p hi
    have hv := hvals i p hi
    have hk : (binds[i]?).map Prod.fst = some (ln ++ "." ++ name ++ "." ++ p.1) := by
      have := congrArg (fun l => l[i]?) hkeys
      simpa [List.getElem?_map, hi] using this
    cases hbi : binds[i]? with
    | none => simp [hbi] at hk
    | some kv =>
      simp only [hbi, Option.map_some', Option.some.injEq] at hk hv
      have hmem : (ln ++ "." ++ name ++ "." ++ p.1, kv.2) ∈ binds.reverse := by
        rw [List.mem_reverse, ← hk]
        exact List.getElem?_mem hbi
      simp only [Context.bound, hroot2]
      rw [lookup_of_mem_nodup _ kv.2 cx.vars binds.reverse hnd hmem, hv]
  · intro path hpath
    simp only [Context.bound, hroot2, hcx]
    apply lookup_append_of_not_mem
    rw [List.map_reverse, List.mem_reverse, hkeys]
    intro hm
    obtain ⟨p, hp, he⟩ := List.mem_map.mp hm
    exact hpath p hp he.symm
  · intro hne path
    simp only [Context.bound, hother c hne]

/-- Witness of C12: the attribute `create` of the injected block is bound in
the root context, which is the Context of `aws_instance.web`, at the path
"aws_instance.web.timeouts.create". -/
theorem Block.injectBlock_binds_witness :
    ∃ h2, Block.InjectBlock sampleValue 2 sampleInject 0 1 "timeouts" = some h2 ∧
      Block.LocalName h2 0 = some "aws_instance.web" ∧
      Context.bound h2 0 "aws_instance.web.timeouts.create" = some (.string "30m") ∧
      Context.bound h2 0 "aws_instance.web.timeouts.delete" = none := by
  obtain ⟨h2, ln, cx, binds, hinj, hln, hln0, -, -, -, -, hval, hnot, -, -⟩ :=
    Block.injectBlock_binds sampleValue 2 sampleInject 0 1 0 1 0 0 "timeouts"
      (Block.new 0 0 none []) (Block.new 1 0 none []) sampleNode
      (.mk "timeouts" ["x"] (.syntaxBody [{ name := "create", expr := "30m" }] []))
      rfl rfl rfl rfl rfl rfl rfl rfl
  have hl : ln = "aws_instance.web" := by
    have h1 := hln0 (by decide)
    have h2 : Block.LocalName sampleInject 0 = some "aws_instance.web" := by decide
    rw [h1] at h2
    exact Option.some.inj h2
  subst hl
  refine ⟨h2, hinj, hln, ?_, ?_⟩
  · have := hval 0 ("create", { name := "create", expr := "30m" }) rfl
    simpa [sampleValue] using this
  · have := hnot "aws_instance.web.timeouts.delete" (by
      intro p hp
      have hp2 : p = ("create", { name := "create", expr := "30m" }) := by
        have hg : getHCLAttributes
            (.mk "timeouts" ["x"] (.syntaxBody [{ name := "create", expr := "30m" }] [])) =
            [("create", { name := "create", expr := "30m" })] := by decide
        rw [hg] at hp
        simpa using hp
      subst hp2
      decide)
    rw [this]
    decide

/-- Counterexample to C12 as stated: the Context of `aws_instance.web` (address
1) is a child of the root context (address 0).  After the injection the path
"aws_instance.web.timeouts.create" is not bound in the Context of the block;
it is bound in the root context, and the other child of the root (address 2)
resolves it too. -/
theorem Block.injectBlock_binds_counterexample :
    Block.Context sampleInjectChild 0 = some (some 1) ∧
      (Block.InjectBlock sampleValue 2 sampleInjectChild 0 1 "timeouts").map
        (fun h2 => Context.bound h2 1 "aws_instance.web.timeouts.create") = some none ∧
      (Block.InjectBlock sampleValue 2 sampleInjectChild 0 1 "timeouts").map
        (fun h2 => Context.bound h2 0 "aws_instance.web.timeouts.create") =
        some (some (.string "30m")) ∧
      (Block.InjectBlock sampleValue 2 sampleInjectChild 0 1 "timeouts").map
        (fun h2 => Context.resolve 2 h2 2 "aws_instance.web.timeouts.create") =
        some (some (.string "30m")) := by
  decide

/-! ## The attribute cache -/

theorem dropCache_ctxs {h g : Heap} (heq : h.dropCache = g.dropCache) : h.ctxs = g.ctxs := by
  have := congrArg Heap.ctxs heq
  exact this

theorem dropCache_nodes {h g : Heap} (heq : h.dropCache = g.dropCache) : h.nodes = g.nodes := by
  have := congrArg Heap.nodes heq
  exact this

theorem dropCache_blocks {h g : Heap} (heq : h.dropCache = g.dropCache) :
    h.blocks.map Block.dropCache = g.blocks.map Block.dropCache := by
  have := congrArg Heap.blocks heq
  exact this

theorem dropCache_mk (c1 c2 : List Context) (n1 n2 : List HclBlock) (b1 b2 : List Block)
    (hc : c1 = c2) (hn : n1 = n2) (hb : b1.map Block.dropCache = b2.map Block.dropCache) :
    (Heap.mk c1 n1 b1).dropCache = (Heap.mk c2 n2 b2).dropCache := by
  simp only [Heap.dropCache, hc, hn, hb]

theorem dropCache_length {h g : Heap} (heq : h.dropCache = g.dropCache) :
    h.blocks.length = g.blocks.length := by
  have := congrArg (fun x => x.blocks.length) heq
  simpa [Heap.dropCache] using this

theorem dropCache_block {h g : Heap} (heq : h.dropCache = g.dropCache) (p : Nat) :
    (h.blocks[p]? = none ∧ g.blocks[p]? = none) ∨
      ∃ b ca, h.blocks[p]? = some b ∧ g.blocks[p]? = some { b with cachedAttributes := ca } := by
  have hp := congrArg (fun x => x.blocks[p]?) heq
  simp only [Heap.dropCache, List.getElem?_map] at hp
  cases hh : h.blocks[p]? with
  | none =>
    cases hg : g.blocks[p]? with
    | none => exact Or.inl ⟨rfl, rfl⟩
    | some b2 => simp [hh, hg] at hp
  | some b =>
    cases hg : g.blocks[p]? with
    | none => simp [hh, hg] at hp
    | some b2 =>
      simp only [hh, hg, Option.map_some', Option.some.injEq, Block.dropCache] at hp
      refine Or.inr ⟨b, b2.cachedAttributes, rfl, ?_⟩
      congr 1
      cases b
      cases b2
      simp only [Block.mk.injEq] at hp ⊢
      obtain ⟨h1, h2, h3, h4, h5, h6, -⟩ := hp
      exact ⟨h1.symm, h2.symm, h3.symm, h4.symm, h5.symm, h6.symm, trivial⟩

theorem dropCache_of_ctxs {h g : Heap} (heq : h.dropCache = g.dropCache) (cs : List Context) :
    ({ h with ctxs := cs } : Heap).dropCache = ({ g with ctxs := cs } : Heap).dropCache := by
  have h1 := dropCache_nodes heq
  have h2 := congrArg Heap.blocks heq
  simp only [Heap.dropCache] at h2 ⊢
  rw [h1, h2]

theorem dropCache_of_nodes {h g : Heap} (heq : h.dropCache = g.dropCache) (ns : List HclBlock) :
    ({ h with nodes := ns } : Heap).dropCache = ({ g with nodes := ns } : Heap).dropCache := by
  have h1 := dropCache_ctxs heq
  have h2 := congrArg Heap.blocks heq
  simp only [Heap.dropCache] at h2 ⊢
  rw [h1, h2]

theorem dropCache_of_set {h g : Heap} (heq : h.dropCache = g.dropCache) (p : Nat) (x y : Block)
    (hxy : x.dropCache = y.dropCache) :
    ({ h with blocks := h.blocks.set p x } : Heap).dropCache =
      ({ g with blocks := g.blocks.set p y } : Heap).dropCache := by
  have h0 := dropCache_ctxs heq
  have h1 := dropCache_nodes heq
  have h2 := congrArg Heap.blocks heq
  simp only [Heap.dropCache] at h2 ⊢
  rw [h0, h1, List.map_set, List.map_set, h2, hxy]

theorem dropCache_of_alloc {h g : Heap} (heq : h.dropCache = g.dropCache) (x : Block) :
    (h.allocBlock x).1.dropCache = (g.allocBlock x).1.dropCache ∧
      (h.allocBlock x).2 = (g.allocBlock x).2 := by
  have h0 := dropCache_ctxs heq
  have h1 := dropCache_nodes heq
  have h2 := congrArg Heap.blocks heq
  have h3 := dropCache_length heq
  simp only [Heap.dropCache] at h2
  simp only [Heap.allocBlock, Heap.dropCache, List.map_append, h0, h1, h2, h3, and_self]

theorem dropCache_nodeOf {h g : Heap} (heq : h.dropCache = g.dropCache) (p : Nat) :
    h.nodeOf p = g.nodeOf p := by
  have hn := dropCache_nodes heq
  rcases dropCache_block heq p with ⟨h1, h2⟩ | ⟨b, ca, h1, h2⟩
  · simp [Heap.nodeOf, h1, h2]
  · simp [Heap.nodeOf, h1, h2, hn]

theorem dropCache_type {h g : Heap} (heq : h.dropCache = g.dropCache) (p : Nat) :
    Block.Type h p = Block.Type g p := by
  simp [Block.Type, dropCache_nodeOf heq]

theorem dropCache_labels {h g : Heap} (heq : h.dropCache = g.dropCache) (p : Nat) :
    Block.Labels h p = Block.Labels g p := by
  simp [Block.Labels, dropCache_nodeOf heq]

theorem dropCache_reference {h g : Heap} (heq : h.dropCache = g.dropCache) (p : Nat) :
    Block.Reference h p = Block.Reference g p := by
  simp [Block.Reference, dropCache_type heq, dropCache_labels heq]

theorem dropCache_localName {h g : Heap} (heq : h.dropCache = g.dropCache) (p : Nat) :
    Block.LocalName h p = Block.LocalName g p := by
  simp [Block.LocalName, dropCache_reference heq]

theorem dropCache_fullName {h g : Heap} (heq : h.dropCache = g.dropCache) :
    ∀ (fuel p : Nat), Block.FullName fuel h p = Block.FullName fuel g p := by
  intro fuel
  induction fuel with
  | zero => intro p; rfl
  | succ f ih =>
    intro p
    rcases dropCache_block heq p with ⟨h1, h2⟩ | ⟨b, ca, h1, h2⟩
    · simp [Block.FullName, h1, h2]
    · simp only [Block.FullName, h1, h2, dropCache_localName heq]
      cases b.moduleBlock with
      | none => rfl
      | some m => simp only [ih m]

theorem dropCache_getBlockLoop {h g : Heap} (heq : h.dropCache = g.dropCache) (name : String) :
    ∀ (kids : List Nat), getBlockLoop h name kids = getBlockLoop g name kids := by
  intro kids
  induction kids with
  | nil => rfl
  | cons k rest ih => simp only [getBlockLoop, dropCache_type heq, ih]

theorem dropCache_getBlock {h g : Heap} (heq : h.dropCache = g.dropCache) (b : Option Nat)
    (name : String) : Block.GetBlock h b name = Block.GetBlock g b name := by
  cases b with
  | none => rfl
  | some p =>
    rcases dropCache_block heq p with ⟨h1, h2⟩ | ⟨b, ca, h1, h2⟩
    · simp [Block.GetBlock, h1, h2]
    · simp only [Block.GetBlock, h1, h2, dropCache_getBlockLoop heq]

theorem dropCache_allBlocks {h g : Heap} (heq : h.dropCache = g.dropCache) (b : Option Nat) :
    Block.AllBlocks h b = Block.AllBlocks g b := by
  cases b with
  | none => rfl
  | some p =>
    rcases dropCache_block heq p with ⟨h1, h2⟩ | ⟨b, ca, h1, h2⟩
    · simp [Block.AllBlocks, h1, h2]
    · simp only [Block.AllBlocks, h1, h2]

theorem dropCache_hasModuleBlock {h g : Heap} (heq : h.dropCache = g.dropCache)
    (b : Option Nat) : Block.HasModuleBlock h b = Block.HasModuleBlock g b := by
  cases b with
  | none => rfl
  | some p =>
    rcases dropCache_block heq p with ⟨h1, h2⟩ | ⟨b, ca, h1, h2⟩
    · simp [Block.HasModuleBlock, h1, h2]
    · simp only [Block.HasModuleBlock, h1, h2]

theorem dropCache_flags {h g : Heap} (heq : h.dropCache = g.dropCache) (p : Nat) :
    Block.IsCountExpanded h p = Block.IsCountExpanded g p ∧
      Block.Context h p = Block.Context g p := by
  rcases dropCache_block heq p with ⟨h1, h2⟩ | ⟨b, ca, h1, h2⟩
  · simp [Block.IsCountExpanded, Block.Context, h1, h2]
  · simp [Block.IsCountExpanded, Block.Context, h1, h2]

theorem dropCache_labelsOf {h g : Heap} (heq : h.dropCache = g.dropCache) (b : Option Nat) :
    Block.TypeLabel h b = Block.TypeLabel g b ∧ Block.NameLabel h b = Block.NameLabel g b := by
  cases b with
  | none => exact ⟨rfl, rfl⟩
  | some p => simp only [Block.TypeLabel, Block.NameLabel, dropCache_labels heq, and_self]

theorem dropCache_label {h g : Heap} (heq : h.dropCache = g.dropCache) (p : Nat) :
    Block.Label h p = Block.Label g p := by
  simp [Block.Label, dropCache_nodeOf heq]

theorem dropCache_ofTypeLoop {h g : Heap} (heq : h.dropCache = g.dropCache) (t : String) :
    ∀ (bs acc : List Nat), ofTypeLoop h t bs acc = ofTypeLoop g t bs acc := by
  intro bs
  induction bs with
  | nil => intro acc; rfl
  | cons k rest ih =>
    intro acc
    simp only [ofTypeLoop, dropCache_type heq]
    cases Block.Type g k with
    | none => rfl
    | some ty => exact ih _

theorem dropCache_cases {α : Type} (x y : Option (Heap × α))
    (hxy : x.map (fun r => (r.1.dropCache, r.2)) = y.map (fun r => (r.1.dropCache, r.2))) :
    (x = none ∧ y = none) ∨
      ∃ r s, x = some r ∧ y = some s ∧ r.1.dropCache = s.1.dropCache ∧ r.2 = s.2 := by
  cases x with
  | none =>
    cases y with
    | none => exact Or.inl ⟨rfl, rfl⟩
    | some s => simp at hxy
  | some r =>
    cases y with
    | none => simp at hxy
    | some s =>
      simp only [Option.map_some', Option.some.injEq, Prod.mk.injEq] at hxy
      exact Or.inr ⟨r, s, rfl, rfl, hxy.1, hxy.2⟩

theorem dropCache_getAttributes {h g : Heap} (heq : h.dropCache = g.dropCache)
    (b : Option Nat) :
    (Block.GetAttributes h b).map (fun r => (r.1.dropCache, r.2)) =
      (Block.GetAttributes g b).map (fun r => (r.1.dropCache, r.2)) := by
  cases b with
  | none => simp [Block.GetAttributes, heq]
  | some p =>
    have hn := dropCache_nodes heq
    rcases dropCache_block heq p with ⟨h1, h2⟩ | ⟨b, ca, h1, h2⟩
    · simp [Block.GetAttributes, h1, h2]
    · simp only [Block.GetAttributes, h1, h2, hn]
      cases b.hclBlock with
      | none => simp [heq]
      | some np =>
        simp only []
        cases g.nodes[np]? with
        | none => rfl
        | some node =>
          simp only [Option.map_some', Option.some.injEq, Prod.mk.injEq, and_true]
          apply dropCache_mk _ _ _ _ _ _ (dropCache_ctxs heq) rfl
          rw [List.map_set, List.map_set, dropCache_blocks heq]

theorem dropCache_getAttribute {h g : Heap} (heq : h.dropCache = g.dropCache)
    (b : Option Nat) (name : String) :
    (Block.GetAttribute h b name).map (fun r => (r.1.dropCache, r.2)) =
      (Block.GetAttribute g b name).map (fun r => (r.1.dropCache, r.2)) := by
  cases b with
  | none => simp [Block.GetAttribute, heq]
  | some p =>
    have ha := dropCache_getAttributes heq (some p)
    rcases dropCache_block heq p with ⟨h1, h2⟩ | ⟨b, ca, h1, h2⟩
    · simp [Block.GetAttribute, h1, h2]
    · simp only [Block.GetAttribute, h1, h2]
      cases b.hclBlock with
      | none => simp [heq]
      | some np =>
        simp only []
        rcases dropCache_cases _ _ ha with ⟨e1, e2⟩ | ⟨r, s, e1, e2, e3, e4⟩
        · simp [e1, e2]
        · simp [e1, e2, e3, e4]

theorem dropCache_attributes {h g : Heap} (heq : h.dropCache = g.dropCache) (b : Option Nat) :
    (Block.Attributes h b).map (fun r => (r.1.dropCache, r.2)) =
      (Block.Attributes g b).map (fun r => (r.1.dropCache, r.2)) := by
  rcases dropCache_cases _ _ (dropCache_getAttributes heq b) with
    ⟨e1, e2⟩ | ⟨r, s, e1, e2, e3, e4⟩
  · simp [Block.Attributes, e1, e2]
  · simp [Block.Attributes, e1, e2, e3, e4]

theorem dropCache_values (value : Heap → Attribute → Val)
    (hval : ∀ (x y : Heap) (a : Attribute), x.dropCache = y.dropCache →
      value x a = value y a)
    {h g : Heap} (heq : h.dropCache = g.dropCache) (b : Option Nat) :
    (Block.Values value h b).map (fun r => (r.1.dropCache, r.2)) =
      (Block.Values value g b).map (fun r => (r.1.dropCache, r.2)) := by
  rcases dropCache_cases _ _ (dropCache_getAttributes heq b) with
    ⟨e1, e2⟩ | ⟨r, s, e1, e2, e3, e4⟩
  · simp [Block.Values, e1, e2]
  · have hv : (fun a => value r.1 a) = (fun a => value s.1 a) := by
      funext a
      exact hval r.1 s.1 a e3
    have hv2 : ∀ a, value r.1 a = value s.1 a := fun a => hval r.1 s.1 a e3
    simp [Block.Values, e1, e2, e3, e4, hv2]

theorem dropCache_hasChild {h g : Heap} (heq : h.dropCache = g.dropCache) (b : Option Nat)
    (name : String) :
    (Block.HasChild h b name).map (fun r => (r.1.dropCache, r.2)) =
      (Block.HasChild g b name).map (fun r => (r.1.dropCache, r.2)) := by
  rcases dropCache_cases _ _ (dropCache_getAttribute heq b name) with
    ⟨e1, e2⟩ | ⟨r, s, e1, e2, e3, e4⟩
  · simp [Block.HasChild, e1, e2]
  · simp only [Block.HasChild, e1, e2, e4, dropCache_getBlock e3]
    split
    · simp [e3]
    · cases Block.GetBlock s.1 b name with
      | none => rfl
      | some blk => simp [e3]

theorem dropCache_sim {α : Type} {x y : Option (Heap × α)}
    (hxy : x.map (fun r => (r.1.dropCache, r.2)) = y.map (fun r => (r.1.dropCache, r.2)))
    (r : Heap × α) (hx : x = some r) :
    ∃ s, y = some s ∧ r.1.dropCache = s.1.dropCache ∧ r.2 = s.2 := by
  rcases dropCache_cases x y hxy with ⟨e1, -⟩ | ⟨r2, s, e1, e2, e3, e4⟩
  · rw [hx] at e1; cases e1
  · rw [hx] at e1
    cases e1
    exact ⟨s, e2, e3, e4⟩

theorem dropCache_of_sim {α : Type} (x y : Option (Heap × α))
    (h1 : ∀ r, x = some r → ∃ s, y = some s ∧ r.1.dropCache = s.1.dropCache ∧ r.2 = s.2)
    (h2 : ∀ s, y = some s → ∃ r, x = some r ∧ s.1.dropCache = r.1.dropCache ∧ s.2 = r.2) :
    x.map (fun r => (r.1.dropCache, r.2)) = y.map (fun r => (r.1.dropCache, r.2)) := by
  cases x with
  | none =>
    cases y with
    | none => rfl
    | some s =>
      obtain ⟨r, hr, -⟩ := h2 s rfl
      cases hr
  | some r =>
    obtain ⟨s, hs, e1, e2⟩ := h1 r rfl
    subst hs
    simp [e1, e2]

theorem dropCache_of_simH (x y : Option Heap)
    (h1 : ∀ r, x = some r → ∃ s, y = some s ∧ r.dropCache = s.dropCache)
    (h2 : ∀ s, y = some s → ∃ r, x = some r ∧ s.dropCache = r.dropCache) :
    x.map Heap.dropCache = y.map Heap.dropCache := by
  cases x with
  | none =>
    cases y with
    | none => rfl
    | some s =>
      obtain ⟨r, hr, -⟩ := h2 s rfl
      cases hr
  | some r =>
    obtain ⟨s, hs, e1⟩ := h1 r rfl
    subst hs
    simp [e1]

theorem dropCache_newContext {h g : Heap} (heq : h.dropCache = g.dropCache)
    (parent : Option Nat) :
    (NewContext h parent).1.dropCache = (NewContext g parent).1.dropCache ∧
      (NewContext h parent).2 = (NewContext g parent).2 := by
  have hc := dropCache_ctxs heq
  exact ⟨dropCache_mk _ _ _ _ _ _ (by rw [hc]) (dropCache_nodes heq) (dropCache_blocks heq),
    by simp [NewContext, hc]⟩

theorem dropCache_allocNode {h g : Heap} (heq : h.dropCache = g.dropCache) (n : HclBlock) :
    (h.allocNode n).1.dropCache = (g.allocNode n).1.dropCache ∧
      (h.allocNode n).2 = (g.allocNode n).2 := by
  have hn := dropCache_nodes heq
  exact ⟨dropCache_mk _ _ _ _ _ _ (dropCache_ctxs heq) (by rw [hn]) (dropCache_blocks heq),
    by simp [Heap.allocNode, hn]⟩

mutual
theorem dropCache_newBlock : (body : Body) → ∀ (np : Nat) (ctx m : Option Nat) (h g : Heap),
    h.dropCache = g.dropCache →
    (newBlock body np ctx m h).1.dropCache = (newBlock body np ctx m g).1.dropCache ∧
      (newBlock body np ctx m h).2 = (newBlock body np ctx m g).2
  | .syntaxBody attrs blocks => by
    intro np ctx m h g heq
    cases ctx with
    | some c =>
      obtain ⟨e1, e2⟩ := dropCache_newChildren blocks c m h g heq
      simp only [newBlock, e2]
      exact dropCache_of_alloc e1 _
    | none =>
      obtain ⟨c1, c2⟩ := dropCache_newContext heq none
      obtain ⟨e1, e2⟩ := dropCache_newChildren blocks (NewContext h none).2 m
        (NewContext h none).1 (NewContext g none).1 c1
      simp only [newBlock, ← c2, e2]
      exact dropCache_of_alloc e1 _
  | .schemaBody diag attrs blocks => by
    intro np ctx m h g heq
    cases ctx with
    | some c =>
      obtain ⟨e1, e2⟩ := dropCache_newChildren blocks c m h g heq
      simp only [newBlock, e2]
      split
      · exact dropCache_of_alloc heq _
      · exact dropCache_of_alloc e1 _
    | none =>
      obtain ⟨c1, c2⟩ := dropCache_newContext heq none
      obtain ⟨e1, e2⟩ := dropCache_newChildren blocks (NewContext h none).2 m
        (NewContext h none).1 (NewContext g none).1 c1
      simp only [newBlock, ← c2, e2]
      split
      · exact dropCache_of_alloc c1 _
      · exact dropCache_of_alloc e1 _
theorem dropCache_newChildren : (ns : List HclBlock) → ∀ (c : Nat) (m : Option Nat)
    (h g : Heap), h.dropCache = g.dropCache →
    (newChildren ns c m h).1.dropCache = (newChildren ns c m g).1.dropCache ∧
      (newChildren ns c m h).2 = (newChildren ns c m g).2
  | [] => by
    intro c m h g heq
    exact ⟨heq, rfl⟩
  | (.mk t ls body) :: ns => by
    intro c m h g heq
    obtain ⟨a1, a2⟩ := dropCache_allocNode heq (.mk t ls body)
    obtain ⟨b1, b2⟩ := dropCache_newBlock body (h.allocNode (.mk t ls body)).2 (some c) m
      (h.allocNode (.mk t ls body)).1 (g.allocNode (.mk t ls body)).1 a1
    rw [a2] at b1 b2
    obtain ⟨r1, r2⟩ := dropCache_newChildren ns c m _ _ b1
    simp only [newChildren, a2, b2, r2, and_true]
    exact r1
end

theorem dropCache_newHCLBlock {h g : Heap} (heq : h.dropCache = g.dropCache) (np : Nat)
    (ctx m : Option Nat) :
    (NewHCLBlock h np ctx m).map (fun r => (r.1.dropCache, r.2)) =
      (NewHCLBlock g np ctx m).map (fun r => (r.1.dropCache, r.2)) := by
  simp only [NewHCLBlock, dropCache_nodes heq]
  cases g.nodes[np]? with
  | none => rfl
  | some node =>
    obtain ⟨e1, e2⟩ := dropCache_newBlock node.body np ctx m h g heq
    simp [e1, e2]

theorem dropCache_setLabels {h g : Heap} (heq : h.dropCache = g.dropCache) (np : Nat)
    (ls : List String) :
    (h.setLabels np ls).map Heap.dropCache = (g.setLabels np ls).map Heap.dropCache := by
  simp only [Heap.setLabels, dropCache_nodes heq]
  cases g.nodes[np]? with
  | none => rfl
  | some node =>
    simp only [Option.map_some', Option.some.injEq]
    exact dropCache_mk _ _ _ _ _ _ (dropCache_ctxs heq) rfl (dropCache_blocks heq)

theorem dropCache_setType {h g : Heap} (heq : h.dropCache = g.dropCache) (np : Nat)
    (t : String) :
    (h.setType np t).map Heap.dropCache = (g.setType np t).map Heap.dropCache := by
  simp only [Heap.setType, dropCache_nodes heq]
  cases g.nodes[np]? with
  | none => rfl
  | some node =>
    simp only [Option.map_some', Option.some.injEq]
    exact dropCache_mk _ _ _ _ _ _ (dropCache_ctxs heq) rfl (dropCache_blocks heq)

theorem dropCache_setByDot {h g : Heap} (heq : h.dropCache = g.dropCache) (c : Nat) (v : Val)
    (path : String) :
    (Context.SetByDot h c v path).map Heap.dropCache =
      (Context.SetByDot g c v path).map Heap.dropCache := by
  simp only [Context.SetByDot, dropCache_ctxs heq]
  cases g.ctxs[c]? with
  | none => rfl
  | some cx =>
    simp only [Option.map_some', Option.some.injEq]
    exact dropCache_mk _ _ _ _ _ _ rfl (dropCache_nodes heq) (dropCache_blocks heq)

theorem dropCache_newChild {h g : Heap} (heq : h.dropCache = g.dropCache) (c : Nat) :
    (Context.NewChild h c).map (fun r => (r.1.dropCache, r.2)) =
      (Context.NewChild g c).map (fun r => (r.1.dropCache, r.2)) := by
  simp only [Context.NewChild, dropCache_ctxs heq]
  cases g.ctxs[c]? with
  | none => rfl
  | some cx =>
    obtain ⟨e1, e2⟩ := dropCache_newContext heq (some c)
    simp [e1, e2]

theorem dropCache_modifyBlock {h g : Heap} (heq : h.dropCache = g.dropCache) (p : Nat)
    (f : Block → Block)
    (hf : ∀ b ca, (f b).dropCache = (f { b with cachedAttributes := ca }).dropCache) :
    (h.modifyBlock p f).map Heap.dropCache = (g.modifyBlock p f).map Heap.dropCache := by
  rcases dropCache_block heq p with ⟨h1, h2⟩ | ⟨b, ca, h1, h2⟩
  · simp [Heap.modifyBlock, h1, h2]
  · simp only [Heap.modifyBlock, h1, h2, Option.map_some', Option.some.injEq]
    exact dropCache_of_set heq p _ _ (hf b ca)

theorem dropCache_root {h g : Heap} (heq : h.dropCache = g.dropCache) (fuel c : Nat) :
    Context.Root fuel h c = Context.Root fuel g c :=
  Context.root_parents g h (fun q => by rw [dropCache_ctxs heq]) fuel c

theorem dropCache_simH {x y : Option Heap}
    (hxy : x.map Heap.dropCache = y.map Heap.dropCache) (r : Heap) (hx : x = some r) :
    ∃ s, y = some s ∧ r.dropCache = s.dropCache := by
  subst hx
  cases y with
  | none => simp at hxy
  | some s => exact ⟨s, rfl, by simpa using hxy⟩

theorem dropCache_block_some {h g : Heap} (heq : h.dropCache = g.dropCache) (p : Nat)
    (b : Block) (hb : h.blocks[p]? = some b) :
    ∃ ca, g.blocks[p]? = some { b with cachedAttributes := ca } := by
  rcases dropCache_block heq p with ⟨h1, -⟩ | ⟨b2, ca, h1, h2⟩
  · rw [hb] at h1; cases h1
  · rw [hb] at h1
    cases h1
    exact ⟨ca, h2⟩

theorem clone_sim (parse : String → Option BigFloat) (table : Char → Bool) {h g : Heap}
    (heq : h.dropCache = g.dropCache) (bp : Nat) (index : Val) (r : Heap × Nat)
    (hc : Block.Clone parse table h bp index = some r) :
    ∃ s, Block.Clone parse table g bp index = some s ∧ r.1.dropCache = s.1.dropCache ∧
      r.2 = s.2 := by
  simp only [Block.Clone, Option.bind_eq_bind, Option.bind_eq_some, Option.pure_def] at hc ⊢
  obtain ⟨b, hb, r1, hctx, np, hnp, node, hnode, r4, hnew, cb, hcb, cnp, hcnp, cnode, hcnode,
    h4, hlab, cctx, hcctx, h5, hset, h6, hm1, h7, hm2, hr⟩ := hc
  obtain ⟨ca, hb2⟩ := dropCache_block_some heq bp b hb
  -- the child context
  obtain ⟨s1, hctx2, e1, e1b⟩ : ∃ s1, (match b.context with
      | some c => Context.NewChild g c
      | none => some (NewContext g none)) = some s1 ∧ r1.1.dropCache = s1.1.dropCache ∧
      r1.2 = s1.2 := by
    cases hbc : b.context with
    | none =>
      simp only [hbc, Option.some.injEq] at hctx
      subst hctx
      obtain ⟨c1, c2⟩ := dropCache_newContext heq none
      exact ⟨_, rfl, c1, c2⟩
    | some c =>
      simp only [hbc] at hctx
      exact dropCache_sim (dropCache_newChild heq c) r1 hctx
  have hnode2 : s1.1.nodes[np]? = some node := by rw [← dropCache_nodes e1]; exact hnode
  obtain ⟨a1, a2⟩ := dropCache_allocNode e1 node
  -- the tree of the clone
  obtain ⟨s4, hnew2, e4, e4b⟩ := dropCache_sim
    (dropCache_newHCLBlock a1 (r1.1.allocNode node).2 (some r1.2) b.moduleBlock) r4 hnew
  rw [a2, e1b] at hnew2
  obtain ⟨cca, hcb2⟩ := dropCache_block_some e4 r4.2 cb hcb
  rw [e4b] at hcb2
  have hcnode2 : s4.1.nodes[cnp]? = some cnode := by rw [← dropCache_nodes e4]; exact hcnode
  obtain ⟨g4, hlab2, e5⟩ : ∃ g4, (if cnode.labels.length > 0 then
        s4.1.setLabels cnp (cloneLabels table cnode.labels index b.cloneIndex)
      else some s4.1) = some g4 ∧ h4.dropCache = g4.dropCache := by
    split at hlab
    · rename_i hpos
      simp only [hpos, if_true]
      exact dropCache_simH (dropCache_setLabels e4 cnp _) h4 hlab
    · rename_i hpos
      simp only [hpos, if_false]
      cases hlab
      exact ⟨_, rfl, e4⟩
  obtain ⟨g5, hset2, e6⟩ := dropCache_simH
    (dropCache_setByDot e5 cctx (toCtyNumber parse index) "count.index") h5 hset
  obtain ⟨g6, hm12, e7⟩ := dropCache_simH
    (dropCache_modifyBlock e6 r4.2 (fun x => { x with expanded := true }) (fun _ _ => rfl))
    h6 hm1
  obtain ⟨g7, hm22, e8⟩ := dropCache_simH
    (dropCache_modifyBlock e7 bp (fun x => { x with cloneIndex := x.cloneIndex + 1 })
      (fun _ _ => rfl)) h7 hm2
  rw [e4b] at hm12
  cases hr
  exact ⟨(g7, s4.2), ⟨_, hb2, s1, hctx2, np, hnp, node, hnode2, s4, hnew2, _, hcb2, cnp, hcnp,
    cnode, hcnode2, g4, hlab2, cctx, hcctx, g5, hset2, g6, hm12, g7, hm22, rfl⟩, e8, e4b⟩

theorem dropCache_clone (parse : String → Option BigFloat) (table : Char → Bool) {h g : Heap}
    (heq : h.dropCache = g.dropCache) (bp : Nat) (index : Val) :
    (Block.Clone parse table h bp index).map (fun r => (r.1.dropCache, r.2)) =
      (Block.Clone parse table g bp index).map (fun r => (r.1.dropCache, r.2)) :=
  dropCache_of_sim _ _ (clone_sim parse table heq bp index)
    (clone_sim parse table heq.symm bp index)

theorem dropCache_foldlM {β : Type} (F : Heap → β → Option Heap)
    (hF : ∀ (h g : Heap) (x : β), h.dropCache = g.dropCache →
      (F h x).map Heap.dropCache = (F g x).map Heap.dropCache) :
    ∀ (l : List β) (h g : Heap), h.dropCache = g.dropCache →
      (l.foldlM F h).map Heap.dropCache = (l.foldlM F g).map Heap.dropCache := by
  intro l
  induction l with
  | nil =>
    intro h g heq
    simp [heq]
  | cons x rest ih =>
    intro h g heq
    simp only [List.foldlM_cons, Option.bind_eq_bind]
    have hx := hF h g x heq
    cases e1 : F h x with
    | none =>
      cases e2 : F g x with
      | none => rfl
      | some s => simp [e1, e2] at hx
    | some r =>
      cases e2 : F g x with
      | none => simp [e1, e2] at hx
      | some s =>
        simp only [e1, e2, Option.map_some', Option.some.injEq] at hx
        simp only [Option.some_bind]
        exact ih r s hx

theorem dropCache_overrideContext :
    ∀ (fuel : Nat) (h g : Heap), h.dropCache = g.dropCache → ∀ (bp : Nat) (ctx : Option Nat),
      (Block.OverrideContext fuel h bp ctx).map Heap.dropCache =
        (Block.OverrideContext fuel g bp ctx).map Heap.dropCache := by
  intro fuel
  induction fuel with
  | zero => intro h g _ bp ctx; rfl
  | succ f ih =>
    intro h g heq bp ctx
    rcases dropCache_block heq bp with ⟨h1, h2⟩ | ⟨b, ca, h1, h2⟩
    · simp [Block.OverrideContext, h1, h2]
    · simp only [Block.OverrideContext, h1, h2]
      apply dropCache_foldlM
      · intro h3 g3 child heq3
        cases ctx with
        | none => rfl
        | some c =>
          simp only [overrideChild]
          rcases dropCache_cases _ _ (dropCache_newChild heq3 c) with
            ⟨e1, e2⟩ | ⟨r, s, e1, e2, e3, e4⟩
          · simp [e1, e2]
          · simp only [e1, e2, e4]
            exact ih r.1 s.1 e3 child (some s.2)
      · exact dropCache_of_set heq bp _ _ rfl

theorem inject_sim (value : Heap → Attribute → Val)
    (hval : ∀ (x y : Heap) (a : Attribute), x.dropCache = y.dropCache →
      value x a = value y a) (fuel : Nat)
    {h g : Heap} (heq : h.dropCache = g.dropCache) (bp sp : Nat) (name : String) (r : Heap)
    (hi : Block.InjectBlock value fuel h bp sp name = some r) :
    ∃ s, Block.InjectBlock value fuel g bp sp name = some s ∧ r.dropCache = s.dropCache := by
  simp only [Block.InjectBlock, Option.bind_eq_bind, Option.bind_eq_some] at hi ⊢
  obtain ⟨sb, hsb, snp, hsnp, h1, hh1, h2, hh2, ⟨h3, attrs⟩, hattr, h4, hloop, hmod⟩ := hi
  obtain ⟨ca, hsb2⟩ := dropCache_block_some heq sp sb hsb
  obtain ⟨g1, hg1, e1⟩ := dropCache_simH (dropCache_setLabels heq snp []) h1 hh1
  obtain ⟨g2, hg2, e2⟩ := dropCache_simH (dropCache_setType e1 snp name) h2 hh2
  obtain ⟨⟨g3, attrs2⟩, hattr2, e3, e3b⟩ :=
    dropCache_sim (dropCache_attributes e2 (some sp)) (h3, attrs) hattr
  simp only at e3 e3b
  subst e3b
  have hstep : ∀ (x y : Heap) (a : String × Attribute), x.dropCache = y.dropCache →
      ((x.blocks[bp]?).bind fun b => b.context.bind fun c =>
        (Context.Root fuel x c).bind fun root => (Block.LocalName x bp).bind fun ref =>
          Context.SetByDot x root (value x a.2) (ref ++ "." ++ name ++ "." ++ a.1)).map
            Heap.dropCache =
      ((y.blocks[bp]?).bind fun b => b.context.bind fun c =>
        (Context.Root fuel y c).bind fun root => (Block.LocalName y bp).bind fun ref =>
          Context.SetByDot y root (value y a.2) (ref ++ "." ++ name ++ "." ++ a.1)).map
            Heap.dropCache := by
    intro x y a hxy
    rcases dropCache_block hxy bp with ⟨k1, k2⟩ | ⟨b, cb, k1, k2⟩
    · simp [k1, k2]
    · simp only [k1, k2, Option.some_bind]
      cases b.context with
      | none => rfl
      | some c =>
        simp only [Option.some_bind, dropCache_root hxy, dropCache_localName hxy, hval x y a.2 hxy]
        cases Context.Root fuel y c with
        | none => rfl
        | some root =>
          cases Block.LocalName y bp with
          | none => rfl
          | some ref => exact dropCache_setByDot hxy root _ _
  obtain ⟨g4, hloop2, e4⟩ := dropCache_simH (dropCache_foldlM _ hstep attrs h3 g3 e3) h4 hloop
  obtain ⟨g5, hmod2, e5⟩ := dropCache_simH
    (dropCache_modifyBlock e4 bp (fun x => { x with childBlocks := x.childBlocks ++ [sp] })
      (fun _ _ => rfl)) r hmod
  exact ⟨g5, ⟨_, hsb2, snp, hsnp, g1, hg1, g2, hg2, (g3, attrs), hattr2, g4, hloop2, hmod2⟩, e5⟩

theorem dropCache_injectBlock (value : Heap → Attribute → Val)
    (hval : ∀ (x y : Heap) (a : Attribute), x.dropCache = y.dropCache →
      value x a = value y a) (fuel : Nat)
    {h g : Heap} (heq : h.dropCache = g.dropCache) (bp sp : Nat) (name : String) :
    (Block.InjectBlock value fuel h bp sp name).map Heap.dropCache =
      (Block.InjectBlock value fuel g bp sp name).map Heap.dropCache :=
  dropCache_of_simH _ _ (inject_sim value hval fuel heq bp sp name)
    (inject_sim value hval fuel heq.symm bp sp name)

theorem getAttributes_of_node (h : Heap) (p np : Nat) (b : Block) (node : HclBlock)
    (hb : h.blocks[p]? = some b) (hn : b.hclBlock = some np) (hnode : h.nodes[np]? = some node) :
    Block.GetAttributes h (some p) =
      some (⟨h.ctxs, h.nodes,
          h.blocks.set p { b with cachedAttributes := attributesOf node b.context }⟩,
        attributesOf node b.context) := by
  simp [Block.GetAttributes, hb, hn, hnode, attributesOf]

/-- C18: the attribute cache is written by `GetAttributes` and read by no
operation.  For two heaps that differ only in the fields `cachedAttributes` of
their blocks, every operation returns on both or on neither, with equal
results and with heaps that again differ only in those fields: `GetAttributes`,
`GetAttribute`, `Attributes`, `Values`, `HasChild`, `Clone`, `OverrideContext`,
`InjectBlock`, `NewHCLBlock`, and the accessors, which do not change the heap.
On a block with a `hcl.Block`, `GetAttributes` returns the attributes derived
from the node and the current Context of the block and stores them in the
cache; after `OverrideContext(ctx)` on the block these attributes carry `ctx`.
`value` is `Attribute.Value`, assumed not to read the caches either. -/
theorem Block.cache_never_read (value : Heap → Attribute → Val)
    (parse : String → Option BigFloat) (table : Char → Bool) (h g : Heap)
    (hval : ∀ (x y : Heap) (a : Attribute), x.dropCache = y.dropCache →
      value x a = value y a)
    (heq : h.dropCache = g.dropCache) :
    (∀ b, (Block.GetAttributes h b).map (fun r => (r.1.dropCache, r.2)) =
      (Block.GetAttributes g b).map (fun r => (r.1.dropCache, r.2))) ∧
    (∀ b x, (Block.GetAttribute h b x).map (fun r => (r.1.dropCache, r.2)) =
      (Block.GetAttribute g b x).map (fun r => (r.1.dropCache, r.2))) ∧
    (∀ b, (Block.Attributes h b).map (fun r => (r.1.dropCache, r.2)) =
      (Block.Attributes g b).map (fun r => (r.1.dropCache, r.2))) ∧
    (∀ b, (Block.Values value h b).map (fun r => (r.1.dropCache, r.2)) =
      (Block.Values value g b).map (fun r => (r.1.dropCache, r.2))) ∧
    (∀ b x, (Block.HasChild h b x).map (fun r => (r.1.dropCache, r.2)) =
      (Block.HasChild g b x).map (fun r => (r.1.dropCache, r.2))) ∧
    (∀ bp i, (Block.Clone parse table h bp i).map (fun r => (r.1.dropCache, r.2)) =
      (Block.Clone parse table g bp i).map (fun r => (r.1.dropCache, r.2))) ∧
    (∀ fuel bp ctx, (Block.OverrideContext fuel h bp ctx).map Heap.dropCache =
      (Block.OverrideContext fuel g bp ctx).map Heap.dropCache) ∧
    (∀ fuel bp sp name, (Block.InjectBlock value fuel h bp sp name).map Heap.dropCache =
      (Block.InjectBlock value fuel g bp sp name).map Heap.dropCache) ∧
    (∀ np ctx m, (NewHCLBlock h np ctx m).map (fun r => (r.1.dropCache, r.2)) =
      (NewHCLBlock g np ctx m).map (fun r => (r.1.dropCache, r.2))) ∧
    (∀ p, Block.Type h p = Block.Type g p ∧ Block.Labels h p = Block.Labels g p ∧
      Block.Reference h p = Block.Reference g p ∧ Block.LocalName h p = Block.LocalName g p ∧
      Block.Label h p = Block.Label g p ∧
      Block.IsCountExpanded h p = Block.IsCountExpanded g p ∧
      Block.Context h p = Block.Context g p) ∧
    (∀ fuel p, Block.FullName fuel h p = Block.FullName fuel g p) ∧
    (∀ b, Block.TypeLabel h b = Block.TypeLabel g b ∧
      Block.NameLabel h b = Block.NameLabel g b ∧
      Block.HasModuleBlock h b = Block.HasModuleBlock g b ∧
      Block.AllBlocks h b = Block.AllBlocks g b) ∧
    (∀ b name, Block.GetBlock h b name = Block.GetBlock g b name) ∧
    (∀ bs t, Blocks.OfType h bs t = Blocks.OfType g bs t) ∧
    (∀ p b np node, h.blocks[p]? = some b → b.hclBlock = some np →
      h.nodes[np]? = some node →
      Block.GetAttributes h (some p) =
        some (⟨h.ctxs, h.nodes,
            h.blocks.set p { b with cachedAttributes := attributesOf node b.context }⟩,
          attributesOf node b.context)) ∧
    (∀ (t : BTree) (fuel ctx : Nat) (b : Block) (np : Nat) (node : HclBlock),
      t.nodes.length ≤ fuel → Represents h t → (t.nodes.map Prod.fst).Nodup →
      ctx < h.ctxs.length → h.blocks[t.ptr]? = some b → b.hclBlock = some np →
      h.nodes[np]? = some node →
      ∃ h2, Block.OverrideContext fuel h t.ptr (some ctx) = some h2 ∧
        (Block.GetAttributes h2 (some t.ptr)).map Prod.snd =
          some (attributesOf node (some ctx)) ∧
        ∀ a ∈ attributesOf node (some ctx), a.ctx = some ctx) := by
  refine ⟨dropCache_getAttributes heq, dropCache_getAttribute heq, dropCache_attributes heq,
    dropCache_values value hval heq, dropCache_hasChild heq, dropCache_clone parse table heq,
    fun fuel => dropCache_overrideContext fuel h g heq,
    fun fuel => dropCache_injectBlock value hval fuel heq, dropCache_newHCLBlock heq,
    fun p => ⟨dropCache_type heq p, dropCache_labels heq p, dropCache_reference heq p,
      dropCache_localName heq p, dropCache_label heq p, dropCache_flags heq p⟩,
    dropCache_fullName heq,
    fun b => ⟨(dropCache_labelsOf heq b).1, (dropCache_labelsOf heq b).2,
      dropCache_hasModuleBlock heq b, dropCache_allBlocks heq b⟩,
    dropCache_getBlock heq, fun bs t => dropCache_ofTypeLoop heq t bs [],
    fun p b np node => getAttributes_of_node h p np b node, ?_⟩
  intro t fuel ctx b np node hf hr hnd hc hb hn hnode
  obtain ⟨h2, hoc, R⟩ := Block.overrideContext_rebound t fuel h ctx hf hr hnd hc
  refine ⟨h2, hoc, ?_, ?_⟩
  · obtain ⟨c, hcx, hanc, -⟩ := R.bound t.ptr 0 (BTree.root_mem_nodes t)
    have hstrip := R.strip t.ptr
    rw [hb] at hstrip
    cases hb2 : h2.blocks[t.ptr]? with
    | none => simp [hb2] at hstrip
    | some b2 =>
      simp only [hb2, Option.map_some', Option.some.injEq] at hstrip hcx
      have hn2 : b2.hclBlock = some np := by
        have := congrArg Block.hclBlock hstrip
        simp only [Block.dropContext] at this
        rw [this, hn]
      have hcc : c = ctx := by
        simp only [Context.ancestor, Nat.add_zero] at hanc
        split at hanc
        · exact Option.some.inj hanc
        · cases hanc
      have hnode2 : h2.nodes[np]? = some node := by rw [R.nodes]; exact hnode
      rw [getAttributes_of_node h2 t.ptr np b2 node hb2 hn2 hnode2, hcx, hcc]
      rfl
  · intro a ha
    unfold attributesOf at ha
    obtain ⟨p, -, rfl⟩ := List.mem_map.mp ha
    rfl

/-- Witness of C18: the heap `sampleStale` differs from `sampleInjected` only in
the cache of the injected block, which holds an attribute that the node does
not have; `GetAttribute` returns the attribute of the node on both heaps, and
after `OverrideContext` with the context 0 the attributes carry that context. -/
theorem Block.cache_never_read_witness :
    sampleStale.dropCache = sampleInjected.dropCache ∧
      (Block.GetAttribute sampleStale (some 1) "create").map Prod.snd =
        (Block.GetAttribute sampleInjected (some 1) "create").map Prod.snd ∧
      (Block.GetAttribute sampleStale (some 1) "create").map Prod.snd =
        some (some { hclAttr := { name := "create", expr := "30m" }, ctx := some 0 }) ∧
      ∃ h2, Block.OverrideContext 1 sampleStale 1 (some 0) = some h2 ∧
        (Block.GetAttributes h2 (some 1)).map Prod.snd =
          some [{ hclAttr := { name := "create", expr := "30m" }, ctx := some 0 }] := by
  obtain ⟨-, hga, -, -, -, -, -, -, -, -, -, -, -, -, -, hoc⟩ :=
    Block.cache_never_read sampleValue sampleParse sampleTable sampleStale
      sampleInjected (fun _ _ _ _ => rfl) rfl
  refine ⟨rfl, ?_, by decide, ?_⟩
  · have := congrArg (Option.map Prod.snd) (hga (some 1) "create")
    simpa [Option.map_map, Function.comp] using this
  · obtain ⟨h2, h1, h3, -⟩ := hoc (.node 1 []) 1 0 _ 1
      (.mk "timeouts" [] (.syntaxBody [{ name := "create", expr := "30m" }] []))
      (by decide) (by simp [Represents, RepresentsAll, sampleStale, Block.new]) (by decide)
      (by decide) rfl rfl rfl
    exact ⟨h2, h1, h3⟩

end Hcl
